import Mathlib

/-!
Segment tree with lazy propagation: a shallow embedding of `segment_tree/tree.go`.
* Go's `int` is modelled by `Int`, and the program is embedded twice.  In
  `flush`, `recRMQ`, `recRangeAdd`, `RangeMinQuery`, `RangeAdd` and `run` every
  sum is the exact sum: this is the arithmetic without overflow.  In `flush64`,
  `recRMQ64`, `recRangeAdd64`, `RangeMinQuery64`, `RangeAdd64` and `run64` every
  `+=` of the source is followed by `wrap64`, the reduction to the 64-bit two's
  complement value that a Go `int` keeps.  `New`, `recBuild` and `min` add
  nothing and serve both.  As long as the values of the array are 64-bit values
  within `MaxPossibleNumber` the two return the same results (`run_rep`,
  `run64_sim`), although entries of `lazy` may wrap around on the way.
* A slice is a `List Int`.  Every element read or write goes through `readAt` /
  `writeAt`, which fail with `Fault.indexOutOfRange` exactly where the Go
  runtime would raise an index-out-of-range error.
* A method with a pointer receiver takes the structure and returns the
  structure it leaves behind.
* The three recursive methods carry a depth budget (`fuel`): a call with budget
  `k + 1` may go `k` levels below the node it starts from, and a call that
  would need more fails with `Fault.outOfFuel`.  The public calls give the
  recursion a budget of `origLen`, more than any chain of strictly shrinking
  node ranges can use; the results do not depend on the budget once it
  suffices (`recRMQ_mono_le`, `recRangeAdd_mono_le`, `recBuild_mono_le`).
-/

namespace segment_tree

/-! ## The program -/

/-- Source: `MaxPossibleNumber = int(1e9 + 10)`, the largest value that may be stored. -/
def MaxPossibleNumber : Int := 1000000010

/-- Abnormal ends of a run: a Go runtime index error, or the depth budget of the model used up. -/
inductive Fault where
  | indexOutOfRange
  | outOfFuel
deriving DecidableEq

deriving instance DecidableEq for Except

/-- Source: `type SegmentTree struct { tree []int; lazy []int; origLen int }`. -/
structure SegmentTree where
  tree : List Int
  lazy : List Int
  origLen : Int
deriving DecidableEq

/-- Element read `a[i]` of a slice. -/
def readAt (a : List Int) (i : Int) : Except Fault Int :=
  if 0 ≤ i ∧ i < a.length then .ok (a.getD i.toNat 0) else .error .indexOutOfRange

/-- Element write `a[i] = v` of a slice. -/
def writeAt (a : List Int) (i : Int) (v : Int) : Except Fault (List Int) :=
  if 0 ≤ i ∧ i < a.length then .ok (a.set i.toNat v) else .error .indexOutOfRange

/-- Source: `func min(args ...int) int`: a running minimum that starts at `MaxPossibleNumber`. -/
def min (args : List Int) : Int :=
  args.foldl (fun t x => if x < t then x else t) MaxPossibleNumber

/-- Source: `func (s *SegmentTree) flush(cp, l, r int)`, every sum exact (the
arithmetic without overflow; `flush64` is the same with 64-bit sums). -/
def flush (s : SegmentTree) (cp l r : Int) : Except Fault SegmentTree := do
  let t ← readAt s.tree cp
  let z ← readAt s.lazy cp
  let tree ← writeAt s.tree cp (t + z)
  let s1 : SegmentTree := { s with tree := tree }
  let s2 ← (if l < r then do
      let a ← readAt s1.lazy (2 * cp + 1)
      let z1 ← readAt s1.lazy cp
      let lazy1 ← writeAt s1.lazy (2 * cp + 1) (a + z1)
      let b ← readAt lazy1 (2 * cp + 2)
      let z2 ← readAt lazy1 cp
      let lazy2 ← writeAt lazy1 (2 * cp + 2) (b + z2)
      pure { s1 with lazy := lazy2 }
    else pure s1)
  let lazy3 ← writeAt s2.lazy cp 0
  pure { s2 with lazy := lazy3 }

/-- Source: `func (s *SegmentTree) recBuild(cp, l, r int, x []int)`. -/
def recBuild : Nat → SegmentTree → Int → Int → Int → List Int → Except Fault SegmentTree
  | 0, _, _, _, _, _ => .error .outOfFuel
  | fuel + 1, s, cp, l, r, x =>
    if l ≥ r then do
      let v ← readAt x l
      let tree ← writeAt s.tree cp v
      pure { s with tree := tree }
    else do
      let mid := Int.tdiv (l + r) 2
      let s1 ← recBuild fuel s (2 * cp + 1) l mid x
      let s2 ← recBuild fuel s1 (2 * cp + 2) (mid + 1) r x
      let a ← readAt s2.tree (2 * cp + 1)
      let b ← readAt s2.tree (2 * cp + 2)
      let tree ← writeAt s2.tree cp (min [a, b])
      pure { s2 with tree := tree }

/-- Source: `func (s *SegmentTree) recRMQ(cp, ql, qr, l, r int) int`, with the
exact `flush`. -/
def recRMQ : Nat → SegmentTree → Int → Int → Int → Int → Int → Except Fault (Int × SegmentTree)
  | 0, _, _, _, _, _, _ => .error .outOfFuel
  | fuel + 1, s, cp, ql, qr, l, r => do
    let z ← readAt s.lazy cp
    let s0 ← (if z ≠ 0 then flush s cp l r else pure s)
    if ql ≤ l ∧ qr ≥ r then do
      let v ← readAt s0.tree cp
      pure (v, s0)
    else if ql > r ∨ qr < l then
      pure (MaxPossibleNumber, s0)
    else do
      let mid := Int.tdiv (l + r) 2
      let (lmin, s1) ← recRMQ fuel s0 (2 * cp + 1) ql qr l mid
      let (rmin, s2) ← recRMQ fuel s1 (2 * cp + 2) ql qr (mid + 1) r
      pure (min [lmin, rmin], s2)

/-- Source: `func (s *SegmentTree) recRangeAdd(cp, ql, qr, l, r, x int)`, every
sum exact (the arithmetic without overflow; `recRangeAdd64` is the same with
64-bit sums). -/
def recRangeAdd : Nat → SegmentTree → Int → Int → Int → Int → Int → Int → Except Fault SegmentTree
  | 0, _, _, _, _, _, _, _ => .error .outOfFuel
  | fuel + 1, s, cp, ql, qr, l, r, x => do
    let z ← readAt s.lazy cp
    let s0 ← (if z ≠ 0 then flush s cp l r else pure s)
    if ql > r ∨ qr < l then
      pure s0
    else if ql ≤ l ∧ qr ≥ r then do
      let t ← readAt s0.tree cp
      let tree ← writeAt s0.tree cp (t + x)
      let s1 : SegmentTree := { s0 with tree := tree }
      if l < r then do
        let a ← readAt s1.lazy (2 * cp + 1)
        let lazy1 ← writeAt s1.lazy (2 * cp + 1) (a + x)
        let b ← readAt lazy1 (2 * cp + 2)
        let lazy2 ← writeAt lazy1 (2 * cp + 2) (b + x)
        pure { s1 with lazy := lazy2 }
      else pure s1
    else do
      let mid := Int.tdiv (l + r) 2
      let s1 ← recRangeAdd fuel s0 (2 * cp + 1) ql qr l mid x
      let s2 ← recRangeAdd fuel s1 (2 * cp + 2) ql qr (mid + 1) r x
      let a ← readAt s2.tree (2 * cp + 1)
      let b ← readAt s2.tree (2 * cp + 2)
      let tree ← writeAt s2.tree cp (min [a, b])
      pure { s2 with tree := tree }

/-- Search for the least exponent `k` with `n ≤ 2 ^ k`, starting at `k` with `fuel` steps left. -/
def ceilLog2Aux : Nat → Nat → Nat → Nat
  | 0, k, _ => k
  | fuel + 1, k, n => if n ≤ 2 ^ k then k else ceilLog2Aux fuel (k + 1) n

/-- Source: `uint(math.Ceil(math.Log2(float64(len(x)))))`, taken as the exact
ceiling of the base-two logarithm (Go's `math.Log2` is exact on powers of two
and the rounding of the other values does not reach an integer for any slice
length that fits in memory). -/
def ceilLog2 (n : Nat) : Nat := ceilLog2Aux n 0 n

/-- Source: `func (s *SegmentTree) buildTree(x []int)`; the depth budget is the
length of the input, which no chain of strictly shrinking node ranges exceeds. -/
def buildTree (s : SegmentTree) (x : List Int) : Except Fault SegmentTree :=
  recBuild s.origLen.toNat s 0 0 (s.origLen - 1) x

/-- The error text of `New` on an empty slice. -/
def emptyInputError : String := "Provided slice should contain at least one element"

/-- Source: `fmt.Errorf("Invalid range: %d to %d", l, r)`. -/
def invalidRangeError (l r : Int) : String :=
  "Invalid range: " ++ toString l ++ " to " ++ toString r

/-- Source: `func New(x []int) (*SegmentTree, error)`; the pair is the Go
result pair, with `none` for `nil`. -/
def New (x : List Int) : Except Fault (Option SegmentTree × Option String) :=
  if x.length < 1 then
    pure (none, some emptyInputError)
  else do
    let n := 2 * (2 ^ ceilLog2 x.length) - 1
    let s : SegmentTree :=
      { tree := List.replicate n 0, lazy := List.replicate n 0, origLen := x.length }
    let s1 ← buildTree s x
    pure (some s1, none)

/-- Source: `func (s *SegmentTree) RangeMinQuery(l, r int) (int, error)`; the
result is the Go result pair together with the structure after the call. -/
def RangeMinQuery (s : SegmentTree) (l r : Int) :
    Except Fault ((Int × Option String) × SegmentTree) :=
  if l < 0 ∨ l > r ∨ r > s.origLen - 1 then
    pure ((0, some (invalidRangeError l r)), s)
  else do
    let (v, s1) ← recRMQ s.origLen.toNat s 0 l r 0 (s.origLen - 1)
    pure ((v, none), s1)

/-- Source: `func (s *SegmentTree) RangeAdd(l, r int, x int) error`; the result
is the Go error together with the structure after the call. -/
def RangeAdd (s : SegmentTree) (l r : Int) (x : Int) :
    Except Fault (Option String × SegmentTree) :=
  if l < 0 ∨ l > r ∨ r > s.origLen - 1 then
    pure (some (invalidRangeError l r), s)
  else do
    let s1 ← recRangeAdd s.origLen.toNat s 0 l r 0 (s.origLen - 1) x
    pure (none, s1)

/-! ## Vocabulary of the proofs -/

/-- The value `s.tree[i]`, and `0` outside the slice. -/
def tv (s : SegmentTree) (i : Nat) : Int := s.tree.getD i 0

/-- The value `s.lazy[i]`, and `0` outside the slice. -/
def lv (s : SegmentTree) (i : Nat) : Int := s.lazy.getD i 0

/-- Midpoint of a node range, as the source computes it. -/
def midOf (l r : Int) : Int := Int.tdiv (l + r) 2

/-- The structure that `flush` leaves behind when all its accesses are in range. -/
def flushState (s : SegmentTree) (c : Nat) (l r : Int) : SegmentTree :=
  { tree := s.tree.set c (tv s c + lv s c)
    lazy := (if l < r then
        (s.lazy.set (2 * c + 1) (lv s (2 * c + 1) + lv s c)).set (2 * c + 2)
          (lv s (2 * c + 2) + lv s c)
      else s.lazy).set c 0
    origLen := s.origLen }

/-- The structure after the conditional flush that opens `recRMQ` and `recRangeAdd`. -/
def preFlush (s : SegmentTree) (c : Nat) (l r : Int) : SegmentTree :=
  if lv s c ≠ 0 then flushState s c l r else s

/-- The structure after the fully covered branch of `recRangeAdd`. -/
def coverState (s : SegmentTree) (c : Nat) (l r x : Int) : SegmentTree :=
  { tree := s.tree.set c (tv s c + x)
    lazy := if l < r then
        (s.lazy.set (2 * c + 1) (lv s (2 * c + 1) + x)).set (2 * c + 2) (lv s (2 * c + 2) + x)
      else s.lazy
    origLen := s.origLen }

/-- The structure after a node recomputes its value from its two children. -/
def pullState (s : SegmentTree) (c : Nat) : SegmentTree :=
  { s with tree := s.tree.set c (min [tv s (2 * c + 1), tv s (2 * c + 2)]) }

/-- A node `c` covering `l..r` fits a slice of length `len` with `h` levels to
spare: its range has at most `2 ^ h` positions and the complete binary tree of
height `h` hanging from `c` stays inside the slice. -/
def Fit (len c : Nat) (l r : Int) (h : Nat) : Prop :=
  0 ≤ l ∧ l ≤ r ∧ r - l + 1 ≤ ((2 ^ h : Nat) : Int) ∧ (c + 2) * 2 ^ h ≤ len + 1

/-- The structure after `recBuild` stores an input value at a single-position node. -/
def leafState (s : SegmentTree) (c : Nat) (v : Int) : SegmentTree :=
  { s with tree := s.tree.set c v }

/-- Length of the two slices that `New` allocates for an input of length `n`. -/
def allocLen (n : Nat) : Nat := 2 * 2 ^ ceilLog2 n - 1

/-- The structure has the sizes that `New` gives it for an input of length `n`. -/
def Shape (n : Nat) (s : SegmentTree) : Prop :=
  1 ≤ n ∧ s.origLen = (n : Int) ∧ s.tree.length = allocLen n ∧ s.lazy.length = allocLen n

/-- The states reached from `New vals` by accepted `RangeAdd` and `RangeMinQuery` calls. -/
inductive Reachable (vals : List Int) : SegmentTree → Prop where
  | new (s : SegmentTree) : New vals = .ok (some s, none) → Reachable vals s
  | add (s : SegmentTree) (l r x : Int) (s' : SegmentTree) : Reachable vals s →
      0 ≤ l → l ≤ r → r ≤ s.origLen - 1 → RangeAdd s l r x = .ok (none, s') →
      Reachable vals s'
  | query (s : SegmentTree) (l r v : Int) (s' : SegmentTree) : Reachable vals s →
      0 ≤ l → l ≤ r → r ≤ s.origLen - 1 → RangeMinQuery s l r = .ok ((v, none), s') →
      Reachable vals s'

/-- Parent slot in the heap layout (`2i+1` and `2i+2` are the children of `i`). -/
def parent (j : Nat) : Nat := (j - 1) / 2

/-- Slot `j` belongs to the subtree hanging from slot `c`. -/
def InSub (c j : Nat) : Prop := ∃ k, parent^[k] j = c

/-- The value `m` is the minimum of `a` over the positions `l .. r`. -/
def IsMin (a : Int → Int) (l r m : Int) : Prop :=
  (∀ i, l ≤ i → i ≤ r → m ≤ a i) ∧ ∃ i, l ≤ i ∧ i ≤ r ∧ a i = m

/-- Node invariant: for the node `c` covering `l .. r`, with `p` the pending
additions of the nodes above it, the stored value plus everything pending on
the way down (the node's own lazy value included) is the minimum of the
reference array `a` over `l .. r`; and the same holds in both children. -/
inductive NodeOk (T L : Nat → Int) (a : Int → Int) : Nat → Int → Int → Int → Prop where
  | leaf (c : Nat) (l r p : Int) : l = r → T c + L c + p = a l → NodeOk T L a c l r p
  | node (c : Nat) (l r p : Int) : l < r → IsMin a l r (T c + L c + p) →
      NodeOk T L a (2 * c + 1) l (midOf l r) (p + L c) →
      NodeOk T L a (2 * c + 2) (midOf l r + 1) r (p + L c) → NodeOk T L a c l r p

/-- What `recRMQ` returns at a node `l .. r` for the query `ql .. qr`: a lower
bound of the queried positions of the node, at most the sentinel, and either
the value of one of those positions or the sentinel of a node outside the
query. -/
def QRes (a : Int → Int) (ql qr l r v : Int) : Prop :=
  (∀ i, ql ≤ i → i ≤ qr → l ≤ i → i ≤ r → v ≤ a i) ∧ v ≤ MaxPossibleNumber ∧
  ((∃ i, ql ≤ i ∧ i ≤ qr ∧ l ≤ i ∧ i ≤ r ∧ a i = v) ∨
    ((ql > r ∨ qr < l) ∧ v = MaxPossibleNumber))

/-! ## The reference array and sequences of public calls -/

/-- The loop `for i := range a { if l <= i && i <= r { a[i] += x } }`, from position `i` on. -/
def refAddFrom (l r x : Int) : Nat → List Int → List Int
  | _, [] => []
  | i, v :: vs => (if l ≤ (i : Int) ∧ (i : Int) ≤ r then v + x else v) :: refAddFrom l r x (i + 1) vs

/-- The reference array after `x` is added to the positions `l .. r`. -/
def refAdd (a : List Int) (l r x : Int) : List Int := refAddFrom l r x 0 a

/-- Running minimum of `a[l], a[l+1], ..., a[l+k]`. -/
def bruteMinFrom (a : List Int) (l : Nat) : Nat → Int
  | 0 => a.getD l 0
  | k + 1 =>
    let m := bruteMinFrom a l k
    let y := a.getD (l + k + 1) 0
    if y < m then y else m

/-- The brute-force minimum of the reference array over the positions `l .. r`. -/
def bruteMin (a : List Int) (l r : Int) : Int := bruteMinFrom a l.toNat (r - l).toNat

/-- The reference array as a function of the position. -/
def refFun (a : List Int) : Int → Int := fun i => a.getD i.toNat 0

/-- Every element of the array is at most `MaxPossibleNumber`. -/
def WithinLimit (a : List Int) : Prop := ∀ v ∈ a, v ≤ MaxPossibleNumber

instance (a : List Int) : Decidable (WithinLimit a) := by
  unfold WithinLimit; infer_instance

/-- The structure `s` has the shape of a tree built for an input as long as
`a`, the array `a` is within the limit, and the root satisfies the node
invariant for `a` with nothing pending above it. -/
def Rep (s : SegmentTree) (a : List Int) : Prop :=
  Shape a.length s ∧ WithinLimit a ∧
    NodeOk (tv s) (lv s) (refFun a) 0 0 ((a.length : Int) - 1) 0

/-- A public call on a constructed tree. -/
inductive Op where
  | add (l r x : Int)
  | query (l r : Int)
deriving DecidableEq

/-- What a public call returns: the error of `RangeAdd`, or the value and the
error of `RangeMinQuery`. -/
inductive Outcome where
  | added (err : Option String)
  | queried (v : Int) (err : Option String)
deriving DecidableEq

/-- One public call on the structure. -/
def step (s : SegmentTree) : Op → Except Fault (Outcome × SegmentTree)
  | .add l r x => do
    let (e, s1) ← RangeAdd s l r x
    pure (.added e, s1)
  | .query l r => do
    let ((v, e), s1) ← RangeMinQuery s l r
    pure (.queried v e, s1)

/-- A sequence of public calls, one after the other on the same structure. -/
def run (s : SegmentTree) : List Op → Except Fault (List Outcome × SegmentTree)
  | [] => pure ([], s)
  | op :: ops => do
    let (o, s1) ← step s op
    let (os, s2) ← run s1 ops
    pure (o :: os, s2)

/-- One call on the reference array: an addition changes the array, a query
returns the brute-force minimum; neither reports an error. -/
def refStep (a : List Int) : Op → Outcome × List Int
  | .add l r x => (.added none, refAdd a l r x)
  | .query l r => (.queried (bruteMin a l r) none, a)

/-- A sequence of calls on the reference array. -/
def refRun (a : List Int) : List Op → List Outcome × List Int
  | [] => ([], a)
  | op :: ops =>
    ((refStep a op).1 :: (refRun (refStep a op).2 ops).1, (refRun (refStep a op).2 ops).2)

/-- The range of the call is valid for an array of length `n`. -/
def Op.valid (n : Int) : Op → Prop
  | .add l r _ => 0 ≤ l ∧ l ≤ r ∧ r ≤ n - 1
  | .query l r => 0 ≤ l ∧ l ≤ r ∧ r ≤ n - 1

instance (n : Int) (op : Op) : Decidable (op.valid n) := by
  cases op <;> unfold Op.valid <;> infer_instance

/-- Every call of the sequence has a valid range, and the reference array is
within the limit at the start and after every call. -/
def Admissible (a : List Int) : List Op → Prop
  | [] => WithinLimit a
  | op :: ops => WithinLimit a ∧ op.valid a.length ∧ Admissible (refStep a op).2 ops

/-- Decision procedure for `Admissible`. -/
def decAdmissible : (ops : List Op) → (a : List Int) → Decidable (Admissible a ops)
  | [], a => inferInstanceAs (Decidable (WithinLimit a))
  | op :: ops, a =>
    have := decAdmissible ops (refStep a op).2
    inferInstanceAs (Decidable (WithinLimit a ∧ op.valid a.length ∧
      Admissible (refStep a op).2 ops))

instance (a : List Int) (ops : List Op) : Decidable (Admissible a ops) := decAdmissible ops a

/-- The calls `RangeAdd(l_i, r_i, x_i)` of a list of triples. -/
def addOps (adds : List (Int × Int × Int)) : List Op :=
  adds.map (fun t => Op.add t.1 t.2.1 t.2.2)

/-- The reference array after the additions of a list of triples, in order. -/
def refAdds (vals : List Int) (adds : List (Int × Int × Int)) : List Int :=
  adds.foldl (fun a t => refAdd a t.1 t.2.1 t.2.2) vals

/-- The nodes of the recursion tree over the positions `0 .. n-1`: the slot
`c`, the range `l .. r` it covers, and the sum `p` of the lazy values `L` of the
nodes strictly above it on the path from the root. -/
inductive TreeNode (L : Nat → Int) (n : Int) : Nat → Int → Int → Int → Prop where
  | root : TreeNode L n 0 0 (n - 1) 0
  | left (c : Nat) (l r p : Int) : TreeNode L n c l r p → l < r →
      TreeNode L n (2 * c + 1) l (midOf l r) (p + L c)
  | right (c : Nat) (l r p : Int) : TreeNode L n c l r p → l < r →
      TreeNode L n (2 * c + 2) (midOf l r + 1) r (p + L c)

/-- Source: `recRMQ`, with the number of calls of `recRMQ` (nodes visited) as
a first result: one for the call itself plus those of the two recursive calls. -/
def recRMQVisits : Nat → SegmentTree → Int → Int → Int → Int → Int →
    Except Fault (Nat × Int × SegmentTree)
  | 0, _, _, _, _, _, _ => .error .outOfFuel
  | fuel + 1, s, cp, ql, qr, l, r => do
    let z ← readAt s.lazy cp
    let s0 ← (if z ≠ 0 then flush s cp l r else pure s)
    if ql ≤ l ∧ qr ≥ r then do
      let v ← readAt s0.tree cp
      pure (1, v, s0)
    else if ql > r ∨ qr < l then
      pure (1, MaxPossibleNumber, s0)
    else do
      let mid := Int.tdiv (l + r) 2
      let (k1, lmin, s1) ← recRMQVisits fuel s0 (2 * cp + 1) ql qr l mid
      let (k2, rmin, s2) ← recRMQVisits fuel s1 (2 * cp + 2) ql qr (mid + 1) r
      pure (1 + k1 + k2, min [lmin, rmin], s2)

/-- Source: `recRangeAdd`, with the number of calls of `recRangeAdd` (nodes
visited) as a first result. -/
def recRangeAddVisits : Nat → SegmentTree → Int → Int → Int → Int → Int → Int →
    Except Fault (Nat × SegmentTree)
  | 0, _, _, _, _, _, _, _ => .error .outOfFuel
  | fuel + 1, s, cp, ql, qr, l, r, x => do
    let z ← readAt s.lazy cp
    let s0 ← (if z ≠ 0 then flush s cp l r else pure s)
    if ql > r ∨ qr < l then
      pure (1, s0)
    else if ql ≤ l ∧ qr ≥ r then do
      let t ← readAt s0.tree cp
      let tree ← writeAt s0.tree cp (t + x)
      let s1 : SegmentTree := { s0 with tree := tree }
      if l < r then do
        let a ← readAt s1.lazy (2 * cp + 1)
        let lazy1 ← writeAt s1.lazy (2 * cp + 1) (a + x)
        let b ← readAt lazy1 (2 * cp + 2)
        let lazy2 ← writeAt lazy1 (2 * cp + 2) (b + x)
        pure (1, { s1 with lazy := lazy2 })
      else pure (1, s1)
    else do
      let mid := Int.tdiv (l + r) 2
      let (k1, s1) ← recRangeAddVisits fuel s0 (2 * cp + 1) ql qr l mid x
      let (k2, s2) ← recRangeAddVisits fuel s1 (2 * cp + 2) ql qr (mid + 1) r x
      let a ← readAt s2.tree (2 * cp + 1)
      let b ← readAt s2.tree (2 * cp + 2)
      let tree ← writeAt s2.tree cp (min [a, b])
      pure (1 + k1 + k2, { s2 with tree := tree })

/-- The number of nodes that a query or an update of `ql .. qr` visits from a
node covering `l .. r`, as a function of the ranges alone: a node that is
fully covered or outside is the only one visited, any other node adds the
visits of its two children. -/
def visitCount : Nat → Int → Int → Int → Int → Nat
  | 0, _, _, _, _ => 0
  | fuel + 1, ql, qr, l, r =>
    if (ql ≤ l ∧ qr ≥ r) ∨ (ql > r ∨ qr < l) then 1
    else 1 + visitCount fuel ql qr l (midOf l r) + visitCount fuel ql qr (midOf l r + 1) r

/-- The value that a query of `ql .. qr` reads from the subtree of the node `c`
covering `l .. r`, `h` levels deep, when `p` is pending on the node from above:
the stored value with everything pending for a covered node, the sentinel for
a node outside the query, and `min` of the two children otherwise, to which the
node's own lazy value is pending too. -/
def qval (T L : Nat → Int) (ql qr : Int) : Nat → Nat → Int → Int → Int → Int
  | 0, _, _, _, _ => 0
  | h + 1, c, l, r, p =>
    if ql ≤ l ∧ qr ≥ r then T c + L c + p
    else if ql > r ∨ qr < l then MaxPossibleNumber
    else min [qval T L ql qr h (2 * c + 1) l (midOf l r) (p + L c),
      qval T L ql qr h (2 * c + 2) (midOf l r + 1) r (p + L c)]

/-! ## The program in 64-bit arithmetic -/

/-- The largest value of a Go `int` of 64 bits. -/
def MaxInt64 : Int := 9223372036854775807

/-- The least value of a Go `int` of 64 bits. -/
def MinInt64 : Int := -9223372036854775808

/-- The value is one that a Go `int` of 64 bits can hold. -/
def InInt64 (v : Int) : Prop := MinInt64 ≤ v ∧ v ≤ MaxInt64

instance (v : Int) : Decidable (InInt64 v) := by
  unfold InInt64; infer_instance

/-- Reduction of an integer to the 64-bit two's complement value that Go keeps
of it: the result of an `int` addition is `wrap64` of the exact sum. -/
def wrap64 (v : Int) : Int :=
  (v + 9223372036854775808) % 18446744073709551616 - 9223372036854775808

/-- Source: `func (s *SegmentTree) flush(cp, l, r int)`, every `+=` with the
wrap-around of a 64-bit `int`. -/
def flush64 (s : SegmentTree) (cp l r : Int) : Except Fault SegmentTree := do
  let t ← readAt s.tree cp
  let z ← readAt s.lazy cp
  let tree ← writeAt s.tree cp (wrap64 (t + z))
  let s1 : SegmentTree := { s with tree := tree }
  let s2 ← (if l < r then do
      let a ← readAt s1.lazy (2 * cp + 1)
      let z1 ← readAt s1.lazy cp
      let lazy1 ← writeAt s1.lazy (2 * cp + 1) (wrap64 (a + z1))
      let b ← readAt lazy1 (2 * cp + 2)
      let z2 ← readAt lazy1 cp
      let lazy2 ← writeAt lazy1 (2 * cp + 2) (wrap64 (b + z2))
      pure { s1 with lazy := lazy2 }
    else pure s1)
  let lazy3 ← writeAt s2.lazy cp 0
  pure { s2 with lazy := lazy3 }

/-- Source: `func (s *SegmentTree) recRMQ(cp, ql, qr, l, r int) int`, with the
64-bit `flush64`. -/
def recRMQ64 : Nat → SegmentTree → Int → Int → Int → Int → Int → Except Fault (Int × SegmentTree)
  | 0, _, _, _, _, _, _ => .error .outOfFuel
  | fuel + 1, s, cp, ql, qr, l, r => do
    let z ← readAt s.lazy cp
    let s0 ← (if z ≠ 0 then flush64 s cp l r else pure s)
    if ql ≤ l ∧ qr ≥ r then do
      let v ← readAt s0.tree cp
      pure (v, s0)
    else if ql > r ∨ qr < l then
      pure (MaxPossibleNumber, s0)
    else do
      let mid := Int.tdiv (l + r) 2
      let (lmin, s1) ← recRMQ64 fuel s0 (2 * cp + 1) ql qr l mid
      let (rmin, s2) ← recRMQ64 fuel s1 (2 * cp + 2) ql qr (mid + 1) r
      pure (min [lmin, rmin], s2)

/-- Source: `func (s *SegmentTree) recRangeAdd(cp, ql, qr, l, r, x int)`, every
`+=` with the wrap-around of a 64-bit `int`. -/
def recRangeAdd64 : Nat → SegmentTree → Int → Int → Int → Int → Int → Int →
    Except Fault SegmentTree
  | 0, _, _, _, _, _, _, _ => .error .outOfFuel
  | fuel + 1, s, cp, ql, qr, l, r, x => do
    let z ← readAt s.lazy cp
    let s0 ← (if z ≠ 0 then flush64 s cp l r else pure s)
    if ql > r ∨ qr < l then
      pure s0
    else if ql ≤ l ∧ qr ≥ r then do
      let t ← readAt s0.tree cp
      let tree ← writeAt s0.tree cp (wrap64 (t + x))
      let s1 : SegmentTree := { s0 with tree := tree }
      if l < r then do
        let a ← readAt s1.lazy (2 * cp + 1)
        let lazy1 ← writeAt s1.lazy (2 * cp + 1) (wrap64 (a + x))
        let b ← readAt lazy1 (2 * cp + 2)
        let lazy2 ← writeAt lazy1 (2 * cp + 2) (wrap64 (b + x))
        pure { s1 with lazy := lazy2 }
      else pure s1
    else do
      let mid := Int.tdiv (l + r) 2
      let s1 ← recRangeAdd64 fuel s0 (2 * cp + 1) ql qr l mid x
      let s2 ← recRangeAdd64 fuel s1 (2 * cp + 2) ql qr (mid + 1) r x
      let a ← readAt s2.tree (2 * cp + 1)
      let b ← readAt s2.tree (2 * cp + 2)
      let tree ← writeAt s2.tree cp (min [a, b])
      pure { s2 with tree := tree }

/-- Source: `func (s *SegmentTree) RangeMinQuery(l, r int) (int, error)`, with
the 64-bit recursion. -/
def RangeMinQuery64 (s : SegmentTree) (l r : Int) :
    Except Fault ((Int × Option String) × SegmentTree) :=
  if l < 0 ∨ l > r ∨ r > s.origLen - 1 then
    pure ((0, some (invalidRangeError l r)), s)
  else do
    let (v, s1) ← recRMQ64 s.origLen.toNat s 0 l r 0 (s.origLen - 1)
    pure ((v, none), s1)

/-- Source: `func (s *SegmentTree) RangeAdd(l, r int, x int) error`, with the
64-bit recursion. -/
def RangeAdd64 (s : SegmentTree) (l r : Int) (x : Int) :
    Except Fault (Option String × SegmentTree) :=
  if l < 0 ∨ l > r ∨ r > s.origLen - 1 then
    pure (some (invalidRangeError l r), s)
  else do
    let s1 ← recRangeAdd64 s.origLen.toNat s 0 l r 0 (s.origLen - 1) x
    pure (none, s1)

/-- One public call on the structure, in 64-bit arithmetic. -/
def step64 (s : SegmentTree) : Op → Except Fault (Outcome × SegmentTree)
  | .add l r x => do
    let (e, s1) ← RangeAdd64 s l r x
    pure (.added e, s1)
  | .query l r => do
    let ((v, e), s1) ← RangeMinQuery64 s l r
    pure (.queried v e, s1)

/-- A sequence of public calls in 64-bit arithmetic, one after the other on the
same structure. -/
def run64 (s : SegmentTree) : List Op → Except Fault (List Outcome × SegmentTree)
  | [] => pure ([], s)
  | op :: ops => do
    let (o, s1) ← step64 s op
    let (os, s2) ← run64 s1 ops
    pure (o :: os, s2)

/-- The structure that `flush64` leaves behind when all its accesses are in range. -/
def flushState64 (s : SegmentTree) (c : Nat) (l r : Int) : SegmentTree :=
  { tree := s.tree.set c (wrap64 (tv s c + lv s c))
    lazy := (if l < r then
        (s.lazy.set (2 * c + 1) (wrap64 (lv s (2 * c + 1) + lv s c))).set (2 * c + 2)
          (wrap64 (lv s (2 * c + 2) + lv s c))
      else s.lazy).set c 0
    origLen := s.origLen }

/-- The structure after the conditional flush that opens `recRMQ64` and `recRangeAdd64`. -/
def preFlush64 (s : SegmentTree) (c : Nat) (l r : Int) : SegmentTree :=
  if lv s c ≠ 0 then flushState64 s c l r else s

/-- The structure after the fully covered branch of `recRangeAdd64`. -/
def coverState64 (s : SegmentTree) (c : Nat) (l r x : Int) : SegmentTree :=
  { tree := s.tree.set c (wrap64 (tv s c + x))
    lazy := if l < r then
        (s.lazy.set (2 * c + 1) (wrap64 (lv s (2 * c + 1) + x))).set (2 * c + 2)
          (wrap64 (lv s (2 * c + 2) + x))
      else s.lazy
    origLen := s.origLen }

/-- The states reached from `New vals` by accepted `RangeAdd` and
`RangeMinQuery` calls in 64-bit arithmetic. -/
inductive Reachable64 (vals : List Int) : SegmentTree → Prop where
  | new (s : SegmentTree) : New vals = .ok (some s, none) → Reachable64 vals s
  | add (s : SegmentTree) (l r x : Int) (s' : SegmentTree) : Reachable64 vals s →
      0 ≤ l → l ≤ r → r ≤ s.origLen - 1 → RangeAdd64 s l r x = .ok (none, s') →
      Reachable64 vals s'
  | query (s : SegmentTree) (l r v : Int) (s' : SegmentTree) : Reachable64 vals s →
      0 ≤ l → l ≤ r → r ≤ s.origLen - 1 → RangeMinQuery64 s l r = .ok ((v, none), s') →
      Reachable64 vals s'

/-- The 64-bit structure `s64` goes with the structure `s` of the arithmetic
without overflow: same sizes, and every entry of `s64` is the 64-bit reduction
of the entry of `s`. -/
def Sim (s64 s : SegmentTree) : Prop :=
  s64.tree.length = s.tree.length ∧ s64.lazy.length = s.lazy.length ∧
  s64.origLen = s.origLen ∧ ∀ j, tv s64 j = wrap64 (tv s j) ∧ lv s64 j = wrap64 (lv s j)

/-- Every entry of `tree` and of `lazy` is a 64-bit value. -/
def Stored64 (s : SegmentTree) : Prop := ∀ j, InInt64 (tv s j) ∧ InInt64 (lv s j)

/-- Every element of the array is a 64-bit value. -/
def AllInt64 (a : List Int) : Prop := ∀ v ∈ a, InInt64 v

instance (a : List Int) : Decidable (AllInt64 a) := by
  unfold AllInt64; infer_instance

/-- The reference array holds 64-bit values at the start and after every call
of the sequence: no element of it ever overflows. -/
def StaysInt64 (a : List Int) : List Op → Prop
  | [] => AllInt64 a
  | op :: ops => AllInt64 a ∧ StaysInt64 (refStep a op).2 ops

/-- Decision procedure for `StaysInt64`. -/
def decStaysInt64 : (ops : List Op) → (a : List Int) → Decidable (StaysInt64 a ops)
  | [], a => inferInstanceAs (Decidable (AllInt64 a))
  | op :: ops, a =>
    have := decStaysInt64 ops (refStep a op).2
    inferInstanceAs (Decidable (AllInt64 a ∧ StaysInt64 (refStep a op).2 ops))

instance (a : List Int) (ops : List Op) : Decidable (StaysInt64 a ops) := decStaysInt64 ops a

/-! ## Elementary steps in closed form -/

theorem getD_set (a : List Int) (i j : Nat) (v : Int) :
    (a.set i v).getD j 0 = if i = j ∧ i < a.length then v else a.getD j 0 := by
  simp only [List.getD_eq_getElem?_getD, List.getElem?_set]
  by_cases h : i = j
  · subst h
    by_cases h2 : i < a.length
    · simp [h2]
    · simp [h2, List.getElem?_eq_none (Nat.le_of_not_lt h2)]
  · simp [h]

theorem readAt_nat (a : List Int) (c : Nat) (h : c < a.length) :
    readAt a (c : Int) = .ok (a.getD c 0) := by
  unfold readAt
  rw [if_pos ⟨by omega, by omega⟩]
  simp

theorem writeAt_nat (a : List Int) (c : Nat) (v : Int) (h : c < a.length) :
    writeAt a (c : Int) v = .ok (a.set c v) := by
  unfold writeAt
  rw [if_pos ⟨by omega, by omega⟩]
  simp

theorem cast_left (c : Nat) : (2 * (c : Int) + 1) = ((2 * c + 1 : Nat) : Int) := by
  push_cast; ring

theorem cast_right (c : Nat) : (2 * (c : Int) + 2) = ((2 * c + 2 : Nat) : Int) := by
  push_cast; ring

theorem min_pair (a b : Int) (ha : a ≤ MaxPossibleNumber) :
    min [a, b] = Min.min a b := by
  simp only [min, List.foldl]
  unfold MaxPossibleNumber at *
  split_ifs <;> omega

theorem midOf_eq (l r : Int) (h0 : 0 ≤ l) (h : l ≤ r) : midOf l r = (l + r) / 2 := by
  unfold midOf
  exact Int.tdiv_eq_ediv (by omega) (by omega)

theorem bind_ok {α β : Type} (a : α) (f : α → Except Fault β) :
    (Except.ok a >>= f) = f a := rfl

theorem bind_error {α β : Type} (e : Fault) (f : α → Except Fault β) :
    ((Except.error e : Except Fault α) >>= f) = Except.error e := rfl

theorem pure_ok {α : Type} (a : α) : (pure a : Except Fault α) = Except.ok a := rfl

theorem flush_eq (s : SegmentTree) (c : Nat) (l r : Int)
    (hT : c < s.tree.length) (hL : c < s.lazy.length)
    (hC : l < r → 2 * c + 2 < s.lazy.length) :
    flush s (c : Int) l r = .ok (flushState s c l r) := by
  unfold flush flushState
  simp only [readAt_nat _ _ hT, readAt_nat _ _ hL, writeAt_nat _ _ _ hT, bind_ok, pure_ok]
  by_cases hlr : l < r
  · have h2 := hC hlr
    simp only [hlr, if_true, cast_left, cast_right]
    rw [readAt_nat _ _ (by omega)]
    simp only [bind_ok]
    rw [writeAt_nat _ _ _ (by omega), bind_ok,
      readAt_nat _ _ (by simp; omega), bind_ok, readAt_nat _ _ (by simp; omega), bind_ok,
      writeAt_nat _ _ _ (by simp; omega), bind_ok, bind_ok,
      writeAt_nat _ _ _ (by simp; omega), bind_ok]
    simp only [getD_set, tv, lv]
    rw [if_neg (by omega), if_neg (by omega)]
  · simp only [hlr, if_false, bind_ok]
    rw [writeAt_nat _ _ _ hL, bind_ok]
    simp only [tv, lv]

theorem flushState_tree_length (s : SegmentTree) (c : Nat) (l r : Int) :
    (flushState s c l r).tree.length = s.tree.length := by
  simp [flushState]

theorem flushState_lazy_length (s : SegmentTree) (c : Nat) (l r : Int) :
    (flushState s c l r).lazy.length = s.lazy.length := by
  unfold flushState
  by_cases h : l < r <;> simp [h]

theorem preFlush_tree_length (s : SegmentTree) (c : Nat) (l r : Int) :
    (preFlush s c l r).tree.length = s.tree.length := by
  unfold preFlush
  split_ifs
  · exact flushState_tree_length s c l r
  · rfl

theorem preFlush_lazy_length (s : SegmentTree) (c : Nat) (l r : Int) :
    (preFlush s c l r).lazy.length = s.lazy.length := by
  unfold preFlush
  split_ifs
  · exact flushState_lazy_length s c l r
  · rfl

theorem preFlush_origLen (s : SegmentTree) (c : Nat) (l r : Int) :
    (preFlush s c l r).origLen = s.origLen := by
  unfold preFlush
  split_ifs
  · rfl
  · rfl

theorem coverState_tree_length (s : SegmentTree) (c : Nat) (l r x : Int) :
    (coverState s c l r x).tree.length = s.tree.length := by
  simp [coverState]

theorem coverState_lazy_length (s : SegmentTree) (c : Nat) (l r x : Int) :
    (coverState s c l r x).lazy.length = s.lazy.length := by
  unfold coverState
  by_cases h : l < r <;> simp [h]

theorem pullState_tree_length (s : SegmentTree) (c : Nat) :
    (pullState s c).tree.length = s.tree.length := by
  simp [pullState]

/-- The conditional flush that opens `recRMQ` and `recRangeAdd`, in closed form. -/
theorem preFlush_eq (s : SegmentTree) (c : Nat) (l r : Int)
    (hT : c < s.tree.length) (hL : c < s.lazy.length)
    (hC : l < r → 2 * c + 2 < s.lazy.length) :
    (if lv s c ≠ 0 then flush s (c : Int) l r else pure s) = .ok (preFlush s c l r) := by
  unfold preFlush
  by_cases hz : lv s c ≠ 0
  · rw [if_pos hz, if_pos hz, flush_eq s c l r hT hL hC]
  · rw [if_neg hz, if_neg hz, pure_ok]

/-- One level of `recRMQ` when the accesses at the node are in range. -/
theorem recRMQ_succ (f : Nat) (s : SegmentTree) (c : Nat) (ql qr l r : Int)
    (hT : c < s.tree.length) (hL : c < s.lazy.length)
    (hC : l < r → 2 * c + 2 < s.lazy.length) :
    recRMQ (f + 1) s (c : Int) ql qr l r =
      (if ql ≤ l ∧ qr ≥ r then .ok (tv (preFlush s c l r) c, preFlush s c l r)
       else if ql > r ∨ qr < l then .ok (MaxPossibleNumber, preFlush s c l r)
       else do
        let (lmin, s1) ← recRMQ f (preFlush s c l r) ((2 * c + 1 : Nat) : Int) ql qr l (midOf l r)
        let (rmin, s2) ← recRMQ f s1 ((2 * c + 2 : Nat) : Int) ql qr (midOf l r + 1) r
        pure (min [lmin, rmin], s2)) := by
  rw [recRMQ]
  rw [readAt_nat _ _ hL, bind_ok]
  have h0 := preFlush_eq s c l r hT hL hC
  unfold lv at h0
  rw [h0, bind_ok]
  by_cases h1 : ql ≤ l ∧ qr ≥ r
  · rw [if_pos h1, if_pos h1,
      readAt_nat _ _ (by rw [preFlush_tree_length]; exact hT), bind_ok, pure_ok]
    rfl
  · rw [if_neg h1, if_neg h1]
    by_cases h2 : ql > r ∨ qr < l
    · rw [if_pos h2, if_pos h2, pure_ok]
    · rw [if_neg h2, if_neg h2, cast_left, cast_right]
      rfl

/-- One level of `recRangeAdd` when the accesses at the node are in range. -/
theorem recRangeAdd_succ (f : Nat) (s : SegmentTree) (c : Nat) (ql qr l r x : Int)
    (hT : c < s.tree.length) (hL : c < s.lazy.length)
    (hC : l < r → 2 * c + 2 < s.lazy.length) :
    recRangeAdd (f + 1) s (c : Int) ql qr l r x =
      (if ql > r ∨ qr < l then .ok (preFlush s c l r)
       else if ql ≤ l ∧ qr ≥ r then .ok (coverState (preFlush s c l r) c l r x)
       else do
        let s1 ← recRangeAdd f (preFlush s c l r) ((2 * c + 1 : Nat) : Int) ql qr l (midOf l r) x
        let s2 ← recRangeAdd f s1 ((2 * c + 2 : Nat) : Int) ql qr (midOf l r + 1) r x
        let a ← readAt s2.tree ((2 * c + 1 : Nat) : Int)
        let b ← readAt s2.tree ((2 * c + 2 : Nat) : Int)
        let tree ← writeAt s2.tree (c : Int) (min [a, b])
        pure { s2 with tree := tree }) := by
  rw [recRangeAdd]
  rw [readAt_nat _ _ hL, bind_ok]
  have h0 := preFlush_eq s c l r hT hL hC
  unfold lv at h0
  rw [h0, bind_ok]
  have hT0 : c < (preFlush s c l r).tree.length := by rw [preFlush_tree_length]; exact hT
  have hL0 : (preFlush s c l r).lazy.length = s.lazy.length := preFlush_lazy_length s c l r
  by_cases h2 : ql > r ∨ qr < l
  · rw [if_pos h2, if_pos h2, pure_ok]
  · rw [if_neg h2, if_neg h2]
    by_cases h1 : ql ≤ l ∧ qr ≥ r
    · rw [if_pos h1, if_pos h1, readAt_nat _ _ hT0, bind_ok, writeAt_nat _ _ _ hT0, bind_ok]
      unfold coverState
      by_cases hlr : l < r
      · have h3 := hC hlr
        simp only [hlr, if_true, cast_left, cast_right]
        rw [readAt_nat _ _ (by omega), bind_ok, writeAt_nat _ _ _ (by omega), bind_ok,
          readAt_nat _ _ (by simp; omega), bind_ok, writeAt_nat _ _ _ (by simp; omega), bind_ok,
          pure_ok]
        simp only [getD_set, tv, lv]
        rw [if_neg (by omega)]
      · simp only [hlr, if_false, pure_ok, tv]
    · rw [if_neg h1, if_neg h1, cast_left, cast_right]
      rfl

/-- The closing step of a split node: both children are read and the node is rewritten. -/
theorem pull_eq (s : SegmentTree) (c : Nat) (h : 2 * c + 2 < s.tree.length) :
    (do
      let a ← readAt s.tree ((2 * c + 1 : Nat) : Int)
      let b ← readAt s.tree ((2 * c + 2 : Nat) : Int)
      let tree ← writeAt s.tree (c : Int) (min [a, b])
      (pure { s with tree := tree } : Except Fault SegmentTree)) = .ok (pullState s c) := by
  rw [readAt_nat _ _ (by omega), bind_ok, readAt_nat _ _ h, bind_ok,
    writeAt_nat _ _ _ (by omega), bind_ok, pure_ok]
  rfl

/-! ## The node ranges fit the allocation -/

theorem Fit.index {len c : Nat} {l r : Int} {h : Nat} (hf : Fit len c l r h) : c < len := by
  obtain ⟨_, _, _, h4⟩ := hf
  have hp : 1 ≤ 2 ^ h := Nat.one_le_two_pow
  have : (c + 2) * 1 ≤ (c + 2) * 2 ^ h := Nat.mul_le_mul_left _ hp
  omega

theorem Fit.height {len c : Nat} {l r : Int} {h : Nat} (hf : Fit len c l r h) (hlr : l < r) :
    ∃ k, h = k + 1 := by
  obtain ⟨_, _, h3, _⟩ := hf
  cases h with
  | zero => simp at h3; omega
  | succ k => exact ⟨k, rfl⟩

theorem Fit.children {len c : Nat} {l r : Int} {h : Nat} (hf : Fit len c l r h) (hlr : l < r) :
    2 * c + 2 < len := by
  obtain ⟨k, rfl⟩ := hf.height hlr
  obtain ⟨_, _, _, h4⟩ := hf
  have hp : 1 ≤ 2 ^ k := Nat.one_le_two_pow
  have h5 : (c + 2) * 2 ^ (k + 1) = (2 * c + 4) * 2 ^ k := by ring
  have : (2 * c + 4) * 1 ≤ (2 * c + 4) * 2 ^ k := Nat.mul_le_mul_left _ hp
  omega

theorem Fit.left {len c : Nat} {l r : Int} {k : Nat} (hf : Fit len c l r (k + 1))
    (hlr : l < r) : Fit len (2 * c + 1) l (midOf l r) k := by
  obtain ⟨h1, h2, h3, h4⟩ := hf
  rw [midOf_eq l r h1 h2]
  have h5 : (c + 2) * 2 ^ (k + 1) = (2 * c + 4) * 2 ^ k := by ring
  have h6 : (2 * c + 1 + 2) * 2 ^ k ≤ (2 * c + 4) * 2 ^ k :=
    Nat.mul_le_mul_right _ (by omega)
  have h7 : ((2 ^ (k + 1) : Nat) : Int) = 2 * ((2 ^ k : Nat) : Int) := by
    push_cast; ring
  refine ⟨h1, by omega, by omega, by omega⟩

theorem Fit.right {len c : Nat} {l r : Int} {k : Nat} (hf : Fit len c l r (k + 1))
    (hlr : l < r) : Fit len (2 * c + 2) (midOf l r + 1) r k := by
  obtain ⟨h1, h2, h3, h4⟩ := hf
  rw [midOf_eq l r h1 h2]
  have h5 : (c + 2) * 2 ^ (k + 1) = (2 * c + 2 + 2) * 2 ^ k := by ring
  have h7 : ((2 ^ (k + 1) : Nat) : Int) = 2 * ((2 ^ k : Nat) : Int) := by
    push_cast; ring
  refine ⟨by omega, by omega, by omega, by omega⟩

/-- With the node fitting the slices and a budget of at least its height plus
one, `recRMQ` returns, and it keeps the lengths and `origLen`. -/
theorem recRMQ_safe (h : Nat) : ∀ (f : Nat) (s : SegmentTree) (c : Nat) (ql qr l r : Int)
    (len : Nat), h ≤ f → s.tree.length = len → s.lazy.length = len → Fit len c l r h →
    ∃ v s', recRMQ (f + 1) s (c : Int) ql qr l r = .ok (v, s') ∧
      s'.tree.length = len ∧ s'.lazy.length = len ∧ s'.origLen = s.origLen := by
  induction h with
  | zero =>
    intro f s c ql qr l r len _ hT hL hfit
    have hc := hfit.index
    have hlr : ¬ l < r := by
      obtain ⟨_, _, h3, _⟩ := hfit
      simp at h3; omega
    rw [recRMQ_succ f s c ql qr l r (by omega) (by omega) (fun h => absurd h hlr)]
    have e1 := preFlush_tree_length s c l r
    have e2 := preFlush_lazy_length s c l r
    have e3 := preFlush_origLen s c l r
    by_cases h1 : ql ≤ l ∧ qr ≥ r
    · rw [if_pos h1]
      exact ⟨_, _, rfl, by omega, by omega, e3⟩
    · rw [if_neg h1]
      have h2 : ql > r ∨ qr < l := by obtain ⟨_, h2, _, _⟩ := hfit; omega
      rw [if_pos h2]
      exact ⟨_, _, rfl, by omega, by omega, e3⟩
  | succ k ih =>
    intro f s c ql qr l r len hf hT hL hfit
    have hc := hfit.index
    obtain ⟨g, rfl⟩ : ∃ g, f = g + 1 := ⟨f - 1, by omega⟩
    rw [recRMQ_succ (g + 1) s c ql qr l r (by omega) (by omega)
      (fun h => by have := hfit.children h; omega)]
    have e1 := preFlush_tree_length s c l r
    have e2 := preFlush_lazy_length s c l r
    have e3 := preFlush_origLen s c l r
    by_cases h1 : ql ≤ l ∧ qr ≥ r
    · rw [if_pos h1]
      exact ⟨_, _, rfl, by omega, by omega, e3⟩
    · rw [if_neg h1]
      by_cases h2 : ql > r ∨ qr < l
      · rw [if_pos h2]
        exact ⟨_, _, rfl, by omega, by omega, e3⟩
      · rw [if_neg h2]
        have hlr : l < r := by obtain ⟨_, h2, _, _⟩ := hfit; omega
        obtain ⟨v1, s1, q1, a1, b1, c1⟩ := ih g (preFlush s c l r) (2 * c + 1) ql qr l
          (midOf l r) len (by omega) (by omega) (by omega) (hfit.left hlr)
        obtain ⟨v2, s2, q2, a2, b2, c2⟩ := ih g s1 (2 * c + 2) ql qr
          (midOf l r + 1) r len (by omega) a1 b1 (hfit.right hlr)
        rw [q1, bind_ok]
        simp only []
        rw [q2, bind_ok]
        exact ⟨_, _, rfl, a2, b2, by rw [c2, c1, e3]⟩

/-- With the node fitting the slices and a budget of at least its height plus
one, `recRangeAdd` returns, and it keeps the lengths and `origLen`. -/
theorem recRangeAdd_safe (h : Nat) : ∀ (f : Nat) (s : SegmentTree) (c : Nat)
    (ql qr l r x : Int) (len : Nat), h ≤ f → s.tree.length = len → s.lazy.length = len →
    Fit len c l r h →
    ∃ s', recRangeAdd (f + 1) s (c : Int) ql qr l r x = .ok s' ∧
      s'.tree.length = len ∧ s'.lazy.length = len ∧ s'.origLen = s.origLen := by
  induction h with
  | zero =>
    intro f s c ql qr l r x len _ hT hL hfit
    have hc := hfit.index
    have hlr : ¬ l < r := by
      obtain ⟨_, _, h3, _⟩ := hfit
      simp at h3; omega
    rw [recRangeAdd_succ f s c ql qr l r x (by omega) (by omega) (fun h => absurd h hlr)]
    have e1 := preFlush_tree_length s c l r
    have e2 := preFlush_lazy_length s c l r
    have e3 := preFlush_origLen s c l r
    by_cases h2 : ql > r ∨ qr < l
    · rw [if_pos h2]
      exact ⟨_, rfl, by omega, by omega, e3⟩
    · rw [if_neg h2]
      have h1 : ql ≤ l ∧ qr ≥ r := by obtain ⟨_, h2, _, _⟩ := hfit; omega
      rw [if_pos h1]
      exact ⟨_, rfl, by rw [coverState_tree_length]; omega,
        by rw [coverState_lazy_length]; omega, e3⟩
  | succ k ih =>
    intro f s c ql qr l r x len hf hT hL hfit
    have hc := hfit.index
    obtain ⟨g, rfl⟩ : ∃ g, f = g + 1 := ⟨f - 1, by omega⟩
    rw [recRangeAdd_succ (g + 1) s c ql qr l r x (by omega) (by omega)
      (fun h => by have := hfit.children h; omega)]
    have e1 := preFlush_tree_length s c l r
    have e2 := preFlush_lazy_length s c l r
    have e3 := preFlush_origLen s c l r
    by_cases h2 : ql > r ∨ qr < l
    · rw [if_pos h2]
      exact ⟨_, rfl, by omega, by omega, e3⟩
    · rw [if_neg h2]
      by_cases h1 : ql ≤ l ∧ qr ≥ r
      · rw [if_pos h1]
        exact ⟨_, rfl, by rw [coverState_tree_length]; omega,
          by rw [coverState_lazy_length]; omega, e3⟩
      · rw [if_neg h1]
        have hlr : l < r := by obtain ⟨_, h2, _, _⟩ := hfit; omega
        have hch := hfit.children hlr
        obtain ⟨s1, q1, a1, b1, c1⟩ := ih g (preFlush s c l r) (2 * c + 1) ql qr l
          (midOf l r) x len (by omega) (by omega) (by omega) (hfit.left hlr)
        obtain ⟨s2, q2, a2, b2, c2⟩ := ih g s1 (2 * c + 2) ql qr
          (midOf l r + 1) r x len (by omega) a1 b1 (hfit.right hlr)
        rw [q1, bind_ok, q2, bind_ok, pull_eq s2 c (by omega)]
        exact ⟨_, rfl, by rw [pullState_tree_length]; exact a2, b2, by
          show s2.origLen = s.origLen
          rw [c2, c1, e3]⟩

theorem readAt_int (a : List Int) (i : Int) (h0 : 0 ≤ i) (h : i < a.length) :
    readAt a i = .ok (a.getD i.toNat 0) := by
  unfold readAt
  rw [if_pos ⟨h0, h⟩]

/-- One level of `recBuild` below the leaf test. -/
theorem recBuild_succ (f : Nat) (s : SegmentTree) (c : Nat) (l r : Int) (x : List Int) :
    recBuild (f + 1) s (c : Int) l r x =
      (if l ≥ r then do
        let v ← readAt x l
        let tree ← writeAt s.tree (c : Int) v
        pure { s with tree := tree }
       else do
        let s1 ← recBuild f s ((2 * c + 1 : Nat) : Int) l (midOf l r) x
        let s2 ← recBuild f s1 ((2 * c + 2 : Nat) : Int) (midOf l r + 1) r x
        let a ← readAt s2.tree ((2 * c + 1 : Nat) : Int)
        let b ← readAt s2.tree ((2 * c + 2 : Nat) : Int)
        let tree ← writeAt s2.tree (c : Int) (min [a, b])
        pure { s2 with tree := tree }) := by
  rw [recBuild, cast_left, cast_right]
  rfl

/-- With the node fitting the tree slice, the node range inside the input and a
budget of at least the node height plus one, `recBuild` returns; it keeps the
length of `tree` and does not touch `lazy` or `origLen`. -/
theorem recBuild_safe (h : Nat) : ∀ (f : Nat) (s : SegmentTree) (c : Nat) (l r : Int)
    (x : List Int) (len : Nat), h ≤ f → s.tree.length = len → Fit len c l r h →
    r < x.length →
    ∃ s', recBuild (f + 1) s (c : Int) l r x = .ok s' ∧
      s'.tree.length = len ∧ s'.lazy = s.lazy ∧ s'.origLen = s.origLen := by
  induction h with
  | zero =>
    intro f s c l r x len _ hT hfit hx
    have hc := hfit.index
    have hlr : l ≥ r := by
      obtain ⟨_, _, h3, _⟩ := hfit
      simp at h3; omega
    rw [recBuild_succ, if_pos hlr, readAt_int x l hfit.1 (by have := hfit.2.1; omega), bind_ok,
      writeAt_nat _ _ _ (by omega), bind_ok]
    exact ⟨_, rfl, by simp; exact hT, rfl, rfl⟩
  | succ k ih =>
    intro f s c l r x len hf hT hfit hx
    have hc := hfit.index
    obtain ⟨g, rfl⟩ : ∃ g, f = g + 1 := ⟨f - 1, by omega⟩
    rw [recBuild_succ]
    by_cases hlr : l ≥ r
    · rw [if_pos hlr, readAt_int x l hfit.1 (by have := hfit.2.1; omega), bind_ok,
        writeAt_nat _ _ _ (by omega), bind_ok]
      exact ⟨_, rfl, by simp; exact hT, rfl, rfl⟩
    · rw [if_neg hlr]
      have hlt : l < r := by omega
      have hch := hfit.children hlt
      have hm : midOf l r < r := by
        rw [midOf_eq l r hfit.1 hfit.2.1]; omega
      obtain ⟨s1, q1, a1, b1, c1⟩ := ih g s (2 * c + 1) l (midOf l r) x len (by omega) hT
        (hfit.left hlt) (by omega)
      obtain ⟨s2, q2, a2, b2, c2⟩ := ih g s1 (2 * c + 2) (midOf l r + 1) r x len (by omega) a1
        (hfit.right hlt) hx
      rw [q1, bind_ok, q2, bind_ok, pull_eq s2 c (by omega)]
      exact ⟨_, rfl, by rw [pullState_tree_length]; exact a2, by
        show s2.lazy = s.lazy
        rw [b2, b1], by
        show s2.origLen = s.origLen
        rw [c2, c1]⟩

/-! ## The exponent of the allocation -/

theorem ceilLog2Aux_le (n : Nat) : ∀ (fuel k j : Nat), k ≤ j → n ≤ 2 ^ j →
    ceilLog2Aux fuel k n ≤ j := by
  intro fuel
  induction fuel with
  | zero => intro k j hk _; simpa [ceilLog2Aux] using hk
  | succ g ih =>
    intro k j hk hj
    unfold ceilLog2Aux
    by_cases h : n ≤ 2 ^ k
    · rw [if_pos h]; exact hk
    · rw [if_neg h]
      refine ih (k + 1) j ?_ hj
      rcases Nat.lt_or_ge k j with h1 | h1
      · exact h1
      · have : j = k := by omega
        subst this
        exact absurd hj h

theorem ceilLog2Aux_spec (n : Nat) : ∀ (fuel k : Nat), n ≤ 2 ^ (k + fuel) →
    n ≤ 2 ^ ceilLog2Aux fuel k n := by
  intro fuel
  induction fuel with
  | zero => intro k h; simpa [ceilLog2Aux] using h
  | succ g ih =>
    intro k h
    unfold ceilLog2Aux
    by_cases h1 : n ≤ 2 ^ k
    · rw [if_pos h1]; exact h1
    · rw [if_neg h1]
      exact ih (k + 1) (by rw [show k + 1 + g = k + (g + 1) by omega]; exact h)

/-- The exponent covers the length: `n ≤ 2 ^ ceilLog2 n`. -/
theorem le_two_pow_ceilLog2 (n : Nat) : n ≤ 2 ^ ceilLog2 n := by
  unfold ceilLog2
  exact ceilLog2Aux_spec n n 0 (by rw [Nat.zero_add]; exact Nat.le_of_lt (Nat.lt_two_pow n))

/-- The exponent is the least one that covers the length. -/
theorem ceilLog2_le (n j : Nat) (h : n ≤ 2 ^ j) : ceilLog2 n ≤ j :=
  ceilLog2Aux_le n n 0 j (Nat.zero_le _) h

/-- The exponent is the ceiling of the base-two logarithm. -/
theorem ceilLog2_eq_clog (n : Nat) : ceilLog2 n = Nat.clog 2 n := by
  apply Nat.le_antisymm
  · exact ceilLog2_le n _ (Nat.le_pow_clog (by omega) n)
  · exact (Nat.le_pow_iff_clog_le (by omega)).mp (le_two_pow_ceilLog2 n)

theorem ceilLog2_lt (n : Nat) (h : 1 ≤ n) : ceilLog2 n ≤ n - 1 := by
  apply ceilLog2_le
  have : n - 1 < 2 ^ (n - 1) := Nat.lt_two_pow (n - 1)
  omega

/-! ## Shape of a constructed tree and the states the public calls reach -/

theorem rootFit (n : Nat) (hn : 1 ≤ n) :
    Fit (allocLen n) 0 0 ((n : Int) - 1) (ceilLog2 n) := by
  have h1 := le_two_pow_ceilLog2 n
  have h2 : 1 ≤ 2 ^ ceilLog2 n := Nat.one_le_two_pow
  refine ⟨le_refl _, by omega, ?_, ?_⟩
  · have : (n : Int) ≤ ((2 ^ ceilLog2 n : Nat) : Int) := by exact_mod_cast h1
    omega
  · unfold allocLen
    omega

theorem New_empty (x : List Int) (hx : x.length = 0) :
    New x = .ok (none, some emptyInputError) := by
  unfold New
  rw [if_pos (by omega)]
  rfl

theorem New_shape (x : List Int) (hx : x.length ≠ 0) :
    ∃ s, New x = .ok (some s, none) ∧ Shape x.length s ∧
      s.lazy = List.replicate (allocLen x.length) 0 := by
  have hn : 1 ≤ x.length := by omega
  unfold New
  rw [if_neg (by omega)]
  unfold buildTree
  simp only [Int.toNat_ofNat]
  obtain ⟨g, hg⟩ : ∃ g, x.length = g + 1 := ⟨x.length - 1, by omega⟩
  have hfuel : ceilLog2 x.length ≤ g := by
    have := ceilLog2_lt x.length hn
    omega
  obtain ⟨s', q, a, b, c⟩ := recBuild_safe (ceilLog2 x.length) g
    { tree := List.replicate (allocLen x.length) 0, lazy := List.replicate (allocLen x.length) 0,
      origLen := (x.length : Int) } 0 0 ((x.length : Int) - 1) x (allocLen x.length) hfuel
    (by simp) (rootFit x.length hn) (by omega)
  have q' : recBuild x.length
      { tree := List.replicate (2 * 2 ^ ceilLog2 x.length - 1) 0,
        lazy := List.replicate (2 * 2 ^ ceilLog2 x.length - 1) 0,
        origLen := (x.length : Int) } 0 0 ((x.length : Int) - 1) x = .ok s' := by
    rw [← q, hg]; rfl
  rw [q', bind_ok, pure_ok]
  refine ⟨s', rfl, ⟨hn, c, a, ?_⟩, b⟩
  rw [b]; simp

theorem RangeMinQuery_shape (n : Nat) (s : SegmentTree) (hs : Shape n s) (l r : Int)
    (h0 : 0 ≤ l) (hlr : l ≤ r) (hr : r ≤ (n : Int) - 1) :
    ∃ v s', RangeMinQuery s l r = .ok ((v, none), s') ∧ Shape n s' ∧
      recRMQ n s 0 l r 0 ((n : Int) - 1) = .ok (v, s') := by
  obtain ⟨hn, ho, hT, hL⟩ := hs
  unfold RangeMinQuery
  rw [if_neg (by omega), ho]
  simp only [Int.toNat_ofNat]
  obtain ⟨g, hg⟩ : ∃ g, n = g + 1 := ⟨n - 1, by omega⟩
  have hfuel : ceilLog2 n ≤ g := by
    have := ceilLog2_lt n hn
    omega
  obtain ⟨v, s', q, a, b, c⟩ := recRMQ_safe (ceilLog2 n) g s 0 l r 0 ((n : Int) - 1)
    (allocLen n) hfuel hT hL (rootFit n hn)
  have q' : recRMQ n s 0 l r 0 ((n : Int) - 1) = .ok (v, s') := by
    rw [← q, hg]; rfl
  rw [q', bind_ok]
  exact ⟨v, s', rfl, ⟨hn, by rw [c, ho], a, b⟩, rfl⟩

theorem RangeAdd_shape (n : Nat) (s : SegmentTree) (hs : Shape n s) (l r x : Int)
    (h0 : 0 ≤ l) (hlr : l ≤ r) (hr : r ≤ (n : Int) - 1) :
    ∃ s', RangeAdd s l r x = .ok (none, s') ∧ Shape n s' ∧
      recRangeAdd n s 0 l r 0 ((n : Int) - 1) x = .ok s' := by
  obtain ⟨hn, ho, hT, hL⟩ := hs
  unfold RangeAdd
  rw [if_neg (by omega), ho]
  simp only [Int.toNat_ofNat]
  obtain ⟨g, hg⟩ : ∃ g, n = g + 1 := ⟨n - 1, by omega⟩
  have hfuel : ceilLog2 n ≤ g := by
    have := ceilLog2_lt n hn
    omega
  obtain ⟨s', q, a, b, c⟩ := recRangeAdd_safe (ceilLog2 n) g s 0 l r 0 ((n : Int) - 1) x
    (allocLen n) hfuel hT hL (rootFit n hn)
  have q' : recRangeAdd n s 0 l r 0 ((n : Int) - 1) x = .ok s' := by
    rw [← q, hg]; rfl
  rw [q', bind_ok]
  exact ⟨s', rfl, ⟨hn, by rw [c, ho], a, b⟩, rfl⟩

theorem RangeMinQuery_invalid (s : SegmentTree) (l r : Int)
    (h : l < 0 ∨ l > r ∨ r > s.origLen - 1) :
    RangeMinQuery s l r = .ok ((0, some (invalidRangeError l r)), s) := by
  unfold RangeMinQuery
  rw [if_pos h]
  rfl

theorem RangeAdd_invalid (s : SegmentTree) (l r x : Int)
    (h : l < 0 ∨ l > r ∨ r > s.origLen - 1) :
    RangeAdd s l r x = .ok (some (invalidRangeError l r), s) := by
  unfold RangeAdd
  rw [if_pos h]
  rfl

theorem RangeMinQuery_valid_error (s : SegmentTree) (l r : Int)
    (h : ¬ (l < 0 ∨ l > r ∨ r > s.origLen - 1)) (v : Int) (e : Option String)
    (s' : SegmentTree) (hq : RangeMinQuery s l r = .ok ((v, e), s')) : e = none := by
  unfold RangeMinQuery at hq
  rw [if_neg h] at hq
  cases hrec : recRMQ s.origLen.toNat s 0 l r 0 (s.origLen - 1) with
  | error err => rw [hrec, bind_error] at hq; cases hq
  | ok p =>
    rw [hrec, bind_ok] at hq
    obtain ⟨v1, s1⟩ := p
    simp only [pure_ok] at hq
    injection hq with hq
    injection hq with hq1 _
    injection hq1 with _ hq2
    exact hq2.symm

theorem RangeAdd_valid_error (s : SegmentTree) (l r x : Int)
    (h : ¬ (l < 0 ∨ l > r ∨ r > s.origLen - 1)) (e : Option String)
    (s' : SegmentTree) (hq : RangeAdd s l r x = .ok (e, s')) : e = none := by
  unfold RangeAdd at hq
  rw [if_neg h] at hq
  cases hrec : recRangeAdd s.origLen.toNat s 0 l r 0 (s.origLen - 1) x with
  | error err => rw [hrec, bind_error] at hq; cases hq
  | ok p =>
    rw [hrec, bind_ok, pure_ok] at hq
    injection hq with hq
    injection hq with hq1 _
    exact hq1.symm

theorem Reachable.shape {vals : List Int} {s : SegmentTree} (h : Reachable vals s) :
    Shape vals.length s := by
  induction h with
  | new s hnew =>
    by_cases hx : vals.length = 0
    · rw [New_empty vals hx] at hnew
      cases hnew
    · obtain ⟨s1, q, hs, _⟩ := New_shape vals hx
      rw [q] at hnew
      cases hnew
      exact hs
  | add s l r x s' _ h0 hlr hr hq ih =>
    rw [ih.2.1] at hr
    obtain ⟨s1, q, hs, _⟩ := RangeAdd_shape vals.length s ih l r x h0 hlr hr
    rw [q] at hq
    cases hq
    exact hs
  | query s l r v s' _ h0 hlr hr hq ih =>
    rw [ih.2.1] at hr
    obtain ⟨v1, s1, q, hs, _⟩ := RangeMinQuery_shape vals.length s ih l r h0 hlr hr
    rw [q] at hq
    cases hq
    exact hs

/-! ## A larger depth budget does not change a result -/

theorem recRMQ_mono : ∀ (f : Nat) (s : SegmentTree) (cp ql qr l r : Int)
    (res : Int × SegmentTree), recRMQ f s cp ql qr l r = .ok res →
    recRMQ (f + 1) s cp ql qr l r = .ok res := by
  intro f
  induction f with
  | zero => intro s cp ql qr l r res h; simp [recRMQ] at h
  | succ g ih =>
    intro s cp ql qr l r res h
    rw [recRMQ] at h ⊢
    cases hz : readAt s.lazy cp with
    | error e => simp [hz, bind_error] at h
    | ok z =>
      simp only [hz, bind_ok] at h ⊢
      cases hf : (if z ≠ 0 then flush s cp l r else pure s) with
      | error e => simp [hf, bind_error] at h
      | ok s0 =>
        simp only [hf, bind_ok] at h ⊢
        by_cases h1 : ql ≤ l ∧ qr ≥ r
        · rw [if_pos h1] at h ⊢; exact h
        · rw [if_neg h1] at h ⊢
          by_cases h2 : ql > r ∨ qr < l
          · rw [if_pos h2] at h ⊢; exact h
          · rw [if_neg h2] at h ⊢
            cases q1 : recRMQ g s0 (2 * cp + 1) ql qr l ((l + r).tdiv 2) with
            | error e => simp [q1, bind_error] at h
            | ok p1 =>
              simp only [q1, bind_ok] at h
              rw [ih _ _ _ _ _ _ _ q1, bind_ok]
              obtain ⟨v1, s1⟩ := p1
              simp only [] at h ⊢
              cases q2 : recRMQ g s1 (2 * cp + 2) ql qr ((l + r).tdiv 2 + 1) r with
              | error e => simp [q2, bind_error] at h
              | ok p2 =>
                simp only [q2, bind_ok] at h
                rw [ih _ _ _ _ _ _ _ q2, bind_ok]
                exact h

theorem recRangeAdd_mono : ∀ (f : Nat) (s : SegmentTree) (cp ql qr l r x : Int)
    (res : SegmentTree), recRangeAdd f s cp ql qr l r x = .ok res →
    recRangeAdd (f + 1) s cp ql qr l r x = .ok res := by
  intro f
  induction f with
  | zero => intro s cp ql qr l r x res h; simp [recRangeAdd] at h
  | succ g ih =>
    intro s cp ql qr l r x res h
    rw [recRangeAdd] at h ⊢
    cases hz : readAt s.lazy cp with
    | error e => simp [hz, bind_error] at h
    | ok z =>
      simp only [hz, bind_ok] at h ⊢
      cases hf : (if z ≠ 0 then flush s cp l r else pure s) with
      | error e => simp [hf, bind_error] at h
      | ok s0 =>
        simp only [hf, bind_ok] at h ⊢
        by_cases h2 : ql > r ∨ qr < l
        · rw [if_pos h2] at h ⊢; exact h
        · rw [if_neg h2] at h ⊢
          by_cases h1 : ql ≤ l ∧ qr ≥ r
          · rw [if_pos h1] at h ⊢; exact h
          · rw [if_neg h1] at h ⊢
            cases q1 : recRangeAdd g s0 (2 * cp + 1) ql qr l ((l + r).tdiv 2) x with
            | error e => simp [q1, bind_error] at h
            | ok s1 =>
              simp only [q1, bind_ok] at h
              rw [ih _ _ _ _ _ _ _ _ q1, bind_ok]
              cases q2 : recRangeAdd g s1 (2 * cp + 2) ql qr ((l + r).tdiv 2 + 1) r x with
              | error e => simp [q2, bind_error] at h
              | ok s2 =>
                simp only [q2, bind_ok] at h
                rw [ih _ _ _ _ _ _ _ _ q2, bind_ok]
                exact h

theorem recBuild_mono : ∀ (f : Nat) (s : SegmentTree) (cp l r : Int) (x : List Int)
    (res : SegmentTree), recBuild f s cp l r x = .ok res →
    recBuild (f + 1) s cp l r x = .ok res := by
  intro f
  induction f with
  | zero => intro s cp l r x res h; simp [recBuild] at h
  | succ g ih =>
    intro s cp l r x res h
    rw [recBuild] at h ⊢
    by_cases h1 : l ≥ r
    · rw [if_pos h1] at h ⊢; exact h
    · rw [if_neg h1] at h ⊢
      cases q1 : recBuild g s (2 * cp + 1) l ((l + r).tdiv 2) x with
      | error e => simp [q1, bind_error] at h
      | ok s1 =>
        simp only [q1, bind_ok] at h
        dsimp only
        rw [ih _ _ _ _ _ _ q1, bind_ok]
        cases q2 : recBuild g s1 (2 * cp + 2) ((l + r).tdiv 2 + 1) r x with
        | error e => simp [q2, bind_error] at h
        | ok s2 =>
          simp only [q2, bind_ok] at h
          rw [ih _ _ _ _ _ _ q2, bind_ok]
          exact h

theorem recRMQ_mono_le (f g : Nat) (hfg : f ≤ g) (s : SegmentTree) (cp ql qr l r : Int)
    (res : Int × SegmentTree) (h : recRMQ f s cp ql qr l r = .ok res) :
    recRMQ g s cp ql qr l r = .ok res := by
  induction g with
  | zero => have : f = 0 := by omega
            subst this; exact h
  | succ k ih =>
    rcases Nat.eq_or_lt_of_le hfg with e | e
    · subst e; exact h
    · exact recRMQ_mono k s cp ql qr l r res (ih (by omega))

theorem recRangeAdd_mono_le (f g : Nat) (hfg : f ≤ g) (s : SegmentTree)
    (cp ql qr l r x : Int) (res : SegmentTree)
    (h : recRangeAdd f s cp ql qr l r x = .ok res) :
    recRangeAdd g s cp ql qr l r x = .ok res := by
  induction g with
  | zero => have : f = 0 := by omega
            subst this; exact h
  | succ k ih =>
    rcases Nat.eq_or_lt_of_le hfg with e | e
    · subst e; exact h
    · exact recRangeAdd_mono k s cp ql qr l r x res (ih (by omega))

theorem recBuild_mono_le (f g : Nat) (hfg : f ≤ g) (s : SegmentTree) (cp l r : Int)
    (x : List Int) (res : SegmentTree) (h : recBuild f s cp l r x = .ok res) :
    recBuild g s cp l r x = .ok res := by
  induction g with
  | zero => have : f = 0 := by omega
            subst this; exact h
  | succ k ih =>
    rcases Nat.eq_or_lt_of_le hfg with e | e
    · subst e; exact h
    · exact recBuild_mono k s cp l r x res (ih (by omega))

/-! ## Reading a structure after each elementary step -/

theorem tv_preFlush (s : SegmentTree) (c : Nat) (l r : Int) (j : Nat)
    (hT : c < s.tree.length) :
    tv (preFlush s c l r) j = if j = c then tv s c + lv s c else tv s j := by
  unfold preFlush
  by_cases hz : lv s c ≠ 0
  · rw [if_pos hz]
    simp only [flushState, tv, getD_set]
    by_cases hj : j = c
    · subst hj; simp [hT]
    · rw [if_neg (by omega), if_neg hj]
  · rw [if_neg hz]
    have : lv s c = 0 := by simpa using hz
    by_cases hj : j = c
    · subst hj; simp [this]
    · rw [if_neg hj]

theorem lv_preFlush (s : SegmentTree) (c : Nat) (l r : Int) (j : Nat)
    (hL : c < s.lazy.length) (hC : l < r → 2 * c + 2 < s.lazy.length) :
    lv (preFlush s c l r) j =
      if j = c then 0
      else if l < r ∧ (j = 2 * c + 1 ∨ j = 2 * c + 2) then lv s j + lv s c else lv s j := by
  unfold preFlush
  by_cases hz : lv s c ≠ 0
  · rw [if_pos hz]
    by_cases hlr : l < r
    · have h2 := hC hlr
      simp only [flushState, lv, getD_set, hlr, if_true, true_and, List.length_set]
      by_cases hj : j = c
      · subst hj; simp [hL]
      · rw [if_neg (by omega), if_neg hj]
        by_cases h1 : j = 2 * c + 1
        · subst h1; simp; omega
        · by_cases h3 : j = 2 * c + 2
          · subst h3; simp; omega
          · rw [if_neg (by omega), if_neg (by omega), if_neg (by omega)]
    · simp only [flushState, lv, getD_set, hlr, if_false, false_and]
      by_cases hj : j = c
      · subst hj; simp [hL]
      · rw [if_neg (by omega), if_neg hj]
  · rw [if_neg hz]
    have : lv s c = 0 := by simpa using hz
    by_cases hj : j = c
    · subst hj; simp [this]
    · rw [if_neg hj, this]
      split_ifs <;> simp

theorem tv_coverState (s : SegmentTree) (c : Nat) (l r x : Int) (j : Nat)
    (hT : c < s.tree.length) :
    tv (coverState s c l r x) j = if j = c then tv s c + x else tv s j := by
  simp only [coverState, tv, getD_set]
  by_cases hj : j = c
  · subst hj; simp [hT]
  · rw [if_neg (by omega), if_neg hj]

theorem lv_coverState (s : SegmentTree) (c : Nat) (l r x : Int) (j : Nat)
    (hC : l < r → 2 * c + 2 < s.lazy.length) :
    lv (coverState s c l r x) j =
      if l < r ∧ (j = 2 * c + 1 ∨ j = 2 * c + 2) then lv s j + x else lv s j := by
  by_cases hlr : l < r
  · have h2 := hC hlr
    simp only [coverState, lv, getD_set, hlr, if_true, true_and, List.length_set]
    by_cases h1 : j = 2 * c + 1
    · subst h1; simp; omega
    · by_cases h3 : j = 2 * c + 2
      · subst h3; simp; omega
      · rw [if_neg (by omega), if_neg (by omega), if_neg (by omega)]
  · simp only [coverState, lv, hlr, if_false, false_and]

theorem tv_pullState (s : SegmentTree) (c : Nat) (j : Nat) (hT : c < s.tree.length) :
    tv (pullState s c) j =
      if j = c then min [tv s (2 * c + 1), tv s (2 * c + 2)] else tv s j := by
  simp only [pullState, tv, getD_set]
  by_cases hj : j = c
  · subst hj; simp [hT]
  · rw [if_neg (by omega), if_neg hj]

theorem lv_pullState (s : SegmentTree) (c : Nat) (j : Nat) :
    lv (pullState s c) j = lv s j := rfl

theorem tv_leafState (s : SegmentTree) (c : Nat) (v : Int) (j : Nat)
    (hT : c < s.tree.length) :
    tv (leafState s c v) j = if j = c then v else tv s j := by
  simp only [leafState, tv, getD_set]
  by_cases hj : j = c
  · subst hj; simp [hT]
  · rw [if_neg (by omega), if_neg hj]

/-! ## Slots below a node -/

theorem InSub.refl (c : Nat) : InSub c c := ⟨0, rfl⟩

theorem InSub.of_left {c j : Nat} (h : InSub (2 * c + 1) j) : InSub c j := by
  obtain ⟨k, hk⟩ := h
  refine ⟨k + 1, ?_⟩
  rw [Function.iterate_succ_apply', hk]
  unfold parent
  omega

theorem InSub.of_right {c j : Nat} (h : InSub (2 * c + 2) j) : InSub c j := by
  obtain ⟨k, hk⟩ := h
  refine ⟨k + 1, ?_⟩
  rw [Function.iterate_succ_apply', hk]
  unfold parent
  omega

theorem parent_iterate_le (k j : Nat) : parent^[k] j ≤ j := by
  induction k with
  | zero => exact le_refl _
  | succ n ih =>
    rw [Function.iterate_succ_apply']
    have : parent (parent^[n] j) ≤ parent^[n] j := by unfold parent; omega
    omega

theorem InSub.le {c j : Nat} (h : InSub c j) : c ≤ j := by
  obtain ⟨k, hk⟩ := h
  rw [← hk]
  exact parent_iterate_le k j

theorem InSub.disjoint {c j : Nat} (h1 : InSub (2 * c + 1) j) (h2 : InSub (2 * c + 2) j) :
    False := by
  obtain ⟨k1, e1⟩ := h1
  obtain ⟨k2, e2⟩ := h2
  rcases Nat.le_total k1 k2 with h | h
  · obtain ⟨d, rfl⟩ : ∃ d, k2 = d + k1 := ⟨k2 - k1, by omega⟩
    rw [Function.iterate_add_apply, e1] at e2
    have := parent_iterate_le d (2 * c + 1)
    omega
  · obtain ⟨d, rfl⟩ : ∃ d, k1 = d + k2 := ⟨k1 - k2, by omega⟩
    rw [Function.iterate_add_apply, e2] at e1
    cases d with
    | zero => simp at e1
    | succ e =>
      rw [Function.iterate_succ_apply] at e1
      have hp : parent (2 * c + 2) = c := by unfold parent; omega
      rw [hp] at e1
      have := parent_iterate_le e c
      omega

theorem InSub.left_ne {c j : Nat} (h : InSub (2 * c + 1) j) : j ≠ c ∧ j ≠ 2 * c + 2 := by
  refine ⟨?_, ?_⟩
  · have := h.le; omega
  · intro e
    subst e
    exact InSub.disjoint h (InSub.refl _)

theorem InSub.right_ne {c j : Nat} (h : InSub (2 * c + 2) j) : j ≠ c ∧ j ≠ 2 * c + 1 := by
  refine ⟨?_, ?_⟩
  · have := h.le; omega
  · intro e
    subst e
    exact InSub.disjoint (InSub.refl _) h

/-! ## The invariant of a node -/

theorem NodeOk.cast {T L : Nat → Int} {a : Int → Int} {c : Nat} {l r p p' : Int}
    (h : NodeOk T L a c l r p) (e : p = p') : NodeOk T L a c l r p' := e ▸ h

theorem NodeOk.isMin {T L : Nat → Int} {a : Int → Int} {c : Nat} {l r p : Int}
    (h : NodeOk T L a c l r p) : IsMin a l r (T c + L c + p) := by
  cases h with
  | leaf _ _ _ _ hlr hv =>
    subst hlr
    exact ⟨fun i h1 h2 => by have : i = l := by omega
                             subst this; omega, l, le_refl _, le_refl _, hv.symm⟩
  | node _ _ _ _ _ hm _ _ => exact hm

theorem NodeOk.frame {T L T' L' : Nat → Int} {a : Int → Int} {c : Nat} {l r p : Int} :
    NodeOk T L a c l r p → (∀ j, InSub c j → T' j = T j ∧ L' j = L j) →
    NodeOk T' L' a c l r p := by
  intro h
  induction h with
  | leaf c l r p hlr hv =>
    intro hf
    have e := hf c (InSub.refl c)
    exact .leaf c l r p hlr (by rw [e.1, e.2]; exact hv)
  | node c l r p hlr hm _ _ ih1 ih2 =>
    intro hf
    have e := hf c (InSub.refl c)
    refine .node c l r p hlr (by rw [e.1, e.2]; exact hm) ?_ ?_
    · rw [e.2]; exact ih1 (fun j hj => hf j hj.of_left)
    · rw [e.2]; exact ih2 (fun j hj => hf j hj.of_right)

/-- Moving a pending addition between the node's own lazy slot and the
pending additions of its ancestors keeps the invariant. -/
theorem NodeOk.shift {T L T' L' : Nat → Int} {a : Int → Int} {c : Nat} {l r p p' : Int}
    (h : NodeOk T L a c l r p) (hT : ∀ j, InSub c j → T' j = T j)
    (hL : ∀ j, InSub c j → j ≠ c → L' j = L j) (hp : L' c + p' = L c + p) :
    NodeOk T' L' a c l r p' := by
  have eT := hT c (InSub.refl c)
  cases h with
  | leaf _ _ _ _ hlr hv =>
    exact .leaf c l r p' hlr (by rw [eT]; omega)
  | node _ _ _ _ hlr hm h1 h2 =>
    refine .node c l r p' hlr ?_ ?_ ?_
    · have : T' c + L' c + p' = T c + L c + p := by rw [eT]; omega
      rw [this]; exact hm
    · refine (@NodeOk.frame T L T' L' a _ _ _ _ h1 ?_).cast (by omega)
      intro j hj
      exact ⟨hT j hj.of_left, hL j hj.of_left hj.left_ne.1⟩
    · refine (@NodeOk.frame T L T' L' a _ _ _ _ h2 ?_).cast (by omega)
      intro j hj
      exact ⟨hT j hj.of_right, hL j hj.of_right hj.right_ne.1⟩

/-- Adding `x` to every position of the node range adds `x` to what is pending. -/
theorem NodeOk.refShift {T L : Nat → Int} {a a' : Int → Int} {c : Nat} {l r p : Int}
    (x : Int) : NodeOk T L a c l r p → 0 ≤ l →
    (∀ i, l ≤ i → i ≤ r → a' i = a i + x) → NodeOk T L a' c l r (p + x) := by
  intro h
  induction h with
  | leaf c l r p hlr hv =>
    intro _ ha
    exact .leaf c l r (p + x) hlr (by rw [ha l (le_refl _) (by omega)]; omega)
  | node c l r p hlr hm _ _ ih1 ih2 =>
    intro h0 ha
    have hmid := midOf_eq l r h0 (by omega)
    refine .node c l r (p + x) hlr ?_ ?_ ?_
    · obtain ⟨m1, i, m2, m3, m4⟩ := hm
      refine ⟨fun j j1 j2 => ?_, i, m2, m3, ?_⟩
      · rw [ha j j1 j2]; have := m1 j j1 j2; omega
      · rw [ha i m2 m3]; omega
    · refine (ih1 h0 (fun i i1 i2 => ha i i1 (by omega))).cast (by omega)
    · refine (ih2 (by omega) (fun i i1 i2 => ha i (by omega) i2)).cast (by omega)

theorem NodeOk.refEq {T L : Nat → Int} {a a' : Int → Int} {c : Nat} {l r p : Int}
    (h : NodeOk T L a c l r p) (h0 : 0 ≤ l) (ha : ∀ i, l ≤ i → i ≤ r → a' i = a i) :
    NodeOk T L a' c l r p :=
  (h.refShift 0 h0 (fun i i1 i2 => by rw [ha i i1 i2]; omega)).cast (by omega)

/-! ## The recursions keep the node invariant -/

theorem not_inSub_ne {c j : Nat} (h : ¬ InSub c j) :
    j ≠ c ∧ j ≠ 2 * c + 1 ∧ j ≠ 2 * c + 2 := by
  refine ⟨?_, ?_, ?_⟩
  · intro e; subst e; exact h (InSub.refl _)
  · intro e; subst e; exact h (InSub.refl _).of_left
  · intro e; subst e; exact h (InSub.refl _).of_right

/-- The conditional flush keeps the invariant of a node whose ancestors have
nothing pending, empties the node's lazy slot, and touches no slot outside the
subtree of the node. -/
theorem preFlush_nodeOk (s : SegmentTree) (c : Nat) (l r : Int) (a : Int → Int)
    (hT : c < s.tree.length) (hL : c < s.lazy.length)
    (hC : l < r → 2 * c + 2 < s.lazy.length)
    (h : NodeOk (tv s) (lv s) a c l r 0) :
    NodeOk (tv (preFlush s c l r)) (lv (preFlush s c l r)) a c l r 0 ∧
    lv (preFlush s c l r) c = 0 ∧
    (∀ j, ¬ InSub c j →
      tv (preFlush s c l r) j = tv s j ∧ lv (preFlush s c l r) j = lv s j) := by
  have hTv := fun j => tv_preFlush s c l r j hT
  have hLv := fun j => lv_preFlush s c l r j hL hC
  have z0 : lv (preFlush s c l r) c = 0 := by rw [hLv c, if_pos rfl]
  have t0 : tv (preFlush s c l r) c = tv s c + lv s c := by rw [hTv c, if_pos rfl]
  refine ⟨?_, z0, ?_⟩
  · cases h with
    | leaf _ _ _ _ hlr hv =>
      exact .leaf c l r 0 hlr (by rw [t0, z0]; omega)
    | node _ _ _ _ hlr hm h1 h2 =>
      refine .node c l r 0 hlr ?_ ?_ ?_
      · have : tv (preFlush s c l r) c + lv (preFlush s c l r) c + 0 = tv s c + lv s c + 0 := by
          rw [t0, z0]; omega
        rw [this]; exact hm
      · refine h1.shift ?_ ?_ ?_
        · intro j hj
          rw [hTv j, if_neg hj.left_ne.1]
        · intro j hj hne
          rw [hLv j, if_neg hj.left_ne.1, if_neg]
          rintro ⟨_, e | e⟩
          · exact hne e
          · exact hj.left_ne.2 e
        · rw [hLv (2 * c + 1), if_neg (by omega), if_pos ⟨hlr, Or.inl rfl⟩, z0]
          omega
      · refine h2.shift ?_ ?_ ?_
        · intro j hj
          rw [hTv j, if_neg hj.right_ne.1]
        · intro j hj hne
          rw [hLv j, if_neg hj.right_ne.1, if_neg]
          rintro ⟨_, e | e⟩
          · exact hj.right_ne.2 e
          · exact hne e
        · rw [hLv (2 * c + 2), if_neg (by omega), if_pos ⟨hlr, Or.inr rfl⟩, z0]
          omega
  · intro j hj
    obtain ⟨n1, n2, n3⟩ := not_inSub_ne hj
    rw [hTv j, if_neg n1, hLv j, if_neg n1, if_neg]
    · exact ⟨rfl, rfl⟩
    · rintro ⟨_, e | e⟩
      · exact n2 e
      · exact n3 e

theorem QRes.merge {a : Int → Int} {ql qr l r m v1 v2 : Int} (hq : ql ≤ qr)
    (hl : l ≤ m) (hr : m < r) (hin : ¬ (ql > r ∨ qr < l))
    (h1 : QRes a ql qr l m v1) (h2 : QRes a ql qr (m + 1) r v2) :
    QRes a ql qr l r (min [v1, v2]) := by
  obtain ⟨a1, b1, c1⟩ := h1
  obtain ⟨a2, b2, c2⟩ := h2
  rw [min_pair v1 v2 b1]
  refine ⟨?_, by omega, ?_⟩
  · intro i i1 i2 i3 i4
    rcases Int.le_or_lt i m with h | h
    · have := a1 i i1 i2 i3 h; omega
    · have := a2 i i1 i2 (by omega) i4; omega
  · rcases Int.le_total v1 v2 with h | h
    · rw [Int.min_def, if_pos h]
      rcases c1 with ⟨i, i1, i2, i3, i4, i5⟩ | ⟨o1, e1⟩
      · exact Or.inl ⟨i, i1, i2, i3, by omega, i5⟩
      · rcases c2 with ⟨i, i1, i2, i3, i4, i5⟩ | ⟨o2, e2⟩
        · exact Or.inl ⟨i, i1, i2, by omega, i4, by omega⟩
        · exfalso; omega
    · have hv : Min.min v1 v2 = v2 := by omega
      rw [hv]
      rcases c2 with ⟨i, i1, i2, i3, i4, i5⟩ | ⟨o2, e2⟩
      · exact Or.inl ⟨i, i1, i2, by omega, i4, i5⟩
      · rcases c1 with ⟨i, i1, i2, i3, i4, i5⟩ | ⟨o1, e1⟩
        · exact Or.inl ⟨i, i1, i2, i3, by omega, by omega⟩
        · exfalso; omega

theorem IsMin.le_bound {a : Int → Int} {l r m : Int} (h : IsMin a l r m)
    (hb : ∀ i, l ≤ i → i ≤ r → a i ≤ MaxPossibleNumber) : m ≤ MaxPossibleNumber := by
  obtain ⟨_, i, i1, i2, i3⟩ := h
  rw [← i3]; exact hb i i1 i2

theorem IsMin.combine {a : Int → Int} {l r m v1 v2 : Int}
    (h1 : IsMin a l m v1) (h2 : IsMin a (m + 1) r v2) : IsMin a l r (Min.min v1 v2) := by
  obtain ⟨a1, i, i1, i2, i3⟩ := h1
  obtain ⟨a2, j, j1, j2, j3⟩ := h2
  refine ⟨?_, ?_⟩
  · intro k k1 k2
    rcases Int.le_or_lt k m with h | h
    · have := a1 k k1 h; omega
    · have := a2 k (by omega) k2; omega
  · rcases Int.le_total v1 v2 with h | h
    · exact ⟨i, i1, by omega, by omega⟩
    · exact ⟨j, by omega, j2, by omega⟩

theorem IsMin.unique {a : Int → Int} {l r m m' : Int} (h : IsMin a l r m)
    (h' : IsMin a l r m') : m = m' := by
  obtain ⟨a1, i, i1, i2, i3⟩ := h
  obtain ⟨a2, j, j1, j2, j3⟩ := h'
  have := a1 j j1 j2
  have := a2 i i1 i2
  omega

/-- `recRMQ` at a node that satisfies the invariant, on values within the
limit: the invariant still holds afterwards, the node has nothing pending, no
slot outside the subtree of the node has changed, and the returned value is
the one described by `QRes`. -/
theorem recRMQ_correct (a : Int → Int) (ql qr : Int) (hq : ql ≤ qr) (len : Nat) :
    ∀ (f h : Nat) (s : SegmentTree) (c : Nat) (l r : Int) (v : Int) (s' : SegmentTree),
    s.tree.length = len → s.lazy.length = len → Fit len c l r h →
    (∀ i, l ≤ i → i ≤ r → a i ≤ MaxPossibleNumber) →
    NodeOk (tv s) (lv s) a c l r 0 →
    recRMQ f s (c : Int) ql qr l r = .ok (v, s') →
    s'.tree.length = len ∧ s'.lazy.length = len ∧
    NodeOk (tv s') (lv s') a c l r 0 ∧ lv s' c = 0 ∧
    (∀ j, ¬ InSub c j → tv s' j = tv s j ∧ lv s' j = lv s j) ∧
    QRes a ql qr l r v := by
  intro f
  induction f with
  | zero => intro h s c l r v s' _ _ _ _ _ hrun; simp [recRMQ] at hrun
  | succ g ih =>
    intro h s c l r v s' hT hL hfit hb hn hrun
    have hc := hfit.index
    have hC : l < r → 2 * c + 2 < s.lazy.length := fun hh => by
      have := hfit.children hh; omega
    rw [recRMQ_succ g s c ql qr l r (by omega) (by omega) hC] at hrun
    obtain ⟨n0, z0, fr0⟩ := preFlush_nodeOk s c l r a (by omega) (by omega) hC hn
    have e1 := preFlush_tree_length s c l r
    have e2 := preFlush_lazy_length s c l r
    by_cases h1 : ql ≤ l ∧ qr ≥ r
    · rw [if_pos h1] at hrun
      injection hrun with hrun
      injection hrun with hv hs
      subst hv hs
      refine ⟨by omega, by omega, n0, z0, fr0, ?_⟩
      have hm := n0.isMin
      rw [z0] at hm
      obtain ⟨m1, i, m2, m3, m4⟩ := hm
      refine ⟨fun j _ _ j3 j4 => by have := m1 j j3 j4; omega, ?_, Or.inl ⟨i, ?_⟩⟩
      · have := hb i m2 m3; omega
      · exact ⟨by omega, by omega, m2, m3, by omega⟩
    · rw [if_neg h1] at hrun
      by_cases h2 : ql > r ∨ qr < l
      · rw [if_pos h2] at hrun
        injection hrun with hrun
        injection hrun with hv hs
        subst hv hs
        refine ⟨by omega, by omega, n0, z0, fr0, ?_⟩
        exact ⟨fun j j1 j2 j3 j4 => by omega, le_refl _, Or.inr ⟨h2, rfl⟩⟩
      · rw [if_neg h2] at hrun
        have hlr : l < r := by obtain ⟨_, hh, _, _⟩ := hfit; omega
        obtain ⟨k, rfl⟩ := hfit.height hlr
        have hmid := midOf_eq l r hfit.1 hfit.2.1
        cases n0 with
        | leaf _ _ _ _ hlr' _ => omega
        | node _ _ _ _ _ hm c1 c2 =>
          rw [z0] at c1 c2
          cases q1 : recRMQ g (preFlush s c l r) ((2 * c + 1 : Nat) : Int) ql qr l (midOf l r) with
          | error e => rw [q1, bind_error] at hrun; cases hrun
          | ok p1 =>
            obtain ⟨v1, s1⟩ := p1
            rw [q1, bind_ok] at hrun
            dsimp only at hrun
            obtain ⟨t1, l1, n1, z1, fr1, r1⟩ := ih k (preFlush s c l r) (2 * c + 1) l
              (midOf l r) v1 s1 (by omega) (by omega) (hfit.left hlr)
              (fun i i1 i2 => hb i i1 (by omega)) (c1.cast (by omega)) q1
            have c2' : NodeOk (tv s1) (lv s1) a (2 * c + 2) (midOf l r + 1) r 0 :=
              (c2.frame (fun j hj => fr1 j (fun hj' => InSub.disjoint hj' hj))).cast (by omega)
            cases q2 : recRMQ g s1 ((2 * c + 2 : Nat) : Int) ql qr (midOf l r + 1) r with
            | error e => rw [q2, bind_error] at hrun; cases hrun
            | ok p2 =>
              obtain ⟨v2, s2⟩ := p2
              rw [q2, bind_ok, pure_ok] at hrun
              dsimp only at hrun
              obtain ⟨t2, l2, n2, z2, fr2, r2⟩ := ih k s1 (2 * c + 2) (midOf l r + 1) r v2 s2
                t1 l1 (hfit.right hlr) (fun i i1 i2 => hb i (by omega) i2) c2' q2
              injection hrun with hrun
              injection hrun with hv hs
              subst hv hs
              have nl : ¬ InSub (2 * c + 1) c := fun hh => by have := hh.le; omega
              have nr : ¬ InSub (2 * c + 2) c := fun hh => by have := hh.le; omega
              have eT : tv s2 c = tv (preFlush s c l r) c := by
                rw [(fr2 c nr).1, (fr1 c nl).1]
              have eL : lv s2 c = 0 := by
                rw [(fr2 c nr).2, (fr1 c nl).2, z0]
              have n1' : NodeOk (tv s2) (lv s2) a (2 * c + 1) l (midOf l r) 0 :=
                n1.frame (fun j hj => fr2 j (fun hj' => InSub.disjoint hj hj'))
              refine ⟨t2, l2, ?_, eL, ?_, ?_⟩
              · refine .node c l r 0 hlr ?_ (n1'.cast (by omega)) (n2.cast (by omega))
                rw [eT, eL]; rw [z0] at hm; exact hm
              · intro j hj
                have j1 : ¬ InSub (2 * c + 1) j := fun hh => hj hh.of_left
                have j2 : ¬ InSub (2 * c + 2) j := fun hh => hj hh.of_right
                rw [(fr2 j j2).1, (fr1 j j1).1, (fr2 j j2).2, (fr1 j j1).2]
                exact fr0 j hj
              · exact QRes.merge hq (by omega) (by omega) h2 r1 r2

/-- The fully covered branch of `recRangeAdd` at a node with nothing pending:
the invariant holds afterwards for the array with `x` added on the node range. -/
theorem coverState_nodeOk (s : SegmentTree) (c : Nat) (l r x : Int) (a a' : Int → Int)
    (hT : c < s.tree.length) (hC : l < r → 2 * c + 2 < s.lazy.length) (h0 : 0 ≤ l)
    (ha : ∀ i, l ≤ i → i ≤ r → a' i = a i + x)
    (h : NodeOk (tv s) (lv s) a c l r 0) :
    NodeOk (tv (coverState s c l r x)) (lv (coverState s c l r x)) a' c l r 0 ∧
    lv (coverState s c l r x) c = lv s c ∧
    (∀ j, ¬ InSub c j →
      tv (coverState s c l r x) j = tv s j ∧ lv (coverState s c l r x) j = lv s j) := by
  have hTv := fun j => tv_coverState s c l r x j hT
  have hLv := fun j => lv_coverState s c l r x j hC
  have t0 : tv (coverState s c l r x) c = tv s c + x := by rw [hTv c, if_pos rfl]
  have z0 : lv (coverState s c l r x) c = lv s c := by
    rw [hLv c, if_neg]
    rintro ⟨_, e | e⟩ <;> omega
  refine ⟨?_, z0, ?_⟩
  · have h' := h.refShift x h0 ha
    cases h' with
    | leaf _ _ _ _ hlr hv =>
      exact .leaf c l r 0 hlr (by rw [t0, z0]; omega)
    | node _ _ _ _ hlr hm h1 h2 =>
      refine .node c l r 0 hlr ?_ ?_ ?_
      · have : tv (coverState s c l r x) c + lv (coverState s c l r x) c + 0 =
            tv s c + lv s c + (0 + x) := by rw [t0, z0]; omega
        rw [this]; exact hm
      · refine h1.shift ?_ ?_ ?_
        · intro j hj
          rw [hTv j, if_neg hj.left_ne.1]
        · intro j hj hne
          rw [hLv j, if_neg]
          rintro ⟨_, e | e⟩
          · exact hne e
          · exact hj.left_ne.2 e
        · rw [hLv (2 * c + 1), if_pos ⟨hlr, Or.inl rfl⟩, z0]
          omega
      · refine h2.shift ?_ ?_ ?_
        · intro j hj
          rw [hTv j, if_neg hj.right_ne.1]
        · intro j hj hne
          rw [hLv j, if_neg]
          rintro ⟨_, e | e⟩
          · exact hj.right_ne.2 e
          · exact hne e
        · rw [hLv (2 * c + 2), if_pos ⟨hlr, Or.inr rfl⟩, z0]
          omega
  · intro j hj
    obtain ⟨n1, n2, n3⟩ := not_inSub_ne hj
    rw [hTv j, if_neg n1, hLv j, if_neg]
    · exact ⟨rfl, rfl⟩
    · rintro ⟨_, e | e⟩
      · exact n2 e
      · exact n3 e

/-- A split node whose two children satisfy the invariant with nothing
pending, on values within the limit, satisfies it after recomputing its value. -/
theorem pullState_nodeOk (s : SegmentTree) (c : Nat) (l r : Int) (a : Int → Int)
    (hT : c < s.tree.length) (h0 : 0 ≤ l) (hlr : l < r)
    (hb : ∀ i, l ≤ i → i ≤ r → a i ≤ MaxPossibleNumber)
    (hz : lv s c = 0) (hz1 : lv s (2 * c + 1) = 0) (hz2 : lv s (2 * c + 2) = 0)
    (h1 : NodeOk (tv s) (lv s) a (2 * c + 1) l (midOf l r) 0)
    (h2 : NodeOk (tv s) (lv s) a (2 * c + 2) (midOf l r + 1) r 0) :
    NodeOk (tv (pullState s c)) (lv (pullState s c)) a c l r 0 := by
  have hTv := fun j => tv_pullState s c j hT
  have hmid := midOf_eq l r h0 (by omega)
  have m1 := h1.isMin
  have m2 := h2.isMin
  rw [hz1] at m1
  rw [hz2] at m2
  have b1 : tv s (2 * c + 1) + 0 + 0 ≤ MaxPossibleNumber :=
    m1.le_bound (fun i i1 i2 => hb i i1 (by omega))
  have hmin : min [tv s (2 * c + 1), tv s (2 * c + 2)] =
      Min.min (tv s (2 * c + 1) + 0 + 0) (tv s (2 * c + 2) + 0 + 0) := by
    rw [min_pair _ _ (by omega)]
    simp
  refine .node c l r 0 hlr ?_ ?_ ?_
  · have e : tv (pullState s c) c + lv (pullState s c) c + 0 =
        Min.min (tv s (2 * c + 1) + 0 + 0) (tv s (2 * c + 2) + 0 + 0) := by
      rw [hTv c, if_pos rfl, lv_pullState, hz, hmin]; omega
    rw [e]
    exact IsMin.combine m1 m2
  · refine (h1.frame (fun j hj => ⟨?_, rfl⟩)).cast (by rw [lv_pullState, hz]; omega)
    rw [hTv j, if_neg hj.left_ne.1]
  · refine (h2.frame (fun j hj => ⟨?_, rfl⟩)).cast (by rw [lv_pullState, hz]; omega)
    rw [hTv j, if_neg hj.right_ne.1]

/-- `recRangeAdd` at a node that satisfies the invariant for `a`, when the
array `a'` after the addition stays within the limit: the invariant holds
afterwards for `a'`, the node has nothing pending, and no slot outside the
subtree of the node has changed. -/
theorem recRangeAdd_correct (a a' : Int → Int) (ql qr x : Int) (len : Nat) :
    ∀ (f h : Nat) (s : SegmentTree) (c : Nat) (l r : Int) (s' : SegmentTree),
    s.tree.length = len → s.lazy.length = len → Fit len c l r h →
    (∀ i, l ≤ i → i ≤ r → a' i = if ql ≤ i ∧ i ≤ qr then a i + x else a i) →
    (∀ i, l ≤ i → i ≤ r → a' i ≤ MaxPossibleNumber) →
    NodeOk (tv s) (lv s) a c l r 0 →
    recRangeAdd f s (c : Int) ql qr l r x = .ok s' →
    s'.tree.length = len ∧ s'.lazy.length = len ∧
    NodeOk (tv s') (lv s') a' c l r 0 ∧ lv s' c = 0 ∧
    (∀ j, ¬ InSub c j → tv s' j = tv s j ∧ lv s' j = lv s j) := by
  intro f
  induction f with
  | zero => intro h s c l r s' _ _ _ _ _ _ hrun; simp [recRangeAdd] at hrun
  | succ g ih =>
    intro h s c l r s' hT hL hfit ha hb hn hrun
    have hc := hfit.index
    have hC : l < r → 2 * c + 2 < s.lazy.length := fun hh => by
      have := hfit.children hh; omega
    rw [recRangeAdd_succ g s c ql qr l r x (by omega) (by omega) hC] at hrun
    obtain ⟨n0, z0, fr0⟩ := preFlush_nodeOk s c l r a (by omega) (by omega) hC hn
    have e1 := preFlush_tree_length s c l r
    have e2 := preFlush_lazy_length s c l r
    by_cases h2 : ql > r ∨ qr < l
    · rw [if_pos h2] at hrun
      injection hrun with hs
      subst hs
      refine ⟨by omega, by omega, ?_, z0, fr0⟩
      refine n0.refEq hfit.1 (fun i i1 i2 => ?_)
      rw [ha i i1 i2, if_neg (by omega)]
    · rw [if_neg h2] at hrun
      by_cases h1 : ql ≤ l ∧ qr ≥ r
      · rw [if_pos h1] at hrun
        injection hrun with hs
        subst hs
        obtain ⟨nc, zc, frc⟩ := coverState_nodeOk (preFlush s c l r) c l r x a a' (by omega)
          (fun hh => by have := hC hh; omega) hfit.1
          (fun i i1 i2 => by rw [ha i i1 i2, if_pos (by omega)]) n0
        refine ⟨by rw [coverState_tree_length]; omega, by rw [coverState_lazy_length]; omega,
          nc, by rw [zc, z0], ?_⟩
        intro j hj
        rw [(frc j hj).1, (frc j hj).2]
        exact fr0 j hj
      · rw [if_neg h1] at hrun
        have hlr : l < r := by obtain ⟨_, hh, _, _⟩ := hfit; omega
        obtain ⟨k, rfl⟩ := hfit.height hlr
        have hmid := midOf_eq l r hfit.1 hfit.2.1
        cases n0 with
        | leaf _ _ _ _ hlr' _ => omega
        | node _ _ _ _ _ hm c1 c2 =>
          rw [z0] at c1 c2
          cases q1 : recRangeAdd g (preFlush s c l r) ((2 * c + 1 : Nat) : Int) ql qr l
              (midOf l r) x with
          | error e => rw [q1, bind_error] at hrun; cases hrun
          | ok s1 =>
            rw [q1, bind_ok] at hrun
            obtain ⟨t1, l1, n1, z1, fr1⟩ := ih k (preFlush s c l r) (2 * c + 1) l
              (midOf l r) s1 (by omega) (by omega) (hfit.left hlr)
              (fun i i1 i2 => ha i i1 (by omega)) (fun i i1 i2 => hb i i1 (by omega))
              (c1.cast (by omega)) q1
            have c2' : NodeOk (tv s1) (lv s1) a (2 * c + 2) (midOf l r + 1) r 0 :=
              (c2.frame (fun j hj => fr1 j (fun hj' => InSub.disjoint hj' hj))).cast (by omega)
            cases q2 : recRangeAdd g s1 ((2 * c + 2 : Nat) : Int) ql qr (midOf l r + 1) r x with
            | error e => rw [q2, bind_error] at hrun; cases hrun
            | ok s2 =>
              rw [q2, bind_ok] at hrun
              obtain ⟨t2, l2, n2, z2, fr2⟩ := ih k s1 (2 * c + 2) (midOf l r + 1) r s2
                t1 l1 (hfit.right hlr) (fun i i1 i2 => ha i (by omega) i2)
                (fun i i1 i2 => hb i (by omega) i2) c2' q2
              have hch := hfit.children hlr
              rw [pull_eq s2 c (by omega)] at hrun
              injection hrun with hs
              subst hs
              have nl : ¬ InSub (2 * c + 1) c := fun hh => by have := hh.le; omega
              have nr : ¬ InSub (2 * c + 2) c := fun hh => by have := hh.le; omega
              have eL : lv s2 c = 0 := by
                rw [(fr2 c nr).2, (fr1 c nl).2, z0]
              have n1' : NodeOk (tv s2) (lv s2) a' (2 * c + 1) l (midOf l r) 0 :=
                n1.frame (fun j hj => fr2 j (fun hj' => InSub.disjoint hj hj'))
              have z1' : lv s2 (2 * c + 1) = 0 := by
                rw [(fr2 (2 * c + 1) (fun hh => InSub.disjoint (InSub.refl _) hh)).2, z1]
              refine ⟨by rw [pullState_tree_length]; exact t2, l2, ?_, ?_, ?_⟩
              · exact pullState_nodeOk s2 c l r a' (by omega) hfit.1 hlr hb eL z1' z2 n1' n2
              · rw [lv_pullState]; exact eL
              · intro j hj
                have j1 : ¬ InSub (2 * c + 1) j := fun hh => hj hh.of_left
                have j2 : ¬ InSub (2 * c + 2) j := fun hh => hj hh.of_right
                rw [lv_pullState, tv_pullState s2 c j (by omega), if_neg (not_inSub_ne hj).1,
                  (fr2 j j2).1, (fr1 j j1).1, (fr2 j j2).2, (fr1 j j1).2]
                exact fr0 j hj

/-- `recBuild` on a structure whose lazy slots are all zero and an input within
the limit: the node invariant holds afterwards for the input, and no slot of
`tree` outside the subtree of the node has changed. -/
theorem recBuild_correct (x : List Int) (len : Nat) :
    ∀ (f h : Nat) (s : SegmentTree) (c : Nat) (l r : Int) (s' : SegmentTree),
    s.tree.length = len → Fit len c l r h → r < x.length →
    (∀ j, lv s j = 0) →
    (∀ i, l ≤ i → i ≤ r → x.getD i.toNat 0 ≤ MaxPossibleNumber) →
    recBuild f s (c : Int) l r x = .ok s' →
    s'.tree.length = len ∧ s'.lazy = s.lazy ∧
    NodeOk (tv s') (lv s') (fun i => x.getD i.toNat 0) c l r 0 ∧
    (∀ j, ¬ InSub c j → tv s' j = tv s j) := by
  intro f
  induction f with
  | zero => intro h s c l r s' _ _ _ _ _ hrun; simp [recBuild] at hrun
  | succ g ih =>
    intro h s c l r s' hT hfit hx hz hb hrun
    have hc := hfit.index
    rw [recBuild_succ] at hrun
    by_cases hlr : l ≥ r
    · have hl : l = r := by have := hfit.2.1; omega
      rw [if_pos hlr, readAt_int x l hfit.1 (by omega), bind_ok,
        writeAt_nat _ _ _ (by omega), bind_ok, pure_ok] at hrun
      have hs : s' = leafState s c (x.getD l.toNat 0) := by
        injection hrun with hs
        exact hs.symm
      subst hs
      have hTv := fun j => tv_leafState s c (x.getD l.toNat 0) j (by omega)
      refine ⟨by simp [leafState]; exact hT, rfl, ?_, ?_⟩
      · refine .leaf c l r 0 hl ?_
        have : lv (leafState s c (x.getD l.toNat 0)) c = 0 := hz c
        rw [hTv c, if_pos rfl]
        show x.getD l.toNat 0 + lv (leafState s c (x.getD l.toNat 0)) c + 0 = _
        rw [this]; omega
      · intro j hj
        exact (hTv j).trans (if_neg (not_inSub_ne hj).1)
    · rw [if_neg hlr] at hrun
      have hlt : l < r := by omega
      obtain ⟨k, rfl⟩ := hfit.height hlt
      have hmid := midOf_eq l r hfit.1 hfit.2.1
      have hch := hfit.children hlt
      cases q1 : recBuild g s ((2 * c + 1 : Nat) : Int) l (midOf l r) x with
      | error e => rw [q1, bind_error] at hrun; cases hrun
      | ok s1 =>
        rw [q1, bind_ok] at hrun
        obtain ⟨t1, l1, n1, fr1⟩ := ih k s (2 * c + 1) l (midOf l r) s1 hT (hfit.left hlt)
          (by omega) hz (fun i i1 i2 => hb i i1 (by omega)) q1
        have hz1 : ∀ j, lv s1 j = 0 := fun j => by
          have : lv s1 j = lv s j := by unfold lv; rw [l1]
          rw [this]; exact hz j
        cases q2 : recBuild g s1 ((2 * c + 2 : Nat) : Int) (midOf l r + 1) r x with
        | error e => rw [q2, bind_error] at hrun; cases hrun
        | ok s2 =>
          rw [q2, bind_ok, pull_eq s2 c (by
            obtain ⟨t2, _⟩ := ih k s1 (2 * c + 2) (midOf l r + 1) r s2 t1 (hfit.right hlt)
              hx hz1 (fun i i1 i2 => hb i (by omega) i2) q2
            omega)] at hrun
          obtain ⟨t2, l2, n2, fr2⟩ := ih k s1 (2 * c + 2) (midOf l r + 1) r s2 t1
            (hfit.right hlt) hx hz1 (fun i i1 i2 => hb i (by omega) i2) q2
          injection hrun with hs
          subst hs
          have hz2 : ∀ j, lv s2 j = 0 := fun j => by
            have : lv s2 j = lv s1 j := by unfold lv; rw [l2]
            rw [this]; exact hz1 j
          have n1' : NodeOk (tv s2) (lv s2) (fun i => x.getD i.toNat 0) (2 * c + 1) l
              (midOf l r) 0 :=
            n1.frame (fun j hj => ⟨fr2 j (fun hj' => InSub.disjoint hj hj'), by
              rw [hz2 j, hz1 j]⟩)
          refine ⟨by rw [pullState_tree_length]; exact t2, by
            show s2.lazy = s.lazy
            rw [l2, l1], ?_, ?_⟩
          · exact pullState_nodeOk s2 c l r _ (by omega) hfit.1 hlt hb (hz2 _) (hz2 _) (hz2 _)
              n1' n2
          · intro j hj
            have j1 : ¬ InSub (2 * c + 1) j := fun hh => hj hh.of_left
            have j2 : ¬ InSub (2 * c + 2) j := fun hh => hj hh.of_right
            rw [tv_pullState s2 c j (by omega), if_neg (not_inSub_ne hj).1, fr2 j j2, fr1 j j1]

/-! ## Facts about the reference array -/

theorem refAddFrom_length (l r x : Int) : ∀ (a : List Int) (i : Nat),
    (refAddFrom l r x i a).length = a.length := by
  intro a
  induction a with
  | nil => intro i; rfl
  | cons v vs ih => intro i; simp [refAddFrom, ih]

theorem refAdd_length (a : List Int) (l r x : Int) : (refAdd a l r x).length = a.length :=
  refAddFrom_length l r x a 0

theorem refAddFrom_getD (l r x : Int) : ∀ (a : List Int) (i j : Nat), j < a.length →
    (refAddFrom l r x i a).getD j 0 =
      if l ≤ ((i + j : Nat) : Int) ∧ ((i + j : Nat) : Int) ≤ r then a.getD j 0 + x
      else a.getD j 0 := by
  intro a
  induction a with
  | nil => intro i j hj; simp at hj
  | cons v vs ih =>
    intro i j hj
    cases j with
    | zero => simp [refAddFrom]
    | succ k =>
      simp only [refAddFrom, List.getD_cons_succ]
      rw [ih (i + 1) k (by simpa using hj)]
      have : i + 1 + k = i + (k + 1) := by omega
      rw [this]

theorem refAddFrom_zero (l r : Int) : ∀ (a : List Int) (i : Nat), refAddFrom l r 0 i a = a := by
  intro a
  induction a with
  | nil => intro i; rfl
  | cons v vs ih => intro i; simp [refAddFrom, ih]

theorem refAdd_zero (a : List Int) (l r : Int) : refAdd a l r 0 = a := refAddFrom_zero l r a 0

theorem refFun_refAdd (a : List Int) (l r x i : Int) (h0 : 0 ≤ i) (hi : i < a.length) :
    refFun (refAdd a l r x) i = if l ≤ i ∧ i ≤ r then refFun a i + x else refFun a i := by
  unfold refFun refAdd
  rw [refAddFrom_getD l r x a 0 i.toNat (by omega)]
  have : ((0 + i.toNat : Nat) : Int) = i := by omega
  rw [this]

theorem refFun_le (a : List Int) (h : WithinLimit a) (i : Int) (h0 : 0 ≤ i)
    (hi : i < a.length) :
    refFun a i ≤ MaxPossibleNumber := by
  unfold refFun
  have hlt : i.toNat < a.length := by omega
  rw [List.getD_eq_getElem?_getD, List.getElem?_eq_getElem hlt]
  exact h _ (List.getElem_mem hlt)

theorem bruteMinFrom_isMin (a : List Int) (l : Nat) : ∀ k : Nat,
    IsMin (refFun a) l ((l : Int) + k) (bruteMinFrom a l k) := by
  intro k
  induction k with
  | zero =>
    refine ⟨fun i i1 i2 => ?_, l, le_refl _, by simp, by simp [refFun, bruteMinFrom]⟩
    have : i = (l : Int) := by simp at i2; omega
    subst this
    simp [refFun, bruteMinFrom]
  | succ n ih =>
    obtain ⟨m1, i, i1, i2, i3⟩ := ih
    have hy : refFun a ((l : Int) + (n + 1 : Nat)) = a.getD (l + n + 1) 0 := by
      unfold refFun
      congr 1
    simp only [bruteMinFrom]
    by_cases hlt : a.getD (l + n + 1) 0 < bruteMinFrom a l n
    · rw [if_pos hlt]
      refine ⟨fun j j1 j2 => ?_, (l : Int) + (n + 1 : Nat), by omega, le_refl _, hy⟩
      rcases Int.lt_or_le j ((l : Int) + (n + 1 : Nat)) with h | h
      · have := m1 j j1 (by push_cast at h ⊢; omega); omega
      · have : j = (l : Int) + (n + 1 : Nat) := by omega
        rw [this, hy]
    · rw [if_neg hlt]
      refine ⟨fun j j1 j2 => ?_, i, i1, by push_cast at i2 ⊢; omega, i3⟩
      rcases Int.lt_or_le j ((l : Int) + (n + 1 : Nat)) with h | h
      · exact m1 j j1 (by push_cast at h ⊢; omega)
      · have : j = (l : Int) + (n + 1 : Nat) := by omega
        rw [this, hy]; omega

theorem bruteMin_isMin (a : List Int) (l r : Int) (h0 : 0 ≤ l) (hlr : l ≤ r) :
    IsMin (refFun a) l r (bruteMin a l r) := by
  have h := bruteMinFrom_isMin a l.toNat (r - l).toNat
  have e1 : ((l.toNat : Nat) : Int) = l := by omega
  have e2 : ((l.toNat : Nat) : Int) + ((r - l).toNat : Nat) = r := by omega
  rw [e2, e1] at h
  exact h

/-! ## The structure represents the reference array -/

theorem New_nonempty_eq (x : List Int) (hx : x.length ≠ 0) (s : SegmentTree)
    (h : New x = .ok (some s, none)) :
    recBuild x.length
      { tree := List.replicate (allocLen x.length) 0,
        lazy := List.replicate (allocLen x.length) 0,
        origLen := (x.length : Int) } ((0 : Nat) : Int) 0 ((x.length : Int) - 1) x = .ok s := by
  unfold New at h
  rw [if_neg (by omega)] at h
  unfold buildTree at h
  simp only [Int.toNat_ofNat] at h
  cases q : recBuild x.length
      { tree := List.replicate (allocLen x.length) 0,
        lazy := List.replicate (allocLen x.length) 0,
        origLen := (x.length : Int) } ((0 : Nat) : Int) 0 ((x.length : Int) - 1) x with
  | error e =>
    have q' : recBuild x.length
      { tree := List.replicate (2 * 2 ^ ceilLog2 x.length - 1) 0,
        lazy := List.replicate (2 * 2 ^ ceilLog2 x.length - 1) 0,
        origLen := (x.length : Int) } 0 0 ((x.length : Int) - 1) x = .error e := q
    rw [q', bind_error] at h
    cases h
  | ok s1 =>
    have q' : recBuild x.length
      { tree := List.replicate (2 * 2 ^ ceilLog2 x.length - 1) 0,
        lazy := List.replicate (2 * 2 ^ ceilLog2 x.length - 1) 0,
        origLen := (x.length : Int) } 0 0 ((x.length : Int) - 1) x = .ok s1 := q
    rw [q', bind_ok, pure_ok] at h
    injection h with h
    injection h with h _
    injection h with h
    rw [h]

/-- `New` on a non-empty input within the limit returns a structure that represents the input. -/
theorem New_rep (vals : List Int) (hne : vals.length ≠ 0) (hb : WithinLimit vals) :
    ∃ s, New vals = .ok (some s, none) ∧ Rep s vals := by
  obtain ⟨s, q, hs, hl⟩ := New_shape vals hne
  refine ⟨s, q, hs, hb, ?_⟩
  have hrun := New_nonempty_eq vals hne s q
  have hn : 1 ≤ vals.length := by omega
  obtain ⟨_, _, n1, _⟩ := recBuild_correct vals (allocLen vals.length) vals.length
    (ceilLog2 vals.length) _ 0 0 ((vals.length : Int) - 1) s (by simp) (rootFit vals.length hn)
    (by omega) (fun j => by
      simp only [lv, List.getD_eq_getElem?_getD, List.getElem?_replicate]
      split_ifs <;> rfl)
    (fun i i1 i2 => refFun_le vals hb i (by omega) (by omega)) hrun
  exact n1

/-- On a structure that represents `a`, a valid `RangeMinQuery` returns the
brute-force minimum of `a` over the range with a nil error, and the structure
it leaves behind still represents `a`. -/
theorem RangeMinQuery_rep (s : SegmentTree) (a : List Int) (h : Rep s a) (l r : Int)
    (h0 : 0 ≤ l) (hlr : l ≤ r) (hr : r ≤ (a.length : Int) - 1) :
    ∃ s', RangeMinQuery s l r = .ok ((bruteMin a l r, none), s') ∧ Rep s' a := by
  obtain ⟨hs, hb, hn⟩ := h
  obtain ⟨v, s', q, hs', hrun⟩ := RangeMinQuery_shape a.length s hs l r h0 hlr hr
  have hrun' : recRMQ a.length s ((0 : Nat) : Int) l r 0 ((a.length : Int) - 1) =
      .ok (v, s') := hrun
  obtain ⟨_, _, n1, _, _, m1, _, m3⟩ := recRMQ_correct (refFun a) l r hlr (allocLen a.length)
    a.length (ceilLog2 a.length) s 0 0 ((a.length : Int) - 1) v s' hs.2.2.1 hs.2.2.2
    (rootFit a.length hs.1) (fun i i1 i2 => refFun_le a hb i (by omega) (by omega)) hn hrun'
  have hmin : IsMin (refFun a) l r v := by
    refine ⟨fun i i1 i2 => m1 i i1 i2 (by omega) (by omega), ?_⟩
    rcases m3 with ⟨i, i1, i2, _, _, i5⟩ | ⟨o, _⟩
    · exact ⟨i, i1, i2, i5⟩
    · exfalso; omega
  have hv : v = bruteMin a l r := hmin.unique (bruteMin_isMin a l r h0 hlr)
  subst hv
  exact ⟨s', q, hs', hb, n1⟩

/-- On a structure that represents `a`, a valid `RangeAdd` whose result stays
within the limit returns a nil error and leaves a structure that represents
the array with `x` added on the range. -/
theorem RangeAdd_rep (s : SegmentTree) (a : List Int) (h : Rep s a) (l r x : Int)
    (h0 : 0 ≤ l) (hlr : l ≤ r) (hr : r ≤ (a.length : Int) - 1)
    (hb' : WithinLimit (refAdd a l r x)) :
    ∃ s', RangeAdd s l r x = .ok (none, s') ∧ Rep s' (refAdd a l r x) := by
  obtain ⟨hs, hb, hn⟩ := h
  obtain ⟨s', q, hs', hrun⟩ := RangeAdd_shape a.length s hs l r x h0 hlr hr
  have hrun' : recRangeAdd a.length s ((0 : Nat) : Int) l r 0 ((a.length : Int) - 1) x =
      .ok s' := hrun
  have hlen := refAdd_length a l r x
  obtain ⟨_, _, n1, _, _⟩ := recRangeAdd_correct (refFun a) (refFun (refAdd a l r x)) l r x
    (allocLen a.length) a.length (ceilLog2 a.length) s 0 0 ((a.length : Int) - 1) s'
    hs.2.2.1 hs.2.2.2 (rootFit a.length hs.1)
    (fun i i1 i2 => refFun_refAdd a l r x i i1 (by omega))
    (fun i i1 i2 => refFun_le _ hb' i (by omega) (by omega)) hn hrun'
  refine ⟨s', q, ?_, hb', ?_⟩
  · rw [hlen]; exact hs'
  · rw [hlen]; exact n1

/-! ## Sequences of public calls follow the reference array -/

theorem Admissible.limit {a : List Int} {ops : List Op} (h : Admissible a ops) :
    WithinLimit a := by
  cases ops with
  | nil => exact h
  | cons op ops => exact h.1

theorem refStep_length (a : List Int) (op : Op) : (refStep a op).2.length = a.length := by
  cases op with
  | add l r x => exact refAdd_length a l r x
  | query l r => rfl

theorem refRun_length : ∀ (ops : List Op) (a : List Int), (refRun a ops).2.length = a.length := by
  intro ops
  induction ops with
  | nil => intro a; rfl
  | cons op ops ih =>
    intro a
    show (refRun (refStep a op).2 ops).2.length = a.length
    rw [ih, refStep_length]

theorem refRun_addOps : ∀ (adds : List (Int × Int × Int)) (vals : List Int),
    (refRun vals (addOps adds)).2 = refAdds vals adds := by
  intro adds
  induction adds with
  | nil => intro vals; rfl
  | cons t ts ih =>
    intro vals
    show (refRun (refAdd vals t.1 t.2.1 t.2.2) (addOps ts)).2 = _
    rw [ih]
    rfl

theorem refRun_addOps_outcomes : ∀ (adds : List (Int × Int × Int)) (vals : List Int),
    ∀ o ∈ (refRun vals (addOps adds)).1, o = Outcome.added none := by
  intro adds
  induction adds with
  | nil => intro vals o ho; simp [addOps, refRun] at ho
  | cons t ts ih =>
    intro vals o ho
    have ho' : o ∈ Outcome.added none :: (refRun (refAdd vals t.1 t.2.1 t.2.2) (addOps ts)).1 :=
      ho
    rcases List.mem_cons.mp ho' with h | h
    · exact h
    · exact ih _ o h

theorem Admissible.append : ∀ (pre post : List Op) (a : List Int),
    Admissible a (pre ++ post) → Admissible a pre ∧ Admissible (refRun a pre).2 post := by
  intro pre
  induction pre with
  | nil => intro post a h; exact ⟨h.limit, h⟩
  | cons op ops ih =>
    intro post a h
    obtain ⟨h1, h2, h3⟩ := h
    obtain ⟨h4, h5⟩ := ih post _ h3
    exact ⟨⟨h1, h2, h4⟩, h5⟩

/-- One admissible call on a structure that represents `a` returns what the
reference array returns and leaves a structure that represents the new array. -/
theorem step_rep (s : SegmentTree) (a : List Int) (op : Op) (h : Rep s a)
    (hv : op.valid a.length) (hb : WithinLimit (refStep a op).2) :
    ∃ s', step s op = .ok ((refStep a op).1, s') ∧ Rep s' (refStep a op).2 := by
  cases op with
  | add l r x =>
    obtain ⟨h0, hlr, hr⟩ := hv
    obtain ⟨s', q, hs'⟩ := RangeAdd_rep s a h l r x h0 hlr hr hb
    refine ⟨s', ?_, hs'⟩
    simp only [step, q, bind_ok]
    rfl
  | query l r =>
    obtain ⟨h0, hlr, hr⟩ := hv
    obtain ⟨s', q, hs'⟩ := RangeMinQuery_rep s a h l r h0 hlr hr
    refine ⟨s', ?_, hs'⟩
    simp only [step, q, bind_ok]
    rfl

/-- An admissible sequence of calls on a structure that represents `a`
returns what the reference array returns, call by call. -/
theorem run_rep : ∀ (ops : List Op) (s : SegmentTree) (a : List Int), Rep s a →
    Admissible a ops →
    ∃ s', run s ops = .ok ((refRun a ops).1, s') ∧ Rep s' (refRun a ops).2 := by
  intro ops
  induction ops with
  | nil => intro s a h _; exact ⟨s, rfl, h⟩
  | cons op ops ih =>
    intro s a h hadm
    obtain ⟨_, hv, hrest⟩ := hadm
    obtain ⟨s1, q1, h1⟩ := step_rep s a op h hv hrest.limit
    obtain ⟨s2, q2, h2⟩ := ih s1 _ h1 hrest
    refine ⟨s2, ?_, h2⟩
    rw [run, q1, bind_ok]
    dsimp only
    rw [q2, bind_ok]
    rfl

/-! ## Every node of the recursion tree -/

theorem TreeNode.range {L : Nat → Int} {n : Int} {c : Nat} {l r p : Int} (hn : 1 ≤ n)
    (h : TreeNode L n c l r p) : 0 ≤ l ∧ l ≤ r ∧ r ≤ n - 1 := by
  induction h with
  | root => omega
  | left c l r p _ hlr ih =>
    rw [midOf_eq l r ih.1 ih.2.1]; omega
  | right c l r p _ hlr ih =>
    rw [midOf_eq l r ih.1 ih.2.1]; omega

theorem TreeNode.nodeOk {T L : Nat → Int} {a : Int → Int} {n : Int} {c : Nat} {l r p : Int}
    (h0 : NodeOk T L a 0 0 (n - 1) 0) (h : TreeNode L n c l r p) : NodeOk T L a c l r p := by
  induction h with
  | root => exact h0
  | left c l r p _ hlr ih =>
    cases ih with
    | leaf _ _ _ _ e _ => omega
    | node _ _ _ _ _ _ h1 _ => exact h1
  | right c l r p _ hlr ih =>
    cases ih with
    | leaf _ _ _ _ e _ => omega
    | node _ _ _ _ _ _ _ h2 => exact h2

/-! ## Counting the nodes visited -/

/-- The counting variant of `recRMQ` returns what `recRMQ` returns, together with `visitCount`. -/
theorem recRMQVisits_eq : ∀ (f : Nat) (s : SegmentTree) (cp ql qr l r : Int),
    recRMQVisits f s cp ql qr l r =
      (recRMQ f s cp ql qr l r >>= fun p => pure (visitCount f ql qr l r, p.1, p.2)) := by
  intro f
  induction f with
  | zero => intro s cp ql qr l r; rfl
  | succ g ih =>
    intro s cp ql qr l r
    rw [recRMQVisits, recRMQ, visitCount]
    cases readAt s.lazy cp with
    | error e => rfl
    | ok z =>
      simp only [bind_ok]
      cases (if z ≠ 0 then flush s cp l r else pure s) with
      | error e => rfl
      | ok s0 =>
        simp only [bind_ok]
        by_cases h1 : ql ≤ l ∧ qr ≥ r
        · rw [if_pos h1, if_pos h1, if_pos (Or.inl h1)]
          cases readAt s0.tree cp with
          | error e => rfl
          | ok v => rfl
        · rw [if_neg h1, if_neg h1]
          by_cases h2 : ql > r ∨ qr < l
          · rw [if_pos h2, if_pos h2, if_pos (Or.inr h2)]
            rfl
          · rw [if_neg h2, if_neg h2, if_neg (by tauto)]
            rw [ih]
            cases recRMQ g s0 (2 * cp + 1) ql qr l ((l + r).tdiv 2) with
            | error e => rfl
            | ok p1 =>
              simp only [bind_ok, pure_ok]
              rw [ih]
              cases recRMQ g p1.2 (2 * cp + 2) ql qr ((l + r).tdiv 2 + 1) r with
              | error e => rfl
              | ok p2 => rfl

/-- The counting variant of `recRangeAdd` returns what `recRangeAdd` returns, together with
`visitCount`. -/
theorem recRangeAddVisits_eq : ∀ (f : Nat) (s : SegmentTree) (cp ql qr l r x : Int),
    recRangeAddVisits f s cp ql qr l r x =
      (recRangeAdd f s cp ql qr l r x >>= fun p => pure (visitCount f ql qr l r, p)) := by
  intro f
  induction f with
  | zero => intro s cp ql qr l r x; rfl
  | succ g ih =>
    intro s cp ql qr l r x
    rw [recRangeAddVisits, recRangeAdd, visitCount]
    cases readAt s.lazy cp with
    | error e => rfl
    | ok z =>
      simp only [bind_ok]
      cases (if z ≠ 0 then flush s cp l r else pure s) with
      | error e => rfl
      | ok s0 =>
        simp only [bind_ok]
        by_cases h2 : ql > r ∨ qr < l
        · rw [if_pos h2, if_pos h2, if_pos (Or.inr h2)]
          rfl
        · rw [if_neg h2, if_neg h2]
          by_cases h1 : ql ≤ l ∧ qr ≥ r
          · rw [if_pos h1, if_pos h1, if_pos (Or.inl h1)]
            cases readAt s0.tree cp with
            | error e => rfl
            | ok t =>
              simp only [bind_ok]
              cases writeAt s0.tree cp (t + x) with
              | error e => rfl
              | ok tree =>
                simp only [bind_ok]
                by_cases hlr : l < r
                · rw [if_pos hlr, if_pos hlr]
                  cases readAt s0.lazy (2 * cp + 1) with
                  | error e => rfl
                  | ok a =>
                    simp only [bind_ok]
                    cases writeAt s0.lazy (2 * cp + 1) (a + x) with
                    | error e => rfl
                    | ok lazy1 =>
                      simp only [bind_ok]
                      cases readAt lazy1 (2 * cp + 2) with
                      | error e => rfl
                      | ok b =>
                        simp only [bind_ok]
                        cases writeAt lazy1 (2 * cp + 2) (b + x) with
                        | error e => rfl
                        | ok lazy2 => rfl
                · rw [if_neg hlr, if_neg hlr]
                  rfl
          · rw [if_neg h1, if_neg h1, if_neg (by tauto)]
            rw [ih]
            cases recRangeAdd g s0 (2 * cp + 1) ql qr l ((l + r).tdiv 2) x with
            | error e => rfl
            | ok s1 =>
              simp only [bind_ok, pure_ok]
              rw [ih]
              cases recRangeAdd g s1 (2 * cp + 2) ql qr ((l + r).tdiv 2 + 1) r x with
              | error e => rfl
              | ok s2 =>
                simp only [bind_ok, pure_ok]
                cases readAt s2.tree (2 * cp + 1) with
                | error e => rfl
                | ok a =>
                  simp only [bind_ok]
                  cases readAt s2.tree (2 * cp + 2) with
                  | error e => rfl
                  | ok b =>
                    simp only [bind_ok]
                    cases writeAt s2.tree cp (min [a, b]) with
                    | error e => rfl
                    | ok tree => rfl

theorem visitCount_closed (f : Nat) (ql qr l r : Int)
    (h : (ql ≤ l ∧ qr ≥ r) ∨ (ql > r ∨ qr < l)) : visitCount (f + 1) ql qr l r = 1 := by
  rw [visitCount, if_pos h]

/-- A query that reaches one end of the node range visits at most two nodes a level. -/
theorem visitCount_anchored (ql qr : Int) : ∀ (h f : Nat) (l r : Int), h ≤ f → 0 ≤ l →
    l ≤ r → r - l + 1 ≤ ((2 ^ h : Nat) : Int) → (ql ≤ l ∨ qr ≥ r) →
    visitCount (f + 1) ql qr l r ≤ 2 * h + 1 := by
  intro h
  induction h with
  | zero =>
    intro f l r _ h0 hlr hsz ha
    simp at hsz
    rw [visitCount_closed f ql qr l r (by omega)]
  | succ k ih =>
    intro f l r hf h0 hlr hsz ha
    obtain ⟨g, rfl⟩ : ∃ g, f = g + 1 := ⟨f - 1, by omega⟩
    by_cases hc : (ql ≤ l ∧ qr ≥ r) ∨ (ql > r ∨ qr < l)
    · rw [visitCount_closed _ ql qr l r hc]; omega
    · rw [visitCount, if_neg hc]
      have hmid := midOf_eq l r h0 hlr
      have h7 : ((2 ^ (k + 1) : Nat) : Int) = 2 * ((2 ^ k : Nat) : Int) := by
        push_cast; ring
      have hlt : l < r := by omega
      rcases ha with ha | ha
      · by_cases hq : qr ≥ midOf l r
        · rw [visitCount_closed g ql qr l (midOf l r) (by omega)]
          have := ih g (midOf l r + 1) r (by omega) (by omega) (by omega) (by omega)
            (Or.inl (by omega))
          omega
        · rw [visitCount_closed g ql qr (midOf l r + 1) r (by omega)]
          have := ih g l (midOf l r) (by omega) h0 (by omega) (by omega) (Or.inl ha)
          omega
      · by_cases hq : ql ≤ midOf l r + 1
        · rw [visitCount_closed g ql qr (midOf l r + 1) r (by omega)]
          have := ih g l (midOf l r) (by omega) h0 (by omega) (by omega) (Or.inr (by omega))
          omega
        · rw [visitCount_closed g ql qr l (midOf l r) (by omega)]
          have := ih g (midOf l r + 1) r (by omega) (by omega) (by omega) (by omega)
            (Or.inr ha)
          omega

/-- Any query or update visits at most `4 * h + 1` nodes below a node of height `h`. -/
theorem visitCount_le (ql qr : Int) : ∀ (h f : Nat) (l r : Int), h ≤ f → 0 ≤ l →
    l ≤ r → r - l + 1 ≤ ((2 ^ h : Nat) : Int) →
    visitCount (f + 1) ql qr l r ≤ 4 * h + 1 := by
  intro h
  induction h with
  | zero =>
    intro f l r _ h0 hlr hsz
    simp at hsz
    rw [visitCount_closed f ql qr l r (by omega)]
  | succ k ih =>
    intro f l r hf h0 hlr hsz
    obtain ⟨g, rfl⟩ : ∃ g, f = g + 1 := ⟨f - 1, by omega⟩
    by_cases hc : (ql ≤ l ∧ qr ≥ r) ∨ (ql > r ∨ qr < l)
    · rw [visitCount_closed _ ql qr l r hc]; omega
    · rw [visitCount, if_neg hc]
      have hmid := midOf_eq l r h0 hlr
      have h7 : ((2 ^ (k + 1) : Nat) : Int) = 2 * ((2 ^ k : Nat) : Int) := by
        push_cast; ring
      have hlt : l < r := by omega
      by_cases hq1 : qr ≤ midOf l r
      · rw [visitCount_closed g ql qr (midOf l r + 1) r (by omega)]
        have := ih g l (midOf l r) (by omega) h0 (by omega) (by omega)
        omega
      · by_cases hq2 : ql ≥ midOf l r + 1
        · rw [visitCount_closed g ql qr l (midOf l r) (by omega)]
          have := ih g (midOf l r + 1) r (by omega) (by omega) (by omega) (by omega)
          omega
        · have a1 := visitCount_anchored ql qr k g l (midOf l r) (by omega) h0 (by omega)
            (by omega) (Or.inr (by omega))
          have a2 := visitCount_anchored ql qr k g (midOf l r + 1) r (by omega) (by omega)
            (by omega) (by omega) (Or.inl (by omega))
          omega

/-! ## What a query reads, whatever the stored values -/

theorem qval_succ (T L : Nat → Int) (ql qr : Int) (h c : Nat) (l r p : Int) :
    qval T L ql qr (h + 1) c l r p =
      if ql ≤ l ∧ qr ≥ r then T c + L c + p
      else if ql > r ∨ qr < l then MaxPossibleNumber
      else min [qval T L ql qr h (2 * c + 1) l (midOf l r) (p + L c),
        qval T L ql qr h (2 * c + 2) (midOf l r + 1) r (p + L c)] := rfl

theorem qval_frame {T L T' L' : Nat → Int} (ql qr : Int) : ∀ (h c : Nat) (l r p : Int),
    (∀ j, InSub c j → T' j = T j ∧ L' j = L j) →
    qval T' L' ql qr h c l r p = qval T L ql qr h c l r p := by
  intro h
  induction h with
  | zero => intro c l r p _; rfl
  | succ k ih =>
    intro c l r p hf
    have e := hf c (InSub.refl c)
    rw [qval, qval, e.1, e.2, ih (2 * c + 1) _ _ _ (fun j hj => hf j hj.of_left),
      ih (2 * c + 2) _ _ _ (fun j hj => hf j hj.of_right)]

theorem qval_shift {T L T' L' : Nat → Int} (ql qr : Int) (h c : Nat) (l r p p' : Int)
    (hT : ∀ j, InSub c j → T' j = T j) (hL : ∀ j, InSub c j → j ≠ c → L' j = L j)
    (hp : L' c + p' = L c + p) :
    qval T' L' ql qr h c l r p' = qval T L ql qr h c l r p := by
  cases h with
  | zero => rfl
  | succ k =>
    have e1 : T' c + L' c + p' = T c + L c + p := by rw [hT c (InSub.refl c)]; omega
    have e2 : p' + L' c = p + L c := by omega
    rw [qval, qval, e1, e2,
      qval_frame ql qr k (2 * c + 1) _ _ _
        (fun j hj => ⟨hT j hj.of_left, hL j hj.of_left hj.left_ne.1⟩),
      qval_frame ql qr k (2 * c + 2) _ _ _
        (fun j hj => ⟨hT j hj.of_right, hL j hj.of_right hj.right_ne.1⟩)]

/-- The conditional flush empties the lazy slot of the node and touches no slot outside its
subtree. -/
theorem preFlush_frame (s : SegmentTree) (c : Nat) (l r : Int)
    (hL : c < s.lazy.length) (hT : c < s.tree.length)
    (hC : l < r → 2 * c + 2 < s.lazy.length) :
    lv (preFlush s c l r) c = 0 ∧
    (∀ j, ¬ InSub c j →
      tv (preFlush s c l r) j = tv s j ∧ lv (preFlush s c l r) j = lv s j) := by
  have hTv := fun j => tv_preFlush s c l r j hT
  have hLv := fun j => lv_preFlush s c l r j hL hC
  refine ⟨by rw [hLv c, if_pos rfl], ?_⟩
  intro j hj
  obtain ⟨n1, n2, n3⟩ := not_inSub_ne hj
  rw [hTv j, if_neg n1, hLv j, if_neg n1, if_neg]
  · exact ⟨rfl, rfl⟩
  · rintro ⟨_, e | e⟩
    · exact n2 e
    · exact n3 e

/-- The conditional flush changes what no query reads from the node. -/
theorem preFlush_qval (s : SegmentTree) (c : Nat) (l r : Int)
    (hL : c < s.lazy.length) (hT : c < s.tree.length)
    (hC : l < r → 2 * c + 2 < s.lazy.length) (hlr : l ≤ r) (ql qr : Int) (h : Nat) (p : Int) :
    qval (tv (preFlush s c l r)) (lv (preFlush s c l r)) ql qr h c l r p =
      qval (tv s) (lv s) ql qr h c l r p := by
  have hTv := fun j => tv_preFlush s c l r j hT
  have hLv := fun j => lv_preFlush s c l r j hL hC
  have z0 : lv (preFlush s c l r) c = 0 := by rw [hLv c, if_pos rfl]
  have t0 : tv (preFlush s c l r) c = tv s c + lv s c := by rw [hTv c, if_pos rfl]
  cases h with
  | zero => rfl
  | succ k =>
    rw [qval, qval]
    by_cases h1 : ql ≤ l ∧ qr ≥ r
    · rw [if_pos h1, if_pos h1, t0, z0]; omega
    · rw [if_neg h1, if_neg h1]
      by_cases h2 : ql > r ∨ qr < l
      · rw [if_pos h2, if_pos h2]
      · rw [if_neg h2, if_neg h2]
        have hlt : l < r := by omega
        rw [qval_shift ql qr k (2 * c + 1) l (midOf l r) (p + lv s c)
            (p + lv (preFlush s c l r) c)
            (fun j hj => by rw [hTv j, if_neg hj.left_ne.1])
            (fun j hj hne => by
              rw [hLv j, if_neg hj.left_ne.1, if_neg]
              rintro ⟨_, e | e⟩
              · exact hne e
              · exact hj.left_ne.2 e)
            (by rw [hLv (2 * c + 1), if_neg (by omega), if_pos ⟨hlt, Or.inl rfl⟩, z0]; omega),
          qval_shift ql qr k (2 * c + 2) (midOf l r + 1) r (p + lv s c)
            (p + lv (preFlush s c l r) c)
            (fun j hj => by rw [hTv j, if_neg hj.right_ne.1])
            (fun j hj hne => by
              rw [hLv j, if_neg hj.right_ne.1, if_neg]
              rintro ⟨_, e | e⟩
              · exact hj.right_ne.2 e
              · exact hne e)
            (by rw [hLv (2 * c + 2), if_neg (by omega), if_pos ⟨hlt, Or.inr rfl⟩, z0]; omega)]

/-- `recRMQ`, whatever the stored values: it returns what `qval` reads from the
node, leaves the node with nothing pending, touches no slot outside the
subtree of the node, and changes what no query reads from the node. -/
theorem recRMQ_qval (ql qr : Int) (len : Nat) :
    ∀ (f h : Nat) (s : SegmentTree) (c : Nat) (l r : Int) (v : Int) (s' : SegmentTree),
    s.tree.length = len → s.lazy.length = len → Fit len c l r h →
    recRMQ f s (c : Int) ql qr l r = .ok (v, s') →
    s'.tree.length = len ∧ s'.lazy.length = len ∧ lv s' c = 0 ∧
    (∀ j, ¬ InSub c j → tv s' j = tv s j ∧ lv s' j = lv s j) ∧
    v = qval (tv s) (lv s) ql qr (h + 1) c l r 0 ∧
    (∀ ql' qr' p, qval (tv s') (lv s') ql' qr' (h + 1) c l r p =
      qval (tv s) (lv s) ql' qr' (h + 1) c l r p) := by
  intro f
  induction f with
  | zero => intro h s c l r v s' _ _ _ hrun; simp [recRMQ] at hrun
  | succ g ih =>
    intro h s c l r v s' hT hL hfit hrun
    have hc := hfit.index
    have hC : l < r → 2 * c + 2 < s.lazy.length := fun hh => by
      have := hfit.children hh; omega
    rw [recRMQ_succ g s c ql qr l r (by omega) (by omega) hC] at hrun
    obtain ⟨z0, fr0⟩ := preFlush_frame s c l r (by omega) (by omega) hC
    have pq := preFlush_qval s c l r (by omega) (by omega) hC hfit.2.1
    have t0 : tv (preFlush s c l r) c = tv s c + lv s c := by
      rw [tv_preFlush s c l r c (by omega), if_pos rfl]
    have e1 := preFlush_tree_length s c l r
    have e2 := preFlush_lazy_length s c l r
    by_cases h1 : ql ≤ l ∧ qr ≥ r
    · rw [if_pos h1] at hrun
      injection hrun with hrun
      injection hrun with hv hs
      subst hv hs
      refine ⟨by omega, by omega, z0, fr0, ?_, fun ql' qr' p => pq ql' qr' _ p⟩
      rw [qval, if_pos h1, t0]; omega
    · rw [if_neg h1] at hrun
      by_cases h2 : ql > r ∨ qr < l
      · rw [if_pos h2] at hrun
        injection hrun with hrun
        injection hrun with hv hs
        subst hv hs
        refine ⟨by omega, by omega, z0, fr0, ?_, fun ql' qr' p => pq ql' qr' _ p⟩
        rw [qval, if_neg h1, if_pos h2]
      · rw [if_neg h2] at hrun
        have hlr : l < r := by obtain ⟨_, hh, _, _⟩ := hfit; omega
        obtain ⟨k, rfl⟩ := hfit.height hlr
        cases q1 : recRMQ g (preFlush s c l r) ((2 * c + 1 : Nat) : Int) ql qr l (midOf l r) with
        | error e => rw [q1, bind_error] at hrun; cases hrun
        | ok p1 =>
          obtain ⟨v1, s1⟩ := p1
          rw [q1, bind_ok] at hrun
          dsimp only at hrun
          obtain ⟨t1, l1, z1, fr1, r1, k1⟩ := ih k (preFlush s c l r) (2 * c + 1) l
            (midOf l r) v1 s1 (by omega) (by omega) (hfit.left hlr) q1
          cases q2 : recRMQ g s1 ((2 * c + 2 : Nat) : Int) ql qr (midOf l r + 1) r with
          | error e => rw [q2, bind_error] at hrun; cases hrun
          | ok p2 =>
            obtain ⟨v2, s2⟩ := p2
            rw [q2, bind_ok, pure_ok] at hrun
            dsimp only at hrun
            obtain ⟨t2, l2, z2, fr2, r2, k2⟩ := ih k s1 (2 * c + 2) (midOf l r + 1) r v2 s2
              t1 l1 (hfit.right hlr) q2
            injection hrun with hrun
            injection hrun with hv hs
            subst hv hs
            have nl : ¬ InSub (2 * c + 1) c := fun hh => by have := hh.le; omega
            have nr : ¬ InSub (2 * c + 2) c := fun hh => by have := hh.le; omega
            have eT : tv s2 c = tv (preFlush s c l r) c := by
              rw [(fr2 c nr).1, (fr1 c nl).1]
            have eL : lv s2 c = lv (preFlush s c l r) c := by
              rw [(fr2 c nr).2, (fr1 c nl).2]
            have fL : ∀ (a b : Int) (d : Nat) (x y q : Int),
                qval (tv s1) (lv s1) a b d (2 * c + 2) x y q =
                  qval (tv (preFlush s c l r)) (lv (preFlush s c l r)) a b d (2 * c + 2) x y q :=
              fun a b d x y q => qval_frame a b d (2 * c + 2) x y q
                (fun j hj => fr1 j (fun hj' => InSub.disjoint hj' hj))
            have fR : ∀ (a b : Int) (d : Nat) (x y q : Int),
                qval (tv s2) (lv s2) a b d (2 * c + 1) x y q =
                  qval (tv s1) (lv s1) a b d (2 * c + 1) x y q :=
              fun a b d x y q => qval_frame a b d (2 * c + 1) x y q
                (fun j hj => fr2 j (fun hj' => InSub.disjoint hj hj'))
            refine ⟨t2, l2, by rw [eL, z0], ?_, ?_, ?_⟩
            · intro j hj
              have j1 : ¬ InSub (2 * c + 1) j := fun hh => hj hh.of_left
              have j2 : ¬ InSub (2 * c + 2) j := fun hh => hj hh.of_right
              rw [(fr2 j j2).1, (fr1 j j1).1, (fr2 j j2).2, (fr1 j j1).2]
              exact fr0 j hj
            · rw [← pq ql qr (k + 1 + 1) 0, qval_succ, if_neg h1, if_neg h2, z0, r1, r2, fL]
              simp
            · intro ql' qr' p
              rw [← pq ql' qr' (k + 1 + 1) p, qval_succ (tv s2), qval_succ (tv (preFlush s c l r)),
                eT, eL, fR, k1, k2, fL]

/-- The fully covered branch of `recRangeAdd` keeps the lazy slot of the node
and touches no slot outside its subtree. -/
theorem coverState_frame (s : SegmentTree) (c : Nat) (l r x : Int)
    (hT : c < s.tree.length) (hC : l < r → 2 * c + 2 < s.lazy.length) :
    lv (coverState s c l r x) c = lv s c ∧
    (∀ j, ¬ InSub c j →
      tv (coverState s c l r x) j = tv s j ∧ lv (coverState s c l r x) j = lv s j) := by
  have hTv := fun j => tv_coverState s c l r x j hT
  have hLv := fun j => lv_coverState s c l r x j hC
  refine ⟨?_, ?_⟩
  · rw [hLv c, if_neg]
    rintro ⟨_, e | e⟩ <;> omega
  · intro j hj
    obtain ⟨n1, n2, n3⟩ := not_inSub_ne hj
    rw [hTv j, if_neg n1, hLv j, if_neg]
    · exact ⟨rfl, rfl⟩
    · rintro ⟨_, e | e⟩
      · exact n2 e
      · exact n3 e

/-- `recRangeAdd`, whatever the stored values: it leaves the node with nothing
pending, touches no slot outside the subtree of the node, and changes what no
query of a single position outside `ql .. qr` reads from the node. -/
theorem recRangeAdd_point (ql qr x : Int) (len : Nat) :
    ∀ (f h : Nat) (s : SegmentTree) (c : Nat) (l r : Int) (s' : SegmentTree),
    s.tree.length = len → s.lazy.length = len → Fit len c l r h →
    recRangeAdd f s (c : Int) ql qr l r x = .ok s' →
    s'.tree.length = len ∧ s'.lazy.length = len ∧ lv s' c = 0 ∧
    (∀ j, ¬ InSub c j → tv s' j = tv s j ∧ lv s' j = lv s j) ∧
    (∀ i p, (i < ql ∨ i > qr) → qval (tv s') (lv s') i i (h + 1) c l r p =
      qval (tv s) (lv s) i i (h + 1) c l r p) := by
  intro f
  induction f with
  | zero => intro h s c l r s' _ _ _ hrun; simp [recRangeAdd] at hrun
  | succ g ih =>
    intro h s c l r s' hT hL hfit hrun
    have hc := hfit.index
    have hC : l < r → 2 * c + 2 < s.lazy.length := fun hh => by
      have := hfit.children hh; omega
    rw [recRangeAdd_succ g s c ql qr l r x (by omega) (by omega) hC] at hrun
    obtain ⟨z0, fr0⟩ := preFlush_frame s c l r (by omega) (by omega) hC
    have pq := preFlush_qval s c l r (by omega) (by omega) hC hfit.2.1
    have e1 := preFlush_tree_length s c l r
    have e2 := preFlush_lazy_length s c l r
    by_cases h2 : ql > r ∨ qr < l
    · rw [if_pos h2] at hrun
      injection hrun with hs
      subst hs
      exact ⟨by omega, by omega, z0, fr0, fun i p _ => pq i i _ p⟩
    · rw [if_neg h2] at hrun
      by_cases h1 : ql ≤ l ∧ qr ≥ r
      · rw [if_pos h1] at hrun
        injection hrun with hs
        subst hs
        obtain ⟨zc, frc⟩ := coverState_frame (preFlush s c l r) c l r x (by omega)
          (fun hh => by have := hC hh; omega)
        refine ⟨by rw [coverState_tree_length]; omega, by rw [coverState_lazy_length]; omega,
          by rw [zc, z0], ?_, ?_⟩
        · intro j hj
          rw [(frc j hj).1, (frc j hj).2]
          exact fr0 j hj
        · intro i p hi
          have hlr := hfit.2.1
          have hn1 : ¬ (i ≤ l ∧ i ≥ r) := by omega
          have hn2 : i > r ∨ i < l := by omega
          rw [qval_succ, qval_succ, if_neg hn1, if_pos hn2, if_neg hn1, if_pos hn2]
      · rw [if_neg h1] at hrun
        have hlr : l < r := by obtain ⟨_, hh, _, _⟩ := hfit; omega
        obtain ⟨k, rfl⟩ := hfit.height hlr
        cases q1 : recRangeAdd g (preFlush s c l r) ((2 * c + 1 : Nat) : Int) ql qr l
            (midOf l r) x with
        | error e => rw [q1, bind_error] at hrun; cases hrun
        | ok s1 =>
          rw [q1, bind_ok] at hrun
          obtain ⟨t1, l1, z1, fr1, k1⟩ := ih k (preFlush s c l r) (2 * c + 1) l
            (midOf l r) s1 (by omega) (by omega) (hfit.left hlr) q1
          cases q2 : recRangeAdd g s1 ((2 * c + 2 : Nat) : Int) ql qr (midOf l r + 1) r x with
          | error e => rw [q2, bind_error] at hrun; cases hrun
          | ok s2 =>
            rw [q2, bind_ok] at hrun
            obtain ⟨t2, l2, z2, fr2, k2⟩ := ih k s1 (2 * c + 2) (midOf l r + 1) r s2
              t1 l1 (hfit.right hlr) q2
            have hch := hfit.children hlr
            rw [pull_eq s2 c (by omega)] at hrun
            injection hrun with hs
            subst hs
            have nl : ¬ InSub (2 * c + 1) c := fun hh => by have := hh.le; omega
            have nr : ¬ InSub (2 * c + 2) c := fun hh => by have := hh.le; omega
            have hTv := fun j => tv_pullState s2 c j (by omega)
            have eL : lv (pullState s2 c) c = lv (preFlush s c l r) c := by
              rw [lv_pullState, (fr2 c nr).2, (fr1 c nl).2]
            have fL : ∀ (a b : Int) (d : Nat) (x y q : Int),
                qval (tv s1) (lv s1) a b d (2 * c + 2) x y q =
                  qval (tv (preFlush s c l r)) (lv (preFlush s c l r)) a b d (2 * c + 2) x y q :=
              fun a b d x y q => qval_frame a b d (2 * c + 2) x y q
                (fun j hj => fr1 j (fun hj' => InSub.disjoint hj' hj))
            have fR : ∀ (a b : Int) (d : Nat) (x y q : Int),
                qval (tv s2) (lv s2) a b d (2 * c + 1) x y q =
                  qval (tv s1) (lv s1) a b d (2 * c + 1) x y q :=
              fun a b d x y q => qval_frame a b d (2 * c + 1) x y q
                (fun j hj => fr2 j (fun hj' => InSub.disjoint hj hj'))
            have fP1 : ∀ (a b : Int) (d : Nat) (x y q : Int),
                qval (tv (pullState s2 c)) (lv (pullState s2 c)) a b d (2 * c + 1) x y q =
                  qval (tv s2) (lv s2) a b d (2 * c + 1) x y q :=
              fun a b d x y q => qval_frame a b d (2 * c + 1) x y q
                (fun j hj => ⟨by rw [hTv j, if_neg hj.left_ne.1], rfl⟩)
            have fP2 : ∀ (a b : Int) (d : Nat) (x y q : Int),
                qval (tv (pullState s2 c)) (lv (pullState s2 c)) a b d (2 * c + 2) x y q =
                  qval (tv s2) (lv s2) a b d (2 * c + 2) x y q :=
              fun a b d x y q => qval_frame a b d (2 * c + 2) x y q
                (fun j hj => ⟨by rw [hTv j, if_neg hj.right_ne.1], rfl⟩)
            refine ⟨by rw [pullState_tree_length]; exact t2, l2, by rw [eL, z0], ?_, ?_⟩
            · intro j hj
              have j1 : ¬ InSub (2 * c + 1) j := fun hh => hj hh.of_left
              have j2 : ¬ InSub (2 * c + 2) j := fun hh => hj hh.of_right
              rw [lv_pullState, hTv j, if_neg (not_inSub_ne hj).1,
                (fr2 j j2).1, (fr1 j j1).1, (fr2 j j2).2, (fr1 j j1).2]
              exact fr0 j hj
            · intro i p hi
              have hn1 : ¬ (i ≤ l ∧ i ≥ r) := by omega
              rw [← pq i i (k + 1 + 1) p, qval_succ (tv (pullState s2 c)),
                qval_succ (tv (preFlush s c l r)), if_neg hn1, if_neg hn1,
                eL, fP1, fP2, fR, k1 i _ hi, k2 i _ hi, fL]

/-- A valid `RangeMinQuery` on a tree of the shape `New` gives, whatever the
stored values: it returns what `qval` reads from the root, and afterwards every
query reads from the root what it read before. -/
theorem RangeMinQuery_qval (n : Nat) (s : SegmentTree) (hs : Shape n s) (l r : Int)
    (h0 : 0 ≤ l) (hlr : l ≤ r) (hr : r ≤ (n : Int) - 1) :
    ∃ s', RangeMinQuery s l r =
        .ok ((qval (tv s) (lv s) l r (ceilLog2 n + 1) 0 0 ((n : Int) - 1) 0, none), s') ∧
      Shape n s' ∧ lv s' 0 = 0 ∧
      (∀ ql' qr' p, qval (tv s') (lv s') ql' qr' (ceilLog2 n + 1) 0 0 ((n : Int) - 1) p =
        qval (tv s) (lv s) ql' qr' (ceilLog2 n + 1) 0 0 ((n : Int) - 1) p) := by
  obtain ⟨v, s', q, hs', hrun⟩ := RangeMinQuery_shape n s hs l r h0 hlr hr
  have hrun' : recRMQ n s ((0 : Nat) : Int) l r 0 ((n : Int) - 1) = .ok (v, s') := hrun
  obtain ⟨_, _, z, _, hv, hk⟩ := recRMQ_qval l r (allocLen n) n (ceilLog2 n) s 0 0
    ((n : Int) - 1) v s' hs.2.2.1 hs.2.2.2 (rootFit n hs.1) hrun'
  subst hv
  exact ⟨s', q, hs', z, hk⟩

/-- A valid `RangeAdd` on a tree of the shape `New` gives, whatever the stored
values: afterwards every query of a single position outside the range reads
from the root what it read before. -/
theorem RangeAdd_point (n : Nat) (s : SegmentTree) (hs : Shape n s) (l r x : Int)
    (h0 : 0 ≤ l) (hlr : l ≤ r) (hr : r ≤ (n : Int) - 1) :
    ∃ s', RangeAdd s l r x = .ok (none, s') ∧ Shape n s' ∧ lv s' 0 = 0 ∧
      (∀ i p, (i < l ∨ i > r) →
        qval (tv s') (lv s') i i (ceilLog2 n + 1) 0 0 ((n : Int) - 1) p =
          qval (tv s) (lv s) i i (ceilLog2 n + 1) 0 0 ((n : Int) - 1) p) := by
  obtain ⟨s', q, hs', hrun⟩ := RangeAdd_shape n s hs l r x h0 hlr hr
  have hrun' : recRangeAdd n s ((0 : Nat) : Int) l r 0 ((n : Int) - 1) x = .ok s' := hrun
  obtain ⟨_, _, z, _, hk⟩ := recRangeAdd_point l r x (allocLen n) n (ceilLog2 n) s 0 0
    ((n : Int) - 1) s' hs.2.2.1 hs.2.2.2 (rootFit n hs.1) hrun'
  exact ⟨s', q, hs', z, hk⟩

/-! ## The 64-bit reduction -/

theorem wrap64_inInt64 (a : Int) : InInt64 (wrap64 a) := by
  unfold InInt64 wrap64 MinInt64 MaxInt64
  omega

theorem wrap64_eq (a : Int) (h : InInt64 a) : wrap64 a = a := by
  unfold InInt64 MinInt64 MaxInt64 at h
  unfold wrap64
  omega

theorem wrap64_add (a b : Int) : wrap64 (wrap64 a + wrap64 b) = wrap64 (a + b) := by
  unfold wrap64
  omega

theorem wrap64_add_left (a b : Int) : wrap64 (wrap64 a + b) = wrap64 (a + b) := by
  unfold wrap64
  omega

theorem wrap64_zero_right (a b : Int) (h : wrap64 b = 0) : wrap64 a = wrap64 (a + b) := by
  unfold wrap64 at *
  omega

/-! ## Elementary steps of the 64-bit program in closed form -/

theorem flush64_eq (s : SegmentTree) (c : Nat) (l r : Int)
    (hT : c < s.tree.length) (hL : c < s.lazy.length)
    (hC : l < r → 2 * c + 2 < s.lazy.length) :
    flush64 s (c : Int) l r = .ok (flushState64 s c l r) := by
  unfold flush64 flushState64
  simp only [readAt_nat _ _ hT, readAt_nat _ _ hL, writeAt_nat _ _ _ hT, bind_ok, pure_ok]
  by_cases hlr : l < r
  · have h2 := hC hlr
    simp only [hlr, if_true, cast_left, cast_right]
    rw [readAt_nat _ _ (by omega)]
    simp only [bind_ok]
    rw [writeAt_nat _ _ _ (by omega), bind_ok,
      readAt_nat _ _ (by simp; omega), bind_ok, readAt_nat _ _ (by simp; omega), bind_ok,
      writeAt_nat _ _ _ (by simp; omega), bind_ok, bind_ok,
      writeAt_nat _ _ _ (by simp; omega), bind_ok]
    simp only [getD_set, tv, lv]
    rw [if_neg (by omega), if_neg (by omega)]
  · simp only [hlr, if_false, bind_ok]
    rw [writeAt_nat _ _ _ hL, bind_ok]
    simp only [tv, lv]

theorem flushState64_tree_length (s : SegmentTree) (c : Nat) (l r : Int) :
    (flushState64 s c l r).tree.length = s.tree.length := by
  simp [flushState64]

theorem flushState64_lazy_length (s : SegmentTree) (c : Nat) (l r : Int) :
    (flushState64 s c l r).lazy.length = s.lazy.length := by
  unfold flushState64
  by_cases h : l < r <;> simp [h]

theorem preFlush64_tree_length (s : SegmentTree) (c : Nat) (l r : Int) :
    (preFlush64 s c l r).tree.length = s.tree.length := by
  unfold preFlush64
  split_ifs
  · exact flushState64_tree_length s c l r
  · rfl

theorem preFlush64_lazy_length (s : SegmentTree) (c : Nat) (l r : Int) :
    (preFlush64 s c l r).lazy.length = s.lazy.length := by
  unfold preFlush64
  split_ifs
  · exact flushState64_lazy_length s c l r
  · rfl

theorem preFlush64_origLen (s : SegmentTree) (c : Nat) (l r : Int) :
    (preFlush64 s c l r).origLen = s.origLen := by
  unfold preFlush64
  split_ifs
  · rfl
  · rfl

theorem coverState64_tree_length (s : SegmentTree) (c : Nat) (l r x : Int) :
    (coverState64 s c l r x).tree.length = s.tree.length := by
  simp [coverState64]

theorem coverState64_lazy_length (s : SegmentTree) (c : Nat) (l r x : Int) :
    (coverState64 s c l r x).lazy.length = s.lazy.length := by
  unfold coverState64
  by_cases h : l < r <;> simp [h]

/-- The conditional flush that opens `recRMQ64` and `recRangeAdd64`, in closed form. -/
theorem preFlush64_eq (s : SegmentTree) (c : Nat) (l r : Int)
    (hT : c < s.tree.length) (hL : c < s.lazy.length)
    (hC : l < r → 2 * c + 2 < s.lazy.length) :
    (if lv s c ≠ 0 then flush64 s (c : Int) l r else pure s) = .ok (preFlush64 s c l r) := by
  unfold preFlush64
  by_cases hz : lv s c ≠ 0
  · rw [if_pos hz, if_pos hz, flush64_eq s c l r hT hL hC]
  · rw [if_neg hz, if_neg hz, pure_ok]

/-- One level of `recRMQ64` when the accesses at the node are in range. -/
theorem recRMQ64_succ (f : Nat) (s : SegmentTree) (c : Nat) (ql qr l r : Int)
    (hT : c < s.tree.length) (hL : c < s.lazy.length)
    (hC : l < r → 2 * c + 2 < s.lazy.length) :
    recRMQ64 (f + 1) s (c : Int) ql qr l r =
      (if ql ≤ l ∧ qr ≥ r then .ok (tv (preFlush64 s c l r) c, preFlush64 s c l r)
       else if ql > r ∨ qr < l then .ok (MaxPossibleNumber, preFlush64 s c l r)
       else do
        let (lmin, s1) ← recRMQ64 f (preFlush64 s c l r) ((2 * c + 1 : Nat) : Int) ql qr l
          (midOf l r)
        let (rmin, s2) ← recRMQ64 f s1 ((2 * c + 2 : Nat) : Int) ql qr (midOf l r + 1) r
        pure (min [lmin, rmin], s2)) := by
  rw [recRMQ64]
  rw [readAt_nat _ _ hL, bind_ok]
  have h0 := preFlush64_eq s c l r hT hL hC
  unfold lv at h0
  rw [h0, bind_ok]
  by_cases h1 : ql ≤ l ∧ qr ≥ r
  · rw [if_pos h1, if_pos h1,
      readAt_nat _ _ (by rw [preFlush64_tree_length]; exact hT), bind_ok, pure_ok]
    rfl
  · rw [if_neg h1, if_neg h1]
    by_cases h2 : ql > r ∨ qr < l
    · rw [if_pos h2, if_pos h2, pure_ok]
    · rw [if_neg h2, if_neg h2, cast_left, cast_right]
      rfl

/-- One level of `recRangeAdd64` when the accesses at the node are in range. -/
theorem recRangeAdd64_succ (f : Nat) (s : SegmentTree) (c : Nat) (ql qr l r x : Int)
    (hT : c < s.tree.length) (hL : c < s.lazy.length)
    (hC : l < r → 2 * c + 2 < s.lazy.length) :
    recRangeAdd64 (f + 1) s (c : Int) ql qr l r x =
      (if ql > r ∨ qr < l then .ok (preFlush64 s c l r)
       else if ql ≤ l ∧ qr ≥ r then .ok (coverState64 (preFlush64 s c l r) c l r x)
       else do
        let s1 ← recRangeAdd64 f (preFlush64 s c l r) ((2 * c + 1 : Nat) : Int) ql qr l
          (midOf l r) x
        let s2 ← recRangeAdd64 f s1 ((2 * c + 2 : Nat) : Int) ql qr (midOf l r + 1) r x
        let a ← readAt s2.tree ((2 * c + 1 : Nat) : Int)
        let b ← readAt s2.tree ((2 * c + 2 : Nat) : Int)
        let tree ← writeAt s2.tree (c : Int) (min [a, b])
        pure { s2 with tree := tree }) := by
  rw [recRangeAdd64]
  rw [readAt_nat _ _ hL, bind_ok]
  have h0 := preFlush64_eq s c l r hT hL hC
  unfold lv at h0
  rw [h0, bind_ok]
  have hT0 : c < (preFlush64 s c l r).tree.length := by rw [preFlush64_tree_length]; exact hT
  have hL0 : (preFlush64 s c l r).lazy.length = s.lazy.length := preFlush64_lazy_length s c l r
  by_cases h2 : ql > r ∨ qr < l
  · rw [if_pos h2, if_pos h2, pure_ok]
  · rw [if_neg h2, if_neg h2]
    by_cases h1 : ql ≤ l ∧ qr ≥ r
    · rw [if_pos h1, if_pos h1, readAt_nat _ _ hT0, bind_ok, writeAt_nat _ _ _ hT0, bind_ok]
      unfold coverState64
      by_cases hlr : l < r
      · have h3 := hC hlr
        simp only [hlr, if_true, cast_left, cast_right]
        rw [readAt_nat _ _ (by omega), bind_ok, writeAt_nat _ _ _ (by omega), bind_ok,
          readAt_nat _ _ (by simp; omega), bind_ok, writeAt_nat _ _ _ (by simp; omega), bind_ok,
          pure_ok]
        simp only [getD_set, tv, lv]
        rw [if_neg (by omega)]
      · simp only [hlr, if_false, pure_ok, tv]
    · rw [if_neg h1, if_neg h1, cast_left, cast_right]
      rfl

theorem tv_flushState64 (s : SegmentTree) (c : Nat) (l r : Int) (j : Nat)
    (hT : c < s.tree.length) :
    tv (flushState64 s c l r) j = if j = c then wrap64 (tv s c + lv s c) else tv s j := by
  simp only [flushState64, tv, getD_set]
  by_cases hj : j = c
  · subst hj; simp [hT]
  · rw [if_neg (by omega), if_neg hj]

theorem lv_flushState64 (s : SegmentTree) (c : Nat) (l r : Int) (j : Nat)
    (hL : c < s.lazy.length) (hC : l < r → 2 * c + 2 < s.lazy.length) :
    lv (flushState64 s c l r) j =
      if j = c then 0
      else if l < r ∧ (j = 2 * c + 1 ∨ j = 2 * c + 2) then wrap64 (lv s j + lv s c)
      else lv s j := by
  by_cases hlr : l < r
  · have h2 := hC hlr
    simp only [flushState64, lv, getD_set, hlr, if_true, true_and, List.length_set]
    by_cases hj : j = c
    · subst hj; simp [hL]
    · rw [if_neg (by omega), if_neg hj]
      by_cases h1 : j = 2 * c + 1
      · subst h1; simp; omega
      · by_cases h3 : j = 2 * c + 2
        · subst h3; simp; omega
        · rw [if_neg (by omega), if_neg (by omega), if_neg (by omega)]
  · simp only [flushState64, lv, getD_set, hlr, if_false, false_and]
    by_cases hj : j = c
    · subst hj; simp [hL]
    · rw [if_neg (by omega), if_neg hj]

theorem tv_coverState64 (s : SegmentTree) (c : Nat) (l r x : Int) (j : Nat)
    (hT : c < s.tree.length) :
    tv (coverState64 s c l r x) j = if j = c then wrap64 (tv s c + x) else tv s j := by
  simp only [coverState64, tv, getD_set]
  by_cases hj : j = c
  · subst hj; simp [hT]
  · rw [if_neg (by omega), if_neg hj]

theorem lv_coverState64 (s : SegmentTree) (c : Nat) (l r x : Int) (j : Nat)
    (hC : l < r → 2 * c + 2 < s.lazy.length) :
    lv (coverState64 s c l r x) j =
      if l < r ∧ (j = 2 * c + 1 ∨ j = 2 * c + 2) then wrap64 (lv s j + x) else lv s j := by
  by_cases hlr : l < r
  · have h2 := hC hlr
    simp only [coverState64, lv, getD_set, hlr, if_true, true_and, List.length_set]
    by_cases h1 : j = 2 * c + 1
    · subst h1; simp; omega
    · by_cases h3 : j = 2 * c + 2
      · subst h3; simp; omega
      · rw [if_neg (by omega), if_neg (by omega), if_neg (by omega)]
  · simp only [coverState64, lv, hlr, if_false, false_and]

/-! ## The 64-bit recursions return, and what they leave untouched -/

/-- The 64-bit conditional flush empties the lazy slot of the node and touches
no slot outside its subtree. -/
theorem preFlush64_frame (s : SegmentTree) (c : Nat) (l r : Int)
    (hL : c < s.lazy.length) (hT : c < s.tree.length)
    (hC : l < r → 2 * c + 2 < s.lazy.length) :
    lv (preFlush64 s c l r) c = 0 ∧
    (∀ j, ¬ InSub c j →
      tv (preFlush64 s c l r) j = tv s j ∧ lv (preFlush64 s c l r) j = lv s j) := by
  unfold preFlush64
  by_cases hz : lv s c ≠ 0
  · rw [if_pos hz]
    have hTv := fun j => tv_flushState64 s c l r j hT
    have hLv := fun j => lv_flushState64 s c l r j hL hC
    refine ⟨by rw [hLv c, if_pos rfl], ?_⟩
    intro j hj
    obtain ⟨n1, n2, n3⟩ := not_inSub_ne hj
    rw [hTv j, if_neg n1, hLv j, if_neg n1, if_neg]
    · exact ⟨rfl, rfl⟩
    · rintro ⟨_, e | e⟩
      · exact n2 e
      · exact n3 e
  · rw [if_neg hz]
    exact ⟨by simpa using hz, fun j _ => ⟨rfl, rfl⟩⟩

/-- The fully covered branch of `recRangeAdd64` keeps the lazy slot of the node
and touches no slot outside its subtree. -/
theorem coverState64_frame (s : SegmentTree) (c : Nat) (l r x : Int)
    (hT : c < s.tree.length) (hC : l < r → 2 * c + 2 < s.lazy.length) :
    lv (coverState64 s c l r x) c = lv s c ∧
    (∀ j, ¬ InSub c j →
      tv (coverState64 s c l r x) j = tv s j ∧ lv (coverState64 s c l r x) j = lv s j) := by
  have hTv := fun j => tv_coverState64 s c l r x j hT
  have hLv := fun j => lv_coverState64 s c l r x j hC
  refine ⟨?_, ?_⟩
  · rw [hLv c, if_neg]
    rintro ⟨_, e | e⟩ <;> omega
  · intro j hj
    obtain ⟨n1, n2, n3⟩ := not_inSub_ne hj
    rw [hTv j, if_neg n1, hLv j, if_neg]
    · exact ⟨rfl, rfl⟩
    · rintro ⟨_, e | e⟩
      · exact n2 e
      · exact n3 e

theorem InInt64.minOfPair {a b : Int} (ha : InInt64 a) (hb : InInt64 b) : InInt64 (min [a, b]) := by
  unfold InInt64 MinInt64 MaxInt64 at *
  simp only [min, List.foldl]
  unfold MaxPossibleNumber
  split_ifs <;> omega

/-- The 64-bit conditional flush stores 64-bit values only. -/
theorem preFlush64_stored (s : SegmentTree) (c : Nat) (l r : Int)
    (hL : c < s.lazy.length) (hT : c < s.tree.length)
    (hC : l < r → 2 * c + 2 < s.lazy.length) (h : Stored64 s) :
    Stored64 (preFlush64 s c l r) := by
  unfold preFlush64
  by_cases hz : lv s c ≠ 0
  · rw [if_pos hz]
    intro j
    rw [tv_flushState64 s c l r j hT, lv_flushState64 s c l r j hL hC]
    refine ⟨?_, ?_⟩
    · split_ifs
      · exact wrap64_inInt64 _
      · exact (h j).1
    · split_ifs
      · decide
      · exact wrap64_inInt64 _
      · exact (h j).2
  · rw [if_neg hz]
    exact h

/-- The fully covered branch of `recRangeAdd64` stores 64-bit values only. -/
theorem coverState64_stored (s : SegmentTree) (c : Nat) (l r x : Int)
    (hT : c < s.tree.length) (hC : l < r → 2 * c + 2 < s.lazy.length) (h : Stored64 s) :
    Stored64 (coverState64 s c l r x) := by
  intro j
  rw [tv_coverState64 s c l r x j hT, lv_coverState64 s c l r x j hC]
  refine ⟨?_, ?_⟩
  · split_ifs
    · exact wrap64_inInt64 _
    · exact (h j).1
  · split_ifs
    · exact wrap64_inInt64 _
    · exact (h j).2

/-- Recomputing a split node stores a 64-bit value. -/
theorem pullState_stored (s : SegmentTree) (c : Nat) (hT : c < s.tree.length)
    (h : Stored64 s) : Stored64 (pullState s c) := by
  intro j
  rw [tv_pullState s c j hT, lv_pullState]
  refine ⟨?_, (h j).2⟩
  split_ifs
  · exact (h _).1.minOfPair (h _).1
  · exact (h j).1

/-- With the node fitting the slices and a budget of at least its height plus
one, `recRMQ64` returns; it keeps the lengths and `origLen`, leaves the node
with nothing pending, touches no slot outside the subtree of the node, and
stores 64-bit values only. -/
theorem recRMQ64_safe (h : Nat) : ∀ (f : Nat) (s : SegmentTree) (c : Nat) (ql qr l r : Int)
    (len : Nat), h ≤ f → s.tree.length = len → s.lazy.length = len → Fit len c l r h →
    ∃ v s', recRMQ64 (f + 1) s (c : Int) ql qr l r = .ok (v, s') ∧
      s'.tree.length = len ∧ s'.lazy.length = len ∧ s'.origLen = s.origLen ∧
      lv s' c = 0 ∧ (∀ j, ¬ InSub c j → tv s' j = tv s j ∧ lv s' j = lv s j) ∧
      (Stored64 s → Stored64 s') := by
  induction h with
  | zero =>
    intro f s c ql qr l r len _ hT hL hfit
    have hc := hfit.index
    have hlr : ¬ l < r := by
      obtain ⟨_, _, h3, _⟩ := hfit
      simp at h3; omega
    rw [recRMQ64_succ f s c ql qr l r (by omega) (by omega) (fun h => absurd h hlr)]
    have e1 := preFlush64_tree_length s c l r
    have e2 := preFlush64_lazy_length s c l r
    have e3 := preFlush64_origLen s c l r
    obtain ⟨z0, fr0⟩ := preFlush64_frame s c l r (by omega) (by omega) (fun h => absurd h hlr)
    have st0 := preFlush64_stored s c l r (by omega) (by omega) (fun h => absurd h hlr)
    by_cases h1 : ql ≤ l ∧ qr ≥ r
    · rw [if_pos h1]
      exact ⟨_, _, rfl, by omega, by omega, e3, z0, fr0, st0⟩
    · rw [if_neg h1]
      have h2 : ql > r ∨ qr < l := by obtain ⟨_, h2, _, _⟩ := hfit; omega
      rw [if_pos h2]
      exact ⟨_, _, rfl, by omega, by omega, e3, z0, fr0, st0⟩
  | succ k ih =>
    intro f s c ql qr l r len hf hT hL hfit
    have hc := hfit.index
    obtain ⟨g, rfl⟩ : ∃ g, f = g + 1 := ⟨f - 1, by omega⟩
    have hC : l < r → 2 * c + 2 < s.lazy.length := fun h => by
      have := hfit.children h; omega
    rw [recRMQ64_succ (g + 1) s c ql qr l r (by omega) (by omega) hC]
    have e1 := preFlush64_tree_length s c l r
    have e2 := preFlush64_lazy_length s c l r
    have e3 := preFlush64_origLen s c l r
    obtain ⟨z0, fr0⟩ := preFlush64_frame s c l r (by omega) (by omega) hC
    have st0 := preFlush64_stored s c l r (by omega) (by omega) hC
    by_cases h1 : ql ≤ l ∧ qr ≥ r
    · rw [if_pos h1]
      exact ⟨_, _, rfl, by omega, by omega, e3, z0, fr0, st0⟩
    · rw [if_neg h1]
      by_cases h2 : ql > r ∨ qr < l
      · rw [if_pos h2]
        exact ⟨_, _, rfl, by omega, by omega, e3, z0, fr0, st0⟩
      · rw [if_neg h2]
        have hlr : l < r := by obtain ⟨_, h2, _, _⟩ := hfit; omega
        obtain ⟨v1, s1, q1, a1, b1, c1, _, fr1, st1⟩ := ih g (preFlush64 s c l r) (2 * c + 1)
          ql qr l (midOf l r) len (by omega) (by omega) (by omega) (hfit.left hlr)
        obtain ⟨v2, s2, q2, a2, b2, c2, _, fr2, st2⟩ := ih g s1 (2 * c + 2) ql qr
          (midOf l r + 1) r len (by omega) a1 b1 (hfit.right hlr)
        rw [q1, bind_ok]
        simp only []
        rw [q2, bind_ok]
        have nl : ¬ InSub (2 * c + 1) c := fun hh => by have := hh.le; omega
        have nr : ¬ InSub (2 * c + 2) c := fun hh => by have := hh.le; omega
        refine ⟨_, _, rfl, a2, b2, by rw [c2, c1, e3], by rw [(fr2 c nr).2, (fr1 c nl).2, z0],
          ?_, fun hst => st2 (st1 (st0 hst))⟩
        intro j hj
        have j1 : ¬ InSub (2 * c + 1) j := fun hh => hj hh.of_left
        have j2 : ¬ InSub (2 * c + 2) j := fun hh => hj hh.of_right
        rw [(fr2 j j2).1, (fr1 j j1).1, (fr2 j j2).2, (fr1 j j1).2]
        exact fr0 j hj

/-- With the node fitting the slices and a budget of at least its height plus
one, `recRangeAdd64` returns; it keeps the lengths and `origLen`, leaves the
node with nothing pending, touches no slot outside the subtree of the node, and
stores 64-bit values only. -/
theorem recRangeAdd64_safe (h : Nat) : ∀ (f : Nat) (s : SegmentTree) (c : Nat)
    (ql qr l r x : Int) (len : Nat), h ≤ f → s.tree.length = len → s.lazy.length = len →
    Fit len c l r h →
    ∃ s', recRangeAdd64 (f + 1) s (c : Int) ql qr l r x = .ok s' ∧
      s'.tree.length = len ∧ s'.lazy.length = len ∧ s'.origLen = s.origLen ∧
      lv s' c = 0 ∧ (∀ j, ¬ InSub c j → tv s' j = tv s j ∧ lv s' j = lv s j) ∧
      (Stored64 s → Stored64 s') := by
  induction h with
  | zero =>
    intro f s c ql qr l r x len _ hT hL hfit
    have hc := hfit.index
    have hlr : ¬ l < r := by
      obtain ⟨_, _, h3, _⟩ := hfit
      simp at h3; omega
    rw [recRangeAdd64_succ f s c ql qr l r x (by omega) (by omega) (fun h => absurd h hlr)]
    have e1 := preFlush64_tree_length s c l r
    have e2 := preFlush64_lazy_length s c l r
    have e3 := preFlush64_origLen s c l r
    obtain ⟨z0, fr0⟩ := preFlush64_frame s c l r (by omega) (by omega) (fun h => absurd h hlr)
    have st0 := preFlush64_stored s c l r (by omega) (by omega) (fun h => absurd h hlr)
    by_cases h2 : ql > r ∨ qr < l
    · rw [if_pos h2]
      exact ⟨_, rfl, by omega, by omega, e3, z0, fr0, st0⟩
    · rw [if_neg h2]
      have h1 : ql ≤ l ∧ qr ≥ r := by obtain ⟨_, h2, _, _⟩ := hfit; omega
      rw [if_pos h1]
      obtain ⟨zc, frc⟩ := coverState64_frame (preFlush64 s c l r) c l r x (by omega)
        (fun h => absurd h hlr)
      refine ⟨_, rfl, by rw [coverState64_tree_length]; omega,
        by rw [coverState64_lazy_length]; omega, e3, by rw [zc, z0], ?_,
        fun hst => coverState64_stored _ c l r x (by omega) (fun h => absurd h hlr) (st0 hst)⟩
      intro j hj
      rw [(frc j hj).1, (frc j hj).2]
      exact fr0 j hj
  | succ k ih =>
    intro f s c ql qr l r x len hf hT hL hfit
    have hc := hfit.index
    obtain ⟨g, rfl⟩ : ∃ g, f = g + 1 := ⟨f - 1, by omega⟩
    have hC : l < r → 2 * c + 2 < s.lazy.length := fun h => by
      have := hfit.children h; omega
    rw [recRangeAdd64_succ (g + 1) s c ql qr l r x (by omega) (by omega) hC]
    have e1 := preFlush64_tree_length s c l r
    have e2 := preFlush64_lazy_length s c l r
    have e3 := preFlush64_origLen s c l r
    obtain ⟨z0, fr0⟩ := preFlush64_frame s c l r (by omega) (by omega) hC
    have st0 := preFlush64_stored s c l r (by omega) (by omega) hC
    by_cases h2 : ql > r ∨ qr < l
    · rw [if_pos h2]
      exact ⟨_, rfl, by omega, by omega, e3, z0, fr0, st0⟩
    · rw [if_neg h2]
      by_cases h1 : ql ≤ l ∧ qr ≥ r
      · rw [if_pos h1]
        obtain ⟨zc, frc⟩ := coverState64_frame (preFlush64 s c l r) c l r x (by omega)
          (fun h => by have := hC h; omega)
        refine ⟨_, rfl, by rw [coverState64_tree_length]; omega,
          by rw [coverState64_lazy_length]; omega, e3, by rw [zc, z0], ?_,
          fun hst => coverState64_stored _ c l r x (by omega)
            (fun h => by have := hC h; omega) (st0 hst)⟩
        intro j hj
        rw [(frc j hj).1, (frc j hj).2]
        exact fr0 j hj
      · rw [if_neg h1]
        have hlr : l < r := by obtain ⟨_, h2, _, _⟩ := hfit; omega
        have hch := hfit.children hlr
        obtain ⟨s1, q1, a1, b1, c1, _, fr1, st1⟩ := ih g (preFlush64 s c l r) (2 * c + 1)
          ql qr l (midOf l r) x len (by omega) (by omega) (by omega) (hfit.left hlr)
        obtain ⟨s2, q2, a2, b2, c2, _, fr2, st2⟩ := ih g s1 (2 * c + 2) ql qr
          (midOf l r + 1) r x len (by omega) a1 b1 (hfit.right hlr)
        rw [q1, bind_ok, q2, bind_ok, pull_eq s2 c (by omega)]
        have nl : ¬ InSub (2 * c + 1) c := fun hh => by have := hh.le; omega
        have nr : ¬ InSub (2 * c + 2) c := fun hh => by have := hh.le; omega
        refine ⟨_, rfl, by rw [pullState_tree_length]; exact a2, b2, by
          show s2.origLen = s.origLen
          rw [c2, c1, e3], by rw [lv_pullState, (fr2 c nr).2, (fr1 c nl).2, z0], ?_,
          fun hst => pullState_stored s2 c (by omega) (st2 (st1 (st0 hst)))⟩
        intro j hj
        have j1 : ¬ InSub (2 * c + 1) j := fun hh => hj hh.of_left
        have j2 : ¬ InSub (2 * c + 2) j := fun hh => hj hh.of_right
        rw [lv_pullState, tv_pullState s2 c j (by omega), if_neg (not_inSub_ne hj).1,
          (fr2 j j2).1, (fr1 j j1).1, (fr2 j j2).2, (fr1 j j1).2]
        exact fr0 j hj

/-! ## Shape of the states reached in 64-bit arithmetic -/

theorem AllInt64.getD {a : List Int} (h : AllInt64 a) (i : Nat) : InInt64 (a.getD i 0) := by
  by_cases hi : i < a.length
  · rw [List.getD_eq_getElem?_getD, List.getElem?_eq_getElem hi]
    exact h _ (List.getElem_mem hi)
  · rw [List.getD_eq_getElem?_getD, List.getElem?_eq_none (Nat.le_of_not_lt hi)]
    decide

/-- `recBuild` on 64-bit input values stores 64-bit values only. -/
theorem recBuild_int64 (x : List Int) (len : Nat) (hx64 : AllInt64 x) :
    ∀ (f h : Nat) (s : SegmentTree) (c : Nat) (l r : Int) (s' : SegmentTree),
    s.tree.length = len → Fit len c l r h → r < x.length →
    (∀ j, InInt64 (tv s j)) →
    recBuild f s (c : Int) l r x = .ok s' →
    s'.tree.length = len ∧ ∀ j, InInt64 (tv s' j) := by
  intro f
  induction f with
  | zero => intro h s c l r s' _ _ _ _ hrun; simp [recBuild] at hrun
  | succ g ih =>
    intro h s c l r s' hT hfit hx hin hrun
    have hc := hfit.index
    rw [recBuild_succ] at hrun
    by_cases hlr : l ≥ r
    · have hl : l = r := by have := hfit.2.1; omega
      rw [if_pos hlr, readAt_int x l hfit.1 (by omega), bind_ok,
        writeAt_nat _ _ _ (by omega), bind_ok, pure_ok] at hrun
      have hs : s' = leafState s c (x.getD l.toNat 0) := by
        injection hrun with hs
        exact hs.symm
      subst hs
      refine ⟨by simp [leafState]; exact hT, fun j => ?_⟩
      rw [tv_leafState s c (x.getD l.toNat 0) j (by omega)]
      split_ifs
      · exact hx64.getD _
      · exact hin j
    · rw [if_neg hlr] at hrun
      have hlt : l < r := by omega
      obtain ⟨k, rfl⟩ := hfit.height hlt
      have hmid := midOf_eq l r hfit.1 hfit.2.1
      have hch := hfit.children hlt
      cases q1 : recBuild g s ((2 * c + 1 : Nat) : Int) l (midOf l r) x with
      | error e => rw [q1, bind_error] at hrun; cases hrun
      | ok s1 =>
        rw [q1, bind_ok] at hrun
        obtain ⟨t1, n1⟩ := ih k s (2 * c + 1) l (midOf l r) s1 hT (hfit.left hlt)
          (by omega) hin q1
        cases q2 : recBuild g s1 ((2 * c + 2 : Nat) : Int) (midOf l r + 1) r x with
        | error e => rw [q2, bind_error] at hrun; cases hrun
        | ok s2 =>
          obtain ⟨t2, n2⟩ := ih k s1 (2 * c + 2) (midOf l r + 1) r s2 t1
            (hfit.right hlt) hx n1 q2
          rw [q2, bind_ok, pull_eq s2 c (by omega)] at hrun
          injection hrun with hs
          subst hs
          refine ⟨by rw [pullState_tree_length]; exact t2, fun j => ?_⟩
          rw [tv_pullState s2 c j (by omega)]
          split_ifs
          · exact (n2 _).minOfPair (n2 _)
          · exact n2 j

/-- `New` on a non-empty input of 64-bit values stores 64-bit values only. -/
theorem New_stored (vals : List Int) (hne : vals.length ≠ 0) (h64 : AllInt64 vals)
    (s : SegmentTree) (q : New vals = .ok (some s, none)) : Stored64 s := by
  obtain ⟨s1, q1, _, hl⟩ := New_shape vals hne
  rw [q] at q1
  cases q1
  have hrun := New_nonempty_eq vals hne s q
  have hn : 1 ≤ vals.length := by omega
  obtain ⟨_, n1⟩ := recBuild_int64 vals (allocLen vals.length) h64 vals.length
    (ceilLog2 vals.length) _ 0 0 ((vals.length : Int) - 1) s (by simp)
    (rootFit vals.length hn) (by omega) (fun j => by
      simp only [tv, List.getD_eq_getElem?_getD, List.getElem?_replicate]
      split_ifs <;> decide) hrun
  intro j
  refine ⟨n1 j, ?_⟩
  simp only [lv, hl, List.getD_eq_getElem?_getD, List.getElem?_replicate]
  split_ifs <;> decide

theorem RangeMinQuery64_shape (n : Nat) (s : SegmentTree) (hs : Shape n s) (l r : Int)
    (h0 : 0 ≤ l) (hlr : l ≤ r) (hr : r ≤ (n : Int) - 1) :
    ∃ v s', RangeMinQuery64 s l r = .ok ((v, none), s') ∧ Shape n s' ∧ lv s' 0 = 0 ∧
      (Stored64 s → Stored64 s') ∧
      recRMQ64 n s 0 l r 0 ((n : Int) - 1) = .ok (v, s') := by
  obtain ⟨hn, ho, hT, hL⟩ := hs
  unfold RangeMinQuery64
  rw [if_neg (by omega), ho]
  simp only [Int.toNat_ofNat]
  obtain ⟨g, hg⟩ : ∃ g, n = g + 1 := ⟨n - 1, by omega⟩
  have hfuel : ceilLog2 n ≤ g := by
    have := ceilLog2_lt n hn
    omega
  obtain ⟨v, s', q, a, b, c, z, _, st⟩ := recRMQ64_safe (ceilLog2 n) g s 0 l r 0 ((n : Int) - 1)
    (allocLen n) hfuel hT hL (rootFit n hn)
  have q' : recRMQ64 n s 0 l r 0 ((n : Int) - 1) = .ok (v, s') := by
    rw [← q, hg]; rfl
  rw [q', bind_ok]
  exact ⟨v, s', rfl, ⟨hn, by rw [c, ho], a, b⟩, z, st, rfl⟩

theorem RangeAdd64_shape (n : Nat) (s : SegmentTree) (hs : Shape n s) (l r x : Int)
    (h0 : 0 ≤ l) (hlr : l ≤ r) (hr : r ≤ (n : Int) - 1) :
    ∃ s', RangeAdd64 s l r x = .ok (none, s') ∧ Shape n s' ∧ lv s' 0 = 0 ∧
      (Stored64 s → Stored64 s') ∧
      recRangeAdd64 n s 0 l r 0 ((n : Int) - 1) x = .ok s' := by
  obtain ⟨hn, ho, hT, hL⟩ := hs
  unfold RangeAdd64
  rw [if_neg (by omega), ho]
  simp only [Int.toNat_ofNat]
  obtain ⟨g, hg⟩ : ∃ g, n = g + 1 := ⟨n - 1, by omega⟩
  have hfuel : ceilLog2 n ≤ g := by
    have := ceilLog2_lt n hn
    omega
  obtain ⟨s', q, a, b, c, z, _, st⟩ := recRangeAdd64_safe (ceilLog2 n) g s 0 l r 0
    ((n : Int) - 1) x (allocLen n) hfuel hT hL (rootFit n hn)
  have q' : recRangeAdd64 n s 0 l r 0 ((n : Int) - 1) x = .ok s' := by
    rw [← q, hg]; rfl
  rw [q', bind_ok]
  exact ⟨s', rfl, ⟨hn, by rw [c, ho], a, b⟩, z, st, rfl⟩

/-- A state reached by accepted calls in 64-bit arithmetic has the sizes that
`New` gave it, its root has nothing pending, and on an input of 64-bit values
it holds 64-bit values only. -/
theorem Reachable64.shapeRoot {vals : List Int} {s : SegmentTree} (h : Reachable64 vals s) :
    Shape vals.length s ∧ lv s 0 = 0 ∧ (AllInt64 vals → Stored64 s) := by
  induction h with
  | new s hnew =>
    by_cases hx : vals.length = 0
    · rw [New_empty vals hx] at hnew
      cases hnew
    · obtain ⟨s1, q, hs, hl⟩ := New_shape vals hx
      have hnew' := hnew
      rw [q] at hnew
      cases hnew
      refine ⟨hs, ?_, fun h64 => New_stored vals hx h64 _ hnew'⟩
      simp only [lv, hl, List.getD_eq_getElem?_getD, List.getElem?_replicate]
      split_ifs <;> rfl
  | add s l r x s' _ h0 hlr hr hq ih =>
    rw [ih.1.2.1] at hr
    obtain ⟨s1, q, hs, z, st, _⟩ := RangeAdd64_shape vals.length s ih.1 l r x h0 hlr hr
    rw [q] at hq
    cases hq
    exact ⟨hs, z, fun h64 => st (ih.2.2 h64)⟩
  | query s l r v s' _ h0 hlr hr hq ih =>
    rw [ih.1.2.1] at hr
    obtain ⟨v1, s1, q, hs, z, st, _⟩ := RangeMinQuery64_shape vals.length s ih.1 l r h0 hlr hr
    rw [q] at hq
    cases hq
    exact ⟨hs, z, fun h64 => st (ih.2.2 h64)⟩

/-! ## The 64-bit program follows the program without overflow -/

theorem wrap64_zero : wrap64 0 = 0 := by decide

/-- The conditional flush keeps the correspondence of the 64-bit structure
with the structure of the arithmetic without overflow. -/
theorem preFlush_sim (s64 s : SegmentTree) (c : Nat) (l r : Int)
    (hT : c < s.tree.length) (hL : c < s.lazy.length)
    (hC : l < r → 2 * c + 2 < s.lazy.length) (h : Sim s64 s) :
    Sim (preFlush64 s64 c l r) (preFlush s c l r) := by
  obtain ⟨e1, e2, e3, he⟩ := h
  refine ⟨by rw [preFlush64_tree_length, preFlush_tree_length]; exact e1,
    by rw [preFlush64_lazy_length, preFlush_lazy_length]; exact e2,
    by rw [preFlush64_origLen, preFlush_origLen]; exact e3, ?_⟩
  intro j
  rw [tv_preFlush s c l r j hT, lv_preFlush s c l r j hL hC]
  have hc := he c
  have hj := he j
  unfold preFlush64
  by_cases hz : lv s64 c ≠ 0
  · rw [if_pos hz, tv_flushState64 s64 c l r j (by omega),
      lv_flushState64 s64 c l r j (by omega) (fun hh => by have := hC hh; omega)]
    rw [hc.1, hc.2, hj.1, hj.2]
    refine ⟨?_, ?_⟩
    · split_ifs
      · exact wrap64_add _ _
      · rfl
    · split_ifs
      · exact wrap64_zero.symm
      · exact wrap64_add _ _
      · rfl
  · rw [if_neg hz]
    have hz' : wrap64 (lv s c) = 0 := by
      rw [← hc.2]; simpa using hz
    refine ⟨?_, ?_⟩
    · split_ifs with h1
      · subst h1
        rw [hc.1]
        exact wrap64_zero_right _ _ hz'
      · exact hj.1
    · split_ifs with h1 h2
      · subst h1
        rw [hc.2, hz', wrap64_zero]
      · rw [hj.2]
        exact wrap64_zero_right _ _ hz'
      · exact hj.2

/-- The fully covered branch of an update keeps the correspondence. -/
theorem coverState_sim (s64 s : SegmentTree) (c : Nat) (l r x : Int)
    (hT : c < s.tree.length) (hC : l < r → 2 * c + 2 < s.lazy.length) (h : Sim s64 s) :
    Sim (coverState64 s64 c l r x) (coverState s c l r x) := by
  obtain ⟨e1, e2, e3, he⟩ := h
  refine ⟨by rw [coverState64_tree_length, coverState_tree_length]; exact e1,
    by rw [coverState64_lazy_length, coverState_lazy_length]; exact e2, e3, ?_⟩
  intro j
  rw [tv_coverState s c l r x j hT, lv_coverState s c l r x j hC,
    tv_coverState64 s64 c l r x j (by omega),
    lv_coverState64 s64 c l r x j (fun hh => by have := hC hh; omega)]
  have hc := he c
  have hj := he j
  rw [hc.1, hj.1, hj.2]
  refine ⟨?_, ?_⟩
  · split_ifs
    · exact wrap64_add_left _ _
    · rfl
  · split_ifs
    · exact wrap64_add_left _ _
    · rfl

/-- Recomputing a split node keeps the correspondence when the values of its
two children are 64-bit values at most the sentinel. -/
theorem pullState_sim (s64 s : SegmentTree) (c : Nat) (hT : c < s.tree.length)
    (h1 : InInt64 (tv s (2 * c + 1))) (h2 : InInt64 (tv s (2 * c + 2)))
    (h : Sim s64 s) : Sim (pullState s64 c) (pullState s c) := by
  obtain ⟨e1, e2, e3, he⟩ := h
  refine ⟨by rw [pullState_tree_length, pullState_tree_length]; exact e1, e2, e3, ?_⟩
  intro j
  rw [tv_pullState s c j hT, tv_pullState s64 c j (by omega), lv_pullState, lv_pullState]
  refine ⟨?_, (he j).2⟩
  rw [(he (2 * c + 1)).1, (he (2 * c + 2)).1, wrap64_eq _ h1, wrap64_eq _ h2]
  split_ifs
  · symm
    apply wrap64_eq
    unfold InInt64 MinInt64 MaxInt64 at *
    simp only [min, List.foldl]
    unfold MaxPossibleNumber
    split_ifs <;> omega
  · exact (he j).1

theorem IsMin.inInt64 {a : Int → Int} {l r m : Int} (h : IsMin a l r m)
    (hb : ∀ i, l ≤ i → i ≤ r → a i ≤ MaxPossibleNumber)
    (hlo : ∀ i, l ≤ i → i ≤ r → MinInt64 ≤ a i) : InInt64 m := by
  obtain ⟨_, i, i1, i2, i3⟩ := h
  have h1 := hb i i1 i2
  have h2 := hlo i i1 i2
  unfold InInt64 MaxInt64
  unfold MaxPossibleNumber at h1
  omega

/-- `recRMQ64` follows `recRMQ` at a node that satisfies the invariant, on
64-bit values within the limit: it returns the same value, and the structure it
leaves behind corresponds to the one `recRMQ` leaves. -/
theorem recRMQ64_sim (a : Int → Int) (ql qr : Int) (hq : ql ≤ qr) (len : Nat) :
    ∀ (f h : Nat) (s64 s : SegmentTree) (c : Nat) (l r : Int) (v : Int) (s' : SegmentTree),
    s.tree.length = len → s.lazy.length = len → Fit len c l r h →
    (∀ i, l ≤ i → i ≤ r → a i ≤ MaxPossibleNumber) →
    (∀ i, l ≤ i → i ≤ r → MinInt64 ≤ a i) →
    NodeOk (tv s) (lv s) a c l r 0 → Sim s64 s →
    recRMQ f s (c : Int) ql qr l r = .ok (v, s') →
    ∃ s64', recRMQ64 f s64 (c : Int) ql qr l r = .ok (v, s64') ∧ Sim s64' s' := by
  intro f
  induction f with
  | zero => intro h s64 s c l r v s' _ _ _ _ _ _ _ hrun; simp [recRMQ] at hrun
  | succ g ih =>
    intro h s64 s c l r v s' hT hL hfit hb hlo hn hsim hrun
    have hc := hfit.index
    have hC : l < r → 2 * c + 2 < s.lazy.length := fun hh => by
      have := hfit.children hh; omega
    have hsim0 := preFlush_sim s64 s c l r (by omega) (by omega) hC hsim
    obtain ⟨d1, d2, d3, _⟩ := hsim
    rw [recRMQ_succ g s c ql qr l r (by omega) (by omega) hC] at hrun
    rw [recRMQ64_succ g s64 c ql qr l r (by omega) (by omega)
      (fun hh => by have := hC hh; omega)]
    obtain ⟨n0, z0, fr0⟩ := preFlush_nodeOk s c l r a (by omega) (by omega) hC hn
    have e1 := preFlush_tree_length s c l r
    have e2 := preFlush_lazy_length s c l r
    by_cases h1 : ql ≤ l ∧ qr ≥ r
    · rw [if_pos h1] at hrun
      rw [if_pos h1]
      injection hrun with hrun
      injection hrun with hv hs
      subst hv hs
      refine ⟨_, ?_, hsim0⟩
      have hm := n0.isMin
      rw [z0] at hm
      have hin := hm.inInt64 hb hlo
      have e : tv (preFlush s c l r) c + 0 + 0 = tv (preFlush s c l r) c := by omega
      rw [e] at hin
      rw [(hsim0.2.2.2 c).1, wrap64_eq _ hin]
    · rw [if_neg h1] at hrun
      rw [if_neg h1]
      by_cases h2 : ql > r ∨ qr < l
      · rw [if_pos h2] at hrun
        rw [if_pos h2]
        injection hrun with hrun
        injection hrun with hv hs
        subst hv hs
        exact ⟨_, rfl, hsim0⟩
      · rw [if_neg h2] at hrun
        rw [if_neg h2]
        have hlr : l < r := by obtain ⟨_, hh, _, _⟩ := hfit; omega
        obtain ⟨k, rfl⟩ := hfit.height hlr
        have hmid := midOf_eq l r hfit.1 hfit.2.1
        cases n0 with
        | leaf _ _ _ _ hlr' _ => omega
        | node _ _ _ _ _ hm c1 c2 =>
          rw [z0] at c1 c2
          cases q1 : recRMQ g (preFlush s c l r) ((2 * c + 1 : Nat) : Int) ql qr l (midOf l r) with
          | error e => rw [q1, bind_error] at hrun; cases hrun
          | ok p1 =>
            obtain ⟨v1, s1⟩ := p1
            rw [q1, bind_ok] at hrun
            dsimp only at hrun
            obtain ⟨t1, l1, n1, z1, fr1, r1⟩ := recRMQ_correct a ql qr hq len g k
              (preFlush s c l r) (2 * c + 1) l
              (midOf l r) v1 s1 (by omega) (by omega) (hfit.left hlr)
              (fun i i1 i2 => hb i i1 (by omega)) (c1.cast (by omega)) q1
            obtain ⟨u1, w1, hsim1⟩ := ih k (preFlush64 s64 c l r) (preFlush s c l r) (2 * c + 1) l
              (midOf l r) v1 s1 (by omega) (by omega) (hfit.left hlr)
              (fun i i1 i2 => hb i i1 (by omega)) (fun i i1 i2 => hlo i i1 (by omega))
              (c1.cast (by omega)) hsim0 q1
            have c2' : NodeOk (tv s1) (lv s1) a (2 * c + 2) (midOf l r + 1) r 0 :=
              (c2.frame (fun j hj => fr1 j (fun hj' => InSub.disjoint hj' hj))).cast (by omega)
            cases q2 : recRMQ g s1 ((2 * c + 2 : Nat) : Int) ql qr (midOf l r + 1) r with
            | error e => rw [q2, bind_error] at hrun; cases hrun
            | ok p2 =>
              obtain ⟨v2, s2⟩ := p2
              rw [q2, bind_ok, pure_ok] at hrun
              dsimp only at hrun
              obtain ⟨u2, w2, hsim2⟩ := ih k u1 s1 (2 * c + 2) (midOf l r + 1) r v2 s2
                t1 l1 (hfit.right hlr) (fun i i1 i2 => hb i (by omega) i2)
                (fun i i1 i2 => hlo i (by omega) i2) c2' hsim1 q2
              injection hrun with hrun
              injection hrun with hv hs
              subst hv hs
              rw [w1, bind_ok]
              dsimp only
              rw [w2, bind_ok, pure_ok]
              exact ⟨u2, rfl, hsim2⟩

/-- `recRangeAdd64` follows `recRangeAdd` at a node that satisfies the
invariant for `a`, when the array `a'` after the addition holds 64-bit values
within the limit: the structure it leaves behind corresponds to the one
`recRangeAdd` leaves. -/
theorem recRangeAdd64_sim (a a' : Int → Int) (ql qr x : Int) (len : Nat) :
    ∀ (f h : Nat) (s64 s : SegmentTree) (c : Nat) (l r : Int) (s' : SegmentTree),
    s.tree.length = len → s.lazy.length = len → Fit len c l r h →
    (∀ i, l ≤ i → i ≤ r → a' i = if ql ≤ i ∧ i ≤ qr then a i + x else a i) →
    (∀ i, l ≤ i → i ≤ r → a' i ≤ MaxPossibleNumber) →
    (∀ i, l ≤ i → i ≤ r → MinInt64 ≤ a' i) →
    NodeOk (tv s) (lv s) a c l r 0 → Sim s64 s →
    recRangeAdd f s (c : Int) ql qr l r x = .ok s' →
    ∃ s64', recRangeAdd64 f s64 (c : Int) ql qr l r x = .ok s64' ∧ Sim s64' s' := by
  intro f
  induction f with
  | zero => intro h s64 s c l r s' _ _ _ _ _ _ _ _ hrun; simp [recRangeAdd] at hrun
  | succ g ih =>
    intro h s64 s c l r s' hT hL hfit ha hb hlo hn hsim hrun
    have hc := hfit.index
    have hC : l < r → 2 * c + 2 < s.lazy.length := fun hh => by
      have := hfit.children hh; omega
    have hsim0 := preFlush_sim s64 s c l r (by omega) (by omega) hC hsim
    obtain ⟨d1, d2, d3, _⟩ := hsim
    rw [recRangeAdd_succ g s c ql qr l r x (by omega) (by omega) hC] at hrun
    rw [recRangeAdd64_succ g s64 c ql qr l r x (by omega) (by omega)
      (fun hh => by have := hC hh; omega)]
    obtain ⟨n0, z0, fr0⟩ := preFlush_nodeOk s c l r a (by omega) (by omega) hC hn
    have e1 := preFlush_tree_length s c l r
    have e2 := preFlush_lazy_length s c l r
    by_cases h2 : ql > r ∨ qr < l
    · rw [if_pos h2] at hrun
      rw [if_pos h2]
      injection hrun with hs
      subst hs
      exact ⟨_, rfl, hsim0⟩
    · rw [if_neg h2] at hrun
      rw [if_neg h2]
      by_cases h1 : ql ≤ l ∧ qr ≥ r
      · rw [if_pos h1] at hrun
        rw [if_pos h1]
        injection hrun with hs
        subst hs
        exact ⟨_, rfl, coverState_sim _ _ c l r x (by omega)
          (fun hh => by have := hC hh; omega) hsim0⟩
      · rw [if_neg h1] at hrun
        rw [if_neg h1]
        have hlr : l < r := by obtain ⟨_, hh, _, _⟩ := hfit; omega
        obtain ⟨k, rfl⟩ := hfit.height hlr
        have hmid := midOf_eq l r hfit.1 hfit.2.1
        cases n0 with
        | leaf _ _ _ _ hlr' _ => omega
        | node _ _ _ _ _ hm c1 c2 =>
          rw [z0] at c1 c2
          cases q1 : recRangeAdd g (preFlush s c l r) ((2 * c + 1 : Nat) : Int) ql qr l
              (midOf l r) x with
          | error e => rw [q1, bind_error] at hrun; cases hrun
          | ok s1 =>
            rw [q1, bind_ok] at hrun
            obtain ⟨t1, l1, n1, z1, fr1⟩ := recRangeAdd_correct a a' ql qr x len g k
              (preFlush s c l r) (2 * c + 1) l
              (midOf l r) s1 (by omega) (by omega) (hfit.left hlr)
              (fun i i1 i2 => ha i i1 (by omega)) (fun i i1 i2 => hb i i1 (by omega))
              (c1.cast (by omega)) q1
            obtain ⟨u1, w1, hsim1⟩ := ih k (preFlush64 s64 c l r) (preFlush s c l r) (2 * c + 1) l
              (midOf l r) s1 (by omega) (by omega) (hfit.left hlr)
              (fun i i1 i2 => ha i i1 (by omega)) (fun i i1 i2 => hb i i1 (by omega))
              (fun i i1 i2 => hlo i i1 (by omega)) (c1.cast (by omega)) hsim0 q1
            have c2' : NodeOk (tv s1) (lv s1) a (2 * c + 2) (midOf l r + 1) r 0 :=
              (c2.frame (fun j hj => fr1 j (fun hj' => InSub.disjoint hj' hj))).cast (by omega)
            cases q2 : recRangeAdd g s1 ((2 * c + 2 : Nat) : Int) ql qr (midOf l r + 1) r x with
            | error e => rw [q2, bind_error] at hrun; cases hrun
            | ok s2 =>
              rw [q2, bind_ok] at hrun
              obtain ⟨t2, l2, n2, z2, fr2⟩ := recRangeAdd_correct a a' ql qr x len g k
                s1 (2 * c + 2) (midOf l r + 1) r s2
                t1 l1 (hfit.right hlr) (fun i i1 i2 => ha i (by omega) i2)
                (fun i i1 i2 => hb i (by omega) i2) c2' q2
              obtain ⟨u2, w2, hsim2⟩ := ih k u1 s1 (2 * c + 2) (midOf l r + 1) r s2
                t1 l1 (hfit.right hlr) (fun i i1 i2 => ha i (by omega) i2)
                (fun i i1 i2 => hb i (by omega) i2) (fun i i1 i2 => hlo i (by omega) i2)
                c2' hsim1 q2
              have hch := hfit.children hlr
              rw [pull_eq s2 c (by omega)] at hrun
              injection hrun with hs
              subst hs
              rw [w1, bind_ok, w2, bind_ok, pull_eq u2 c (by have := hsim2.1; omega)]
              have n1' : NodeOk (tv s2) (lv s2) a' (2 * c + 1) l (midOf l r) 0 :=
                n1.frame (fun j hj => fr2 j (fun hj' => InSub.disjoint hj hj'))
              have z1' : lv s2 (2 * c + 1) = 0 := by
                rw [(fr2 (2 * c + 1) (fun hh => InSub.disjoint (InSub.refl _) hh)).2, z1]
              have m1 := n1'.isMin
              have m2 := n2.isMin
              rw [z1'] at m1
              rw [z2] at m2
              have i1 := m1.inInt64 (fun i i1 i2 => hb i i1 (by omega))
                (fun i i1 i2 => hlo i i1 (by omega))
              have i2 := m2.inInt64 (fun i i1 i2 => hb i (by omega) i2)
                (fun i i1 i2 => hlo i (by omega) i2)
              have x1 : tv s2 (2 * c + 1) + 0 + 0 = tv s2 (2 * c + 1) := by omega
              have x2 : tv s2 (2 * c + 2) + 0 + 0 = tv s2 (2 * c + 2) := by omega
              rw [x1] at i1
              rw [x2] at i2
              exact ⟨_, rfl, pullState_sim u2 s2 c (by omega) i1 i2 hsim2⟩

theorem refFun_ge (a : List Int) (h : AllInt64 a) (i : Int) : MinInt64 ≤ refFun a i :=
  (h.getD i.toNat).1

/-- `New` on a non-empty input of 64-bit values within the limit returns a
structure that represents the input and holds 64-bit values only. -/
theorem New_sim (vals : List Int) (hne : vals.length ≠ 0) (hb : WithinLimit vals)
    (h64 : AllInt64 vals) :
    ∃ s, New vals = .ok (some s, none) ∧ Sim s s ∧ Rep s vals := by
  obtain ⟨s, q, hs⟩ := New_rep vals hne hb
  have hst := New_stored vals hne h64 s q
  exact ⟨s, q, ⟨rfl, rfl, rfl, fun j =>
    ⟨(wrap64_eq _ (hst j).1).symm, (wrap64_eq _ (hst j).2).symm⟩⟩, hs⟩

/-- On a 64-bit structure that corresponds to one representing the 64-bit
array `a`, a valid `RangeMinQuery64` returns the brute-force minimum of `a`
over the range with a nil error, and the correspondence is kept. -/
theorem RangeMinQuery64_sim (s64 s : SegmentTree) (a : List Int) (hsim : Sim s64 s)
    (h : Rep s a) (h64 : AllInt64 a) (l r : Int)
    (h0 : 0 ≤ l) (hlr : l ≤ r) (hr : r ≤ (a.length : Int) - 1) :
    ∃ s64' s', RangeMinQuery64 s64 l r = .ok ((bruteMin a l r, none), s64') ∧
      Sim s64' s' ∧ Rep s' a := by
  obtain ⟨s', q, hrep'⟩ := RangeMinQuery_rep s a h l r h0 hlr hr
  obtain ⟨hs, hb, hn⟩ := h
  obtain ⟨v, s1, q1, _, hrun⟩ := RangeMinQuery_shape a.length s hs l r h0 hlr hr
  rw [q] at q1
  cases q1
  have hrun' : recRMQ a.length s ((0 : Nat) : Int) l r 0 ((a.length : Int) - 1) =
      .ok (bruteMin a l r, s') := hrun
  obtain ⟨s64', w, hsim'⟩ := recRMQ64_sim (refFun a) l r hlr (allocLen a.length)
    a.length (ceilLog2 a.length) s64 s 0 0 ((a.length : Int) - 1) _ s' hs.2.2.1 hs.2.2.2
    (rootFit a.length hs.1) (fun i i1 i2 => refFun_le a hb i (by omega) (by omega))
    (fun i _ _ => refFun_ge a h64 i) hn hsim hrun'
  refine ⟨s64', s', ?_, hsim', hrep'⟩
  unfold RangeMinQuery64
  rw [hsim.2.2.1, hs.2.1, if_neg (by omega)]
  simp only [Int.toNat_ofNat]
  have w' : recRMQ64 a.length s64 0 l r 0 ((a.length : Int) - 1) =
      .ok (bruteMin a l r, s64') := w
  rw [w', bind_ok]
  rfl

/-- On a 64-bit structure that corresponds to one representing `a`, a valid
`RangeAdd64` whose result holds 64-bit values within the limit returns a nil
error, and the correspondence is kept for the array with `x` added on the range. -/
theorem RangeAdd64_sim (s64 s : SegmentTree) (a : List Int) (hsim : Sim s64 s)
    (h : Rep s a) (l r x : Int)
    (h0 : 0 ≤ l) (hlr : l ≤ r) (hr : r ≤ (a.length : Int) - 1)
    (hb' : WithinLimit (refAdd a l r x)) (h64' : AllInt64 (refAdd a l r x)) :
    ∃ s64' s', RangeAdd64 s64 l r x = .ok (none, s64') ∧
      Sim s64' s' ∧ Rep s' (refAdd a l r x) := by
  obtain ⟨s', q, hrep'⟩ := RangeAdd_rep s a h l r x h0 hlr hr hb'
  obtain ⟨hs, hb, hn⟩ := h
  obtain ⟨s1, q1, _, hrun⟩ := RangeAdd_shape a.length s hs l r x h0 hlr hr
  rw [q] at q1
  cases q1
  have hrun' : recRangeAdd a.length s ((0 : Nat) : Int) l r 0 ((a.length : Int) - 1) x =
      .ok s' := hrun
  have hlen := refAdd_length a l r x
  obtain ⟨s64', w, hsim'⟩ := recRangeAdd64_sim (refFun a) (refFun (refAdd a l r x)) l r x
    (allocLen a.length) a.length (ceilLog2 a.length) s64 s 0 0 ((a.length : Int) - 1) s'
    hs.2.2.1 hs.2.2.2 (rootFit a.length hs.1)
    (fun i i1 i2 => refFun_refAdd a l r x i i1 (by omega))
    (fun i i1 i2 => refFun_le _ hb' i (by omega) (by omega))
    (fun i _ _ => refFun_ge _ h64' i) hn hsim hrun'
  refine ⟨s64', s', ?_, hsim', hrep'⟩
  unfold RangeAdd64
  rw [hsim.2.2.1, hs.2.1, if_neg (by omega)]
  simp only [Int.toNat_ofNat]
  have w' : recRangeAdd64 a.length s64 0 l r 0 ((a.length : Int) - 1) x = .ok s64' := w
  rw [w', bind_ok]
  rfl

theorem StaysInt64.start {a : List Int} {ops : List Op} (h : StaysInt64 a ops) :
    AllInt64 a := by
  cases ops with
  | nil => exact h
  | cons op ops => exact h.1

theorem StaysInt64.ofAppend : ∀ (pre post : List Op) (a : List Int),
    StaysInt64 a (pre ++ post) → StaysInt64 a pre ∧ StaysInt64 (refRun a pre).2 post := by
  intro pre
  induction pre with
  | nil => intro post a h; exact ⟨h.start, h⟩
  | cons op ops ih =>
    intro post a h
    obtain ⟨h1, h3⟩ := h
    obtain ⟨h4, h5⟩ := ih post _ h3
    exact ⟨⟨h1, h4⟩, h5⟩

/-- One admissible call in 64-bit arithmetic, on a structure that corresponds
to one representing the 64-bit array `a`, returns what the reference array
returns; the correspondence is kept for the new array. -/
theorem step64_sim (s64 s : SegmentTree) (a : List Int) (op : Op) (hsim : Sim s64 s)
    (h : Rep s a) (h64 : AllInt64 a)
    (hv : op.valid a.length) (hb : WithinLimit (refStep a op).2)
    (h64' : AllInt64 (refStep a op).2) :
    ∃ s64' s', step64 s64 op = .ok ((refStep a op).1, s64') ∧ Sim s64' s' ∧
      Rep s' (refStep a op).2 := by
  cases op with
  | add l r x =>
    obtain ⟨h0, hlr, hr⟩ := hv
    obtain ⟨s64', s', q, hs', hr'⟩ := RangeAdd64_sim s64 s a hsim h l r x h0 hlr hr hb h64'
    refine ⟨s64', s', ?_, hs', hr'⟩
    simp only [step64, q, bind_ok]
    rfl
  | query l r =>
    obtain ⟨h0, hlr, hr⟩ := hv
    obtain ⟨s64', s', q, hs', hr'⟩ := RangeMinQuery64_sim s64 s a hsim h h64 l r h0 hlr hr
    refine ⟨s64', s', ?_, hs', hr'⟩
    simp only [step64, q, bind_ok]
    rfl

/-- An admissible sequence of calls in 64-bit arithmetic, during which the
reference array holds 64-bit values, returns what the reference array returns,
call by call. -/
theorem run64_sim : ∀ (ops : List Op) (s64 s : SegmentTree) (a : List Int), Sim s64 s →
    Rep s a → Admissible a ops → StaysInt64 a ops →
    ∃ s64' s', run64 s64 ops = .ok ((refRun a ops).1, s64') ∧ Sim s64' s' ∧
      Rep s' (refRun a ops).2 := by
  intro ops
  induction ops with
  | nil => intro s64 s a hsim h _ _; exact ⟨s64, s, rfl, hsim, h⟩
  | cons op ops ih =>
    intro s64 s a hsim h hadm h64
    obtain ⟨_, hv, hrest⟩ := hadm
    obtain ⟨ha64, hrest64⟩ := h64
    obtain ⟨u1, s1, q1, hsim1, h1⟩ := step64_sim s64 s a op hsim h ha64 hv hrest.limit
      hrest64.start
    obtain ⟨u2, s2, q2, hsim2, h2⟩ := ih u1 s1 _ hsim1 h1 hrest hrest64
    refine ⟨u2, s2, ?_, hsim2, h2⟩
    rw [run64, q1, bind_ok]
    dsimp only
    rw [q2, bind_ok]
    rfl

/-! ## Single-element trees and the nodes of the recursion tree in 64-bit arithmetic -/

theorem run64_single_adds : ∀ (xs : List Int) (v : Int), InInt64 v →
    run64 ⟨[v], [0], 1⟩ (xs.map (fun x => Op.add 0 0 x)) =
      .ok (xs.map (fun _ => Outcome.added none), ⟨[wrap64 (v + xs.sum)], [0], 1⟩) := by
  intro xs
  induction xs with
  | nil =>
    intro v hv
    simp only [List.map_nil, List.sum_nil, Int.add_zero, wrap64_eq v hv]
    rfl
  | cons x rest ih =>
    intro v hv
    have hstep : step64 ⟨[v], [0], 1⟩ (Op.add 0 0 x) =
        .ok (Outcome.added none, ⟨[wrap64 (v + x)], [0], 1⟩) := rfl
    rw [List.map_cons, run64, hstep, bind_ok]
    dsimp only
    rw [ih (wrap64 (v + x)) (wrap64_inInt64 _), bind_ok, pure_ok, List.sum_cons,
      wrap64_add_left, Int.add_assoc]
    rfl

/-- A node of the recursion tree with the lazy values of the 64-bit structure
is a node of the recursion tree with the lazy values of the corresponding
structure; the two sums of lazy values above it agree after reduction to 64
bits. -/
theorem TreeNode.sim {L64 L : Nat → Int} (hL : ∀ j, L64 j = wrap64 (L j)) {n : Int} {c : Nat}
    {l r p : Int} (h : TreeNode L64 n c l r p) :
    ∃ p', TreeNode L n c l r p' ∧ wrap64 p = wrap64 p' := by
  induction h with
  | root => exact ⟨0, .root, rfl⟩
  | left c l r p _ hlr ih =>
    obtain ⟨p', h', e⟩ := ih
    refine ⟨p' + L c, .left c l r p' h' hlr, ?_⟩
    rw [hL c]
    unfold wrap64 at *
    omega
  | right c l r p _ hlr ih =>
    obtain ⟨p', h', e⟩ := ih
    refine ⟨p' + L c, .right c l r p' h' hlr, ?_⟩
    rw [hL c]
    unfold wrap64 at *
    omega

/-! ## The properties of the specification -/

/-- C1 (as amended): for a non-empty `vals` and valid calls
`RangeAdd(l_i, r_i, x_i)` such that the reference array is within
`MaxPossibleNumber` at the start and after every addition, `New` succeeds, every
addition returns a nil error, and for every valid range `RangeMinQuery(l, r)`
then returns, with a nil error, the brute-force minimum over `l .. r` of the
reference array that starts as `vals` and has each `x_i` added to
`l_i .. r_i` in order. -/
theorem C1_adds_then_query_within_limit (vals : List Int) (adds : List (Int × Int × Int))
    (l r : Int) (hne : vals ≠ []) (hadm : Admissible vals (addOps adds))
    (h0 : 0 ≤ l) (hlr : l ≤ r) (hr : r ≤ (vals.length : Int) - 1) :
    ∃ s outs s1 s2, New vals = .ok (some s, none) ∧
      run s (addOps adds) = .ok (outs, s1) ∧ (∀ o ∈ outs, o = Outcome.added none) ∧
      RangeMinQuery s1 l r = .ok ((bruteMin (refAdds vals adds) l r, none), s2) := by
  have hx : vals.length ≠ 0 := fun h => hne (List.length_eq_zero.mp h)
  obtain ⟨s, q, hs⟩ := New_rep vals hx hadm.limit
  obtain ⟨s1, q1, hs1⟩ := run_rep (addOps adds) s vals hs hadm
  rw [refRun_addOps] at hs1
  have hlen : (refAdds vals adds).length = vals.length := by
    rw [← refRun_addOps]; exact refRun_length _ _
  obtain ⟨s2, q2, _⟩ := RangeMinQuery_rep s1 (refAdds vals adds) hs1 l r h0 hlr
    (by rw [hlen]; exact hr)
  exact ⟨s, _, s1, s2, q, q1, refRun_addOps_outcomes adds vals, q2⟩

theorem C1_adds_then_query_within_limit_witness :
    ([1, 2, 3, 4, 5, 6, 7, 8] : List Int) ≠ [] ∧
    Admissible [1, 2, 3, 4, 5, 6, 7, 8] (addOps [(0, 0, 1), (0, 3, 1)]) ∧
    bruteMin (refAdds [1, 2, 3, 4, 5, 6, 7, 8] [(0, 0, 1), (0, 3, 1)]) 0 4 = 3 ∧
    ∃ s outs s1 s2, New [1, 2, 3, 4, 5, 6, 7, 8] = .ok (some s, none) ∧
      run s (addOps [(0, 0, 1), (0, 3, 1)]) = .ok (outs, s1) ∧
      (∀ o ∈ outs, o = Outcome.added none) ∧
      RangeMinQuery s1 0 4 =
        .ok ((bruteMin (refAdds [1, 2, 3, 4, 5, 6, 7, 8] [(0, 0, 1), (0, 3, 1)]) 0 4, none), s2) :=
  ⟨by decide, by decide, by decide,
    C1_adds_then_query_within_limit [1, 2, 3, 4, 5, 6, 7, 8] [(0, 0, 1), (0, 3, 1)] 0 4
      (by decide) (by decide) (by decide) (by decide) (by decide)⟩

/-- C1 fails as stated: on `[0, 0]`, after the valid `RangeAdd(0, 1, 2000000000)`
the reference array is `[2000000000, 2000000000]`, whose minimum over `0 .. 0`
is `2000000000`, and `RangeMinQuery(0, 0)` returns `1000000010`. -/
theorem C1_counterexample :
    New [0, 0] = .ok (some ⟨[0, 0, 0], [0, 0, 0], 2⟩, none) ∧
    RangeAdd ⟨[0, 0, 0], [0, 0, 0], 2⟩ 0 1 2000000000 =
      .ok (none, ⟨[2000000000, 0, 0], [0, 2000000000, 2000000000], 2⟩) ∧
    RangeMinQuery ⟨[2000000000, 0, 0], [0, 2000000000, 2000000000], 2⟩ 0 0 =
      .ok ((1000000010, none), ⟨[2000000000, 2000000000, 2000000000], [0, 0, 0], 2⟩) ∧
    refAdd [0, 0] 0 1 2000000000 = [2000000000, 2000000000] ∧
    bruteMin (refAdd [0, 0] 0 1 2000000000) 0 0 = 2000000000 := by
  decide

/-- C2: for a non-empty `vals` and any interleaving of valid `RangeAdd` and
`RangeMinQuery` calls on `New(vals)` such that the reference array is within
`MaxPossibleNumber` at the start and after every `RangeAdd`, every call returns
what the reference array returns: a nil error, and for a query the minimum of
the reference array over the range at that moment.  The limit is needed on the
intermediate arrays: on `[0, 0]` the three additions below end at `[0, 0]`
again, pass `[2000000000, 2000000000]` on the way, and the final query of
`0 .. 1` returns `-999999990` where the reference array has `0`. -/
theorem C2_refines_reference_array (vals : List Int) (ops : List Op) (hne : vals ≠ [])
    (hadm : Admissible vals ops) :
    (∃ s s', New vals = .ok (some s, none) ∧ run s ops = .ok ((refRun vals ops).1, s')) ∧
    (New [0, 0] = .ok (some ⟨[0, 0, 0], [0, 0, 0], 2⟩, none) ∧
      (refRun [0, 0] [.add 0 0 2000000000, .add 1 1 2000000000, .add 0 1 (-2000000000),
        .query 0 1]) =
        ([.added none, .added none, .added none, .queried 0 none], [0, 0]) ∧
      run ⟨[0, 0, 0], [0, 0, 0], 2⟩ [.add 0 0 2000000000, .add 1 1 2000000000,
        .add 0 1 (-2000000000), .query 0 1] =
        .ok ([.added none, .added none, .added none, .queried (-999999990) none],
          ⟨[-999999990, 2000000000, 2000000000], [0, -2000000000, -2000000000], 2⟩)) := by
  have hx : vals.length ≠ 0 := fun h => hne (List.length_eq_zero.mp h)
  refine ⟨?_, by decide⟩
  obtain ⟨s, q, hs⟩ := New_rep vals hx hadm.limit
  obtain ⟨s', q', _⟩ := run_rep ops s vals hs hadm
  exact ⟨s, s', q, q'⟩

theorem C2_refines_reference_array_witness :
    ([1, 2, 3, 4, 5, 6, 7, 8] : List Int) ≠ [] ∧
    Admissible [1, 2, 3, 4, 5, 6, 7, 8]
      [.add 0 0 1, .query 0 1, .add 0 3 1, .query 0 4, .query 3 5] ∧
    (refRun [1, 2, 3, 4, 5, 6, 7, 8]
      [.add 0 0 1, .query 0 1, .add 0 3 1, .query 0 4, .query 3 5]).1 =
      [.added none, .queried 2 none, .added none, .queried 3 none, .queried 5 none] ∧
    ∃ s s', New [1, 2, 3, 4, 5, 6, 7, 8] = .ok (some s, none) ∧
      run s [.add 0 0 1, .query 0 1, .add 0 3 1, .query 0 4, .query 3 5] =
        .ok ((refRun [1, 2, 3, 4, 5, 6, 7, 8]
          [.add 0 0 1, .query 0 1, .add 0 3 1, .query 0 4, .query 3 5]).1, s') :=
  ⟨by decide, by decide, by decide,
    (C2_refines_reference_array [1, 2, 3, 4, 5, 6, 7, 8]
      [.add 0 0 1, .query 0 1, .add 0 3 1, .query 0 4, .query 3 5] (by decide) (by decide)).1⟩

/-- C3 (as amended): for a non-empty `vals` whose elements are all at most
`MaxPossibleNumber`, `New(vals)` succeeds, `RangeMinQuery(0, n-1)` returns the
minimum of `vals` (an element of `vals` below all its elements), and for every
valid range `RangeMinQuery(l, r)` returns the brute-force minimum of `vals`
over `l .. r`, each with a nil error. -/
theorem C3_build_then_query_within_limit (vals : List Int) (hne : vals ≠ [])
    (hb : WithinLimit vals) :
    ∃ s, New vals = .ok (some s, none) ∧
      (∃ m s', RangeMinQuery s 0 ((vals.length : Int) - 1) = .ok ((m, none), s') ∧
        m ∈ vals ∧ ∀ v ∈ vals, m ≤ v) ∧
      (∀ l r : Int, 0 ≤ l → l ≤ r → r ≤ (vals.length : Int) - 1 →
        ∃ s', RangeMinQuery s l r = .ok ((bruteMin vals l r, none), s')) := by
  have hx : vals.length ≠ 0 := fun h => hne (List.length_eq_zero.mp h)
  obtain ⟨s, q, hs⟩ := New_rep vals hx hb
  refine ⟨s, q, ?_, ?_⟩
  · obtain ⟨s', q', _⟩ := RangeMinQuery_rep s vals hs 0 ((vals.length : Int) - 1) (le_refl _)
      (by omega) (le_refl _)
    obtain ⟨m1, i, i1, i2, i3⟩ := bruteMin_isMin vals 0 ((vals.length : Int) - 1) (le_refl _)
      (by omega)
    refine ⟨_, s', q', ?_, ?_⟩
    · rw [← i3]
      unfold refFun
      have hlt : i.toNat < vals.length := by omega
      rw [List.getD_eq_getElem?_getD, List.getElem?_eq_getElem hlt]
      exact List.getElem_mem hlt
    · intro v hv
      obtain ⟨k, hk, rfl⟩ := List.mem_iff_getElem.mp hv
      have := m1 (k : Int) (by omega) (by omega)
      unfold refFun at this
      rw [List.getD_eq_getElem?_getD, Int.toNat_ofNat, List.getElem?_eq_getElem hk] at this
      exact this
  · intro l r h0 hlr hr
    obtain ⟨s', q', _⟩ := RangeMinQuery_rep s vals hs l r h0 hlr hr
    exact ⟨s', q'⟩

theorem C3_build_then_query_within_limit_witness :
    ([1, 2, 3, 4, 5, 6] : List Int) ≠ [] ∧ WithinLimit [1, 2, 3, 4, 5, 6] ∧
    bruteMin [1, 2, 3, 4, 5, 6] 3 5 = 4 ∧
    ∃ s, New [1, 2, 3, 4, 5, 6] = .ok (some s, none) ∧
      (∃ m s', RangeMinQuery s 0 (((([1, 2, 3, 4, 5, 6] : List Int).length : Nat) : Int) - 1) =
          .ok ((m, none), s') ∧
        m ∈ ([1, 2, 3, 4, 5, 6] : List Int) ∧ ∀ v ∈ ([1, 2, 3, 4, 5, 6] : List Int), m ≤ v) ∧
      (∀ l r : Int, 0 ≤ l → l ≤ r →
        r ≤ ((([1, 2, 3, 4, 5, 6] : List Int).length : Nat) : Int) - 1 →
        ∃ s', RangeMinQuery s l r = .ok ((bruteMin [1, 2, 3, 4, 5, 6] l r, none), s')) :=
  ⟨by decide, by decide, by decide,
    C3_build_then_query_within_limit [1, 2, 3, 4, 5, 6] (by decide) (by decide)⟩

/-- C3 fails as stated: `New` on `[2000000000, 2000000000]` stores `1000000010`
at the root, and `RangeMinQuery(0, 1)` returns it, while the minimum of the
input is `2000000000`. -/
theorem C3_counterexample :
    New [2000000000, 2000000000] =
      .ok (some ⟨[1000000010, 2000000000, 2000000000], [0, 0, 0], 2⟩, none) ∧
    RangeMinQuery ⟨[1000000010, 2000000000, 2000000000], [0, 0, 0], 2⟩ 0 1 =
      .ok ((1000000010, none), ⟨[1000000010, 2000000000, 2000000000], [0, 0, 0], 2⟩) ∧
    bruteMin [2000000000, 2000000000] 0 1 = 2000000000 := by
  decide

/-- C4: `RangeAdd(l, r, x)` returns the error "Invalid range: l to r" exactly
when `l < 0`, `l > r` or `r > origLen - 1`; whenever it returns an error, the
error is that one and `tree`, `lazy` and `origLen` are exactly as before the
call.  The last part shows the text of the error on the range `0 .. -1`. -/
theorem C4_rangeAdd_validation_atomic (s : SegmentTree) (l r x : Int) :
    ((∃ s', RangeAdd s l r x = .ok (some (invalidRangeError l r), s')) ↔
        (l < 0 ∨ l > r ∨ r > s.origLen - 1)) ∧
    (∀ e s', RangeAdd s l r x = .ok (some e, s') →
        e = invalidRangeError l r ∧ s'.tree = s.tree ∧ s'.lazy = s.lazy ∧
          s'.origLen = s.origLen) ∧
    invalidRangeError 0 (-1) = "Invalid range: 0 to -1" := by
  refine ⟨⟨?_, ?_⟩, ?_, by decide⟩
  · rintro ⟨s', hq⟩
    by_contra hv
    have := RangeAdd_valid_error s l r x hv _ _ hq
    cases this
  · intro hv
    exact ⟨s, RangeAdd_invalid s l r x hv⟩
  · intro e s' hq
    by_cases hv : l < 0 ∨ l > r ∨ r > s.origLen - 1
    · rw [RangeAdd_invalid s l r x hv] at hq
      injection hq with hq
      injection hq with h1 h2
      injection h1 with h1
      subst h1 h2
      exact ⟨rfl, rfl, rfl, rfl⟩
    · have := RangeAdd_valid_error s l r x hv _ _ hq
      cases this

/-- C5: `RangeMinQuery(l, r)` returns a non-nil error exactly when `l < 0`,
`l > r` or `r > origLen - 1`; in that case it returns the value `0` with the
error "Invalid range: l to r" and the structure unchanged; on any other range
every result it returns has a nil error. -/
theorem C5_rangeMinQuery_validation (s : SegmentTree) (l r : Int) :
    ((∃ v e s', RangeMinQuery s l r = .ok ((v, some e), s')) ↔
        (l < 0 ∨ l > r ∨ r > s.origLen - 1)) ∧
    (∀ v e s', RangeMinQuery s l r = .ok ((v, some e), s') →
        v = 0 ∧ e = invalidRangeError l r ∧ s' = s) ∧
    (¬ (l < 0 ∨ l > r ∨ r > s.origLen - 1) →
        ∀ v e s', RangeMinQuery s l r = .ok ((v, e), s') → e = none) ∧
    invalidRangeError 2 1 = "Invalid range: 2 to 1" := by
  refine ⟨⟨?_, ?_⟩, ?_, ?_, by decide⟩
  · rintro ⟨v, e, s', hq⟩
    by_contra hv
    have := RangeMinQuery_valid_error s l r hv _ _ _ hq
    cases this
  · intro hv
    exact ⟨0, _, s, RangeMinQuery_invalid s l r hv⟩
  · intro v e s' hq
    by_cases hv : l < 0 ∨ l > r ∨ r > s.origLen - 1
    · rw [RangeMinQuery_invalid s l r hv] at hq
      injection hq with hq
      injection hq with h1 h2
      injection h1 with h1 h3
      injection h3 with h3
      subst h1 h2 h3
      exact ⟨rfl, rfl, rfl⟩
    · have := RangeMinQuery_valid_error s l r hv _ _ _ hq
      cases this
  · intro hv v e s' hq
    exact RangeMinQuery_valid_error s l r hv v e s' hq

/-- C6: `New(x)` returns a non-nil error exactly when `x` has length zero; then
it returns no instance together with the error "Provided slice should contain
at least one element"; for every non-empty `x` it returns an instance and a nil
error. -/
theorem C6_new_rejects_exactly_empty_input (x : List Int) :
    ((∃ o e, New x = .ok (o, some e)) ↔ x.length = 0) ∧
    (x.length = 0 →
        New x = .ok (none, some "Provided slice should contain at least one element")) ∧
    (x.length ≠ 0 → ∃ s, New x = .ok (some s, none)) := by
  refine ⟨⟨?_, ?_⟩, ?_, ?_⟩
  · rintro ⟨o, e, hq⟩
    by_contra hx
    obtain ⟨s, q, _⟩ := New_shape x hx
    rw [q] at hq
    cases hq
  · intro hx
    exact ⟨none, _, New_empty x hx⟩
  · intro hx
    exact New_empty x hx
  · intro hx
    obtain ⟨s, q, _⟩ := New_shape x hx
    exact ⟨s, q⟩

/-- C7 (as amended): on a tree reached from `New(vals)` by valid calls during
which the reference array holds 64-bit values within `MaxPossibleNumber` (no
element of it overflows), a valid `RangeAdd(l, r, 0)` returns a nil error and
changes the result of no later call: every later sequence of valid calls that
keeps the array within these bounds returns the same results with and without
the zero addition. -/
theorem C7_zero_add_changes_no_result_within_limit (vals : List Int) (pre post : List Op)
    (l r : Int) (hne : vals ≠ []) (hadm : Admissible vals (pre ++ post))
    (h64 : StaysInt64 vals (pre ++ post))
    (h0 : 0 ≤ l) (hlr : l ≤ r) (hr : r ≤ (vals.length : Int) - 1) :
    ∃ s outs0 s1 s2 outs s3 s4, New vals = .ok (some s, none) ∧
      run64 s pre = .ok (outs0, s1) ∧ RangeAdd64 s1 l r 0 = .ok (none, s2) ∧
      run64 s2 post = .ok (outs, s3) ∧ run64 s1 post = .ok (outs, s4) := by
  have hx : vals.length ≠ 0 := fun h => hne (List.length_eq_zero.mp h)
  obtain ⟨hpre, hpost⟩ := Admissible.append pre post vals hadm
  obtain ⟨hpre64, hpost64⟩ := StaysInt64.ofAppend pre post vals h64
  obtain ⟨s, q, hsim, hs⟩ := New_sim vals hx hadm.limit h64.start
  obtain ⟨s1, g1, q1, hsim1, hs1⟩ := run64_sim pre s s vals hsim hs hpre hpre64
  have hlen := refRun_length pre vals
  obtain ⟨s2, g2, q2, hsim2, hs2⟩ := RangeAdd64_sim s1 g1 _ hsim1 hs1 l r 0 h0 hlr
    (by rw [hlen]; exact hr) (by rw [refAdd_zero]; exact hs1.2.1)
    (by rw [refAdd_zero]; exact hpost64.start)
  rw [refAdd_zero] at hs2
  obtain ⟨s3, _, q3, _, _⟩ := run64_sim post s2 g2 _ hsim2 hs2 hpost hpost64
  obtain ⟨s4, _, q4, _, _⟩ := run64_sim post s1 g1 _ hsim1 hs1 hpost hpost64
  exact ⟨s, _, s1, s2, _, s3, s4, q, q1, q2, q3, q4⟩

theorem C7_zero_add_changes_no_result_within_limit_witness :
    ([1, 2, 3, 4, 5, 6, 7, 8] : List Int) ≠ [] ∧
    Admissible [1, 2, 3, 4, 5, 6, 7, 8]
      ([.add 0 3 (-9223372036854775808), .query 2 5, .add 0 1 (-1)] ++
        [.query 0 4, .add 0 3 9223372036854775807, .query 0 0]) ∧
    StaysInt64 [1, 2, 3, 4, 5, 6, 7, 8]
      ([.add 0 3 (-9223372036854775808), .query 2 5, .add 0 1 (-1)] ++
        [.query 0 4, .add 0 3 9223372036854775807, .query 0 0]) ∧
    run64 ⟨[1, 1, 5, 1, 3, 5, 7, 1, 2, 3, 4, 5, 6, 7, 8],
        [0, 0, 0, 0, 0, 0, 0, 0, 0, 0, 0, 0, 0, 0, 0], 8⟩
      [.add 0 3 (-9223372036854775808), .query 2 5, .add 0 1 (-1), .add 2 6 0,
        .query 0 4, .add 0 3 9223372036854775807, .query 0 0] =
      .ok ([.added none, .queried (-9223372036854775805) none, .added none, .added none,
          .queried (-9223372036854775808) none, .added none, .queried (-1) none],
        ⟨[-1, -1, 5, -1, 2, 5, 7, -1, 0, 3, 4, 5, 6, 7, 8],
          [0, 0, 0, 0, 0, 0, 0, 0, 0, -1, -1, 0, 0, 0, 0], 8⟩) ∧
    ∃ s outs0 s1 s2 outs s3 s4, New [1, 2, 3, 4, 5, 6, 7, 8] = .ok (some s, none) ∧
      run64 s [.add 0 3 (-9223372036854775808), .query 2 5, .add 0 1 (-1)] = .ok (outs0, s1) ∧
      RangeAdd64 s1 2 6 0 = .ok (none, s2) ∧
      run64 s2 [.query 0 4, .add 0 3 9223372036854775807, .query 0 0] = .ok (outs, s3) ∧
      run64 s1 [.query 0 4, .add 0 3 9223372036854775807, .query 0 0] = .ok (outs, s4) :=
  ⟨by decide, by decide, by decide, by decide,
    C7_zero_add_changes_no_result_within_limit [1, 2, 3, 4, 5, 6, 7, 8]
      [.add 0 3 (-9223372036854775808), .query 2 5, .add 0 1 (-1)]
      [.query 0 4, .add 0 3 9223372036854775807, .query 0 0] 2 6 (by decide) (by decide)
      (by decide) (by decide) (by decide) (by decide)⟩

/-- C7 fails as stated, in two ways.  Above the limit: the first tree below is
reached from `New [0, 0]` by the valid `RangeAdd(0, 1, 2000000000)`; on it
`RangeMinQuery(0, 1)` returns `2000000000`, and after the valid
`RangeAdd(0, 0, 0)` the same query returns `1000000010`.  On overflow: the
second tree is reached from `New [-9223372036854775808, 1000000010]` by the
valid `RangeAdd(0, 1, -9223372036854775808)`; on it `RangeMinQuery(0, 1)`
returns `0`, and after the valid `RangeAdd(0, 0, 0)` the same query returns
`-9223372035854775798`. -/
theorem C7_counterexample :
    New [0, 0] = .ok (some ⟨[0, 0, 0], [0, 0, 0], 2⟩, none) ∧
    RangeAdd64 ⟨[0, 0, 0], [0, 0, 0], 2⟩ 0 1 2000000000 =
      .ok (none, ⟨[2000000000, 0, 0], [0, 2000000000, 2000000000], 2⟩) ∧
    RangeMinQuery64 ⟨[2000000000, 0, 0], [0, 2000000000, 2000000000], 2⟩ 0 1 =
      .ok ((2000000000, none), ⟨[2000000000, 0, 0], [0, 2000000000, 2000000000], 2⟩) ∧
    RangeAdd64 ⟨[2000000000, 0, 0], [0, 2000000000, 2000000000], 2⟩ 0 0 0 =
      .ok (none, ⟨[1000000010, 2000000000, 2000000000], [0, 0, 0], 2⟩) ∧
    RangeMinQuery64 ⟨[1000000010, 2000000000, 2000000000], [0, 0, 0], 2⟩ 0 1 =
      .ok ((1000000010, none), ⟨[1000000010, 2000000000, 2000000000], [0, 0, 0], 2⟩) ∧
    New [-9223372036854775808, 1000000010] =
      .ok (some ⟨[-9223372036854775808, -9223372036854775808, 1000000010], [0, 0, 0], 2⟩,
        none) ∧
    RangeAdd64 ⟨[-9223372036854775808, -9223372036854775808, 1000000010], [0, 0, 0], 2⟩ 0 1
        (-9223372036854775808) =
      .ok (none, ⟨[0, -9223372036854775808, 1000000010],
        [0, -9223372036854775808, -9223372036854775808], 2⟩) ∧
    RangeMinQuery64 ⟨[0, -9223372036854775808, 1000000010],
        [0, -9223372036854775808, -9223372036854775808], 2⟩ 0 1 =
      .ok ((0, none), ⟨[0, -9223372036854775808, 1000000010],
        [0, -9223372036854775808, -9223372036854775808], 2⟩) ∧
    RangeAdd64 ⟨[0, -9223372036854775808, 1000000010],
        [0, -9223372036854775808, -9223372036854775808], 2⟩ 0 0 0 =
      .ok (none, ⟨[-9223372035854775798, 0, -9223372035854775798], [0, 0, 0], 2⟩) ∧
    RangeMinQuery64 ⟨[-9223372035854775798, 0, -9223372035854775798], [0, 0, 0], 2⟩ 0 1 =
      .ok ((-9223372035854775798, none),
        ⟨[-9223372035854775798, 0, -9223372035854775798], [0, 0, 0], 2⟩) :=
  ⟨by decide, by decide, by decide, by decide, by decide, by decide, by decide, by decide,
    by decide, by decide⟩

/-- C8: for every non-empty input of length `n`, `New` completes without an
index fault and allocates `tree` and `lazy` of length `2 * 2 ^ ceilLog2 n - 1`;
from every state reached by accepted calls, every `RangeMinQuery` and every
`RangeAdd` on a valid range completes without an index fault (every slice
access of the model that leaves the slice is a fault, the child slots touched
by `flush` and by a fully covered update included). -/
theorem C8_index_safety (vals : List Int) (hne : vals ≠ []) :
    (∃ s, New vals = .ok (some s, none) ∧
        s.tree.length = 2 * 2 ^ ceilLog2 vals.length - 1 ∧
        s.lazy.length = 2 * 2 ^ ceilLog2 vals.length - 1) ∧
    (∀ s, Reachable vals s → ∀ l r : Int, 0 ≤ l → l ≤ r → r ≤ (vals.length : Int) - 1 →
        (∃ v s', RangeMinQuery s l r = .ok ((v, none), s')) ∧
        (∀ x, ∃ s', RangeAdd s l r x = .ok (none, s'))) := by
  have hx : vals.length ≠ 0 := by
    intro h; exact hne (List.length_eq_zero.mp h)
  refine ⟨?_, ?_⟩
  · obtain ⟨s, q, hs, _⟩ := New_shape vals hx
    exact ⟨s, q, hs.2.2.1, hs.2.2.2⟩
  · intro s hs l r h0 hlr hr
    refine ⟨?_, ?_⟩
    · obtain ⟨v, s', q, _⟩ := RangeMinQuery_shape vals.length s hs.shape l r h0 hlr hr
      exact ⟨v, s', q⟩
    · intro x
      obtain ⟨s', q, _⟩ := RangeAdd_shape vals.length s hs.shape l r x h0 hlr hr
      exact ⟨s', q⟩

theorem C8_index_safety_witness :
    ([5, 3, 8] : List Int) ≠ [] ∧
    ((∃ s, New [5, 3, 8] = .ok (some s, none) ∧
        s.tree.length = 2 * 2 ^ ceilLog2 ([5, 3, 8] : List Int).length - 1 ∧
        s.lazy.length = 2 * 2 ^ ceilLog2 ([5, 3, 8] : List Int).length - 1) ∧
    (∀ s, Reachable [5, 3, 8] s → ∀ l r : Int, 0 ≤ l → l ≤ r →
        r ≤ ((([5, 3, 8] : List Int).length : Nat) : Int) - 1 →
        (∃ v s', RangeMinQuery s l r = .ok ((v, none), s')) ∧
        (∀ x, ∃ s', RangeAdd s l r x = .ok (none, s')))) :=
  ⟨by decide, C8_index_safety [5, 3, 8] (by decide)⟩

/-- C9: from every state reached by accepted calls, every `RangeMinQuery` and
every `RangeAdd`, on a valid or a rejected range, returns and leaves the length
of `tree`, the length of `lazy` and `origLen` at the values `New` established
for the input (`2 * 2 ^ ceilLog2 n - 1` twice, and `n`). -/
theorem C9_fixed_size (vals : List Int) (s : SegmentTree) (hs : Reachable vals s)
    (l r x : Int) :
    (s.tree.length = 2 * 2 ^ ceilLog2 vals.length - 1 ∧
      s.lazy.length = 2 * 2 ^ ceilLog2 vals.length - 1 ∧ s.origLen = (vals.length : Int)) ∧
    (∃ res s', RangeMinQuery s l r = .ok (res, s') ∧
      s'.tree.length = s.tree.length ∧ s'.lazy.length = s.lazy.length ∧
      s'.origLen = s.origLen) ∧
    (∃ e s', RangeAdd s l r x = .ok (e, s') ∧
      s'.tree.length = s.tree.length ∧ s'.lazy.length = s.lazy.length ∧
      s'.origLen = s.origLen) := by
  have hsh := hs.shape
  obtain ⟨hn, ho, hT, hL⟩ := hsh
  refine ⟨⟨hT, hL, ho⟩, ?_, ?_⟩
  · by_cases hv : l < 0 ∨ l > r ∨ r > s.origLen - 1
    · exact ⟨_, s, RangeMinQuery_invalid s l r hv, rfl, rfl, rfl⟩
    · rw [ho] at hv
      obtain ⟨v, s', q, hs', _⟩ := RangeMinQuery_shape vals.length s hs.shape l r
        (by omega) (by omega) (by omega)
      exact ⟨_, s', q, by rw [hs'.2.2.1, hT], by rw [hs'.2.2.2, hL], by rw [hs'.2.1, ho]⟩
  · by_cases hv : l < 0 ∨ l > r ∨ r > s.origLen - 1
    · exact ⟨_, s, RangeAdd_invalid s l r x hv, rfl, rfl, rfl⟩
    · rw [ho] at hv
      obtain ⟨s', q, hs', _⟩ := RangeAdd_shape vals.length s hs.shape l r x
        (by omega) (by omega) (by omega)
      exact ⟨_, s', q, by rw [hs'.2.2.1, hT], by rw [hs'.2.2.2, hL], by rw [hs'.2.1, ho]⟩

theorem C9_fixed_size_witness :
    Reachable [5, 3, 8] ⟨[3, 3, 8, 5, 3, 0, 0], [0, 0, 0, 0, 0, 0, 0], 3⟩ ∧
    (∃ res s', RangeMinQuery ⟨[3, 3, 8, 5, 3, 0, 0], [0, 0, 0, 0, 0, 0, 0], 3⟩ 0 7 =
        .ok (res, s') ∧ s'.tree.length = 7 ∧ s'.lazy.length = 7 ∧ s'.origLen = 3) ∧
    (∃ e s', RangeAdd ⟨[3, 3, 8, 5, 3, 0, 0], [0, 0, 0, 0, 0, 0, 0], 3⟩ 1 2 4 =
        .ok (e, s') ∧ s'.tree.length = 7 ∧ s'.lazy.length = 7 ∧ s'.origLen = 3) :=
  ⟨Reachable.new _ (by decide),
   (C9_fixed_size [5, 3, 8] ⟨[3, 3, 8, 5, 3, 0, 0], [0, 0, 0, 0, 0, 0, 0], 3⟩
      (Reachable.new _ (by decide)) 0 7 4).2.1,
   (C9_fixed_size [5, 3, 8] ⟨[3, 3, 8, 5, 3, 0, 0], [0, 0, 0, 0, 0, 0, 0], 3⟩
      (Reachable.new _ (by decide)) 1 2 4).2.2⟩

/-- C10: for a non-empty input of length `n`, the three recursions started at
the root on `0 .. n-1` return with every depth budget of at least
`ceilLog2 n + 1`, that is without going more than `ceilLog2 n` levels below the
root, and a larger budget does not change the result (`recBuild` on the fresh
allocation, `recRMQ` and `recRangeAdd` from every reached state on every valid
range).  The two children of a node `l < r` cover `l .. mid` and `mid+1 .. r`
with `l ≤ mid < r`, both strictly shorter, and a single-position node returns
with budget one, that is without a recursive call. -/
theorem C10_termination_and_depth (vals : List Int) (hne : vals ≠ []) :
    (∃ s1, ∀ k, ceilLog2 vals.length + 1 ≤ k →
        recBuild k
          { tree := List.replicate (2 * 2 ^ ceilLog2 vals.length - 1) 0,
            lazy := List.replicate (2 * 2 ^ ceilLog2 vals.length - 1) 0,
            origLen := (vals.length : Int) } 0 0 ((vals.length : Int) - 1) vals = .ok s1) ∧
    (∀ s, Reachable vals s → ∀ l r : Int, 0 ≤ l → l ≤ r → r ≤ (vals.length : Int) - 1 →
        (∃ res, ∀ k, ceilLog2 vals.length + 1 ≤ k →
            recRMQ k s 0 l r 0 ((vals.length : Int) - 1) = .ok res) ∧
        (∀ x, ∃ s', ∀ k, ceilLog2 vals.length + 1 ≤ k →
            recRangeAdd k s 0 l r 0 ((vals.length : Int) - 1) x = .ok s')) ∧
    (∀ l r : Int, 0 ≤ l → l < r → l ≤ midOf l r ∧ midOf l r < r) ∧
    (∀ (s : SegmentTree) (c : Nat) (ql qr l x : Int), 0 ≤ l → c < s.tree.length →
        s.lazy.length = s.tree.length →
        (∃ res, recRMQ 1 s (c : Int) ql qr l l = .ok res) ∧
        (∃ s', recRangeAdd 1 s (c : Int) ql qr l l x = .ok s') ∧
        (l < (vals.length : Int) → ∃ s', recBuild 1 s (c : Int) l l vals = .ok s')) := by
  have hx : 1 ≤ vals.length := by
    rcases Nat.eq_zero_or_pos vals.length with h | h
    · exact absurd (List.length_eq_zero.mp h) hne
    · exact h
  refine ⟨?_, ?_, ?_, ?_⟩
  · obtain ⟨s1, q, _⟩ := recBuild_safe (ceilLog2 vals.length) (ceilLog2 vals.length)
      { tree := List.replicate (2 * 2 ^ ceilLog2 vals.length - 1) 0,
        lazy := List.replicate (2 * 2 ^ ceilLog2 vals.length - 1) 0,
        origLen := (vals.length : Int) } 0 0 ((vals.length : Int) - 1) vals
      (allocLen vals.length) (le_refl _) (by simp [allocLen]) (rootFit vals.length hx)
      (by omega)
    exact ⟨s1, fun k hk => recBuild_mono_le _ k hk _ _ _ _ _ _ q⟩
  · intro s hs l r h0 hlr hr
    obtain ⟨_, _, hT, hL⟩ := hs.shape
    refine ⟨?_, ?_⟩
    · obtain ⟨v, s', q, _⟩ := recRMQ_safe (ceilLog2 vals.length) (ceilLog2 vals.length) s 0
        l r 0 ((vals.length : Int) - 1) (allocLen vals.length) (le_refl _) hT hL
        (rootFit vals.length hx)
      exact ⟨(v, s'), fun k hk => recRMQ_mono_le _ k hk _ _ _ _ _ _ _ q⟩
    · intro x
      obtain ⟨s', q, _⟩ := recRangeAdd_safe (ceilLog2 vals.length) (ceilLog2 vals.length) s 0
        l r 0 ((vals.length : Int) - 1) x (allocLen vals.length) (le_refl _) hT hL
        (rootFit vals.length hx)
      exact ⟨s', fun k hk => recRangeAdd_mono_le _ k hk _ _ _ _ _ _ _ _ q⟩
  · intro l r h0 hlr
    rw [midOf_eq l r h0 (by omega)]
    omega
  · intro s c ql qr l x h0 hc hL
    have hfit : Fit s.tree.length c l l 0 := ⟨h0, le_refl _, by simp, by omega⟩
    refine ⟨?_, ?_, ?_⟩
    · obtain ⟨v, s', q, _⟩ := recRMQ_safe 0 0 s c ql qr l l s.tree.length (le_refl _) rfl hL
        hfit
      exact ⟨_, q⟩
    · obtain ⟨s', q, _⟩ := recRangeAdd_safe 0 0 s c ql qr l l x s.tree.length (le_refl _) rfl
        hL hfit
      exact ⟨_, q⟩
    · intro hl
      obtain ⟨s', q, _⟩ := recBuild_safe 0 0 s c l l vals s.tree.length (le_refl _) rfl hfit hl
      exact ⟨_, q⟩

theorem C10_termination_and_depth_witness :
    ([4, 1, 7, 2, 9] : List Int) ≠ [] ∧
    ∃ s1, ∀ k, ceilLog2 ([4, 1, 7, 2, 9] : List Int).length + 1 ≤ k →
        recBuild k
          { tree := List.replicate (2 * 2 ^ ceilLog2 ([4, 1, 7, 2, 9] : List Int).length - 1) 0,
            lazy := List.replicate (2 * 2 ^ ceilLog2 ([4, 1, 7, 2, 9] : List Int).length - 1) 0,
            origLen := ((([4, 1, 7, 2, 9] : List Int).length : Nat) : Int) } 0 0
          (((([4, 1, 7, 2, 9] : List Int).length : Nat) : Int) - 1) [4, 1, 7, 2, 9] = .ok s1 :=
  ⟨by decide, (C10_termination_and_depth [4, 1, 7, 2, 9] (by decide)).1⟩

/-- C11: with `c = 4`: from every state reached by accepted calls on a tree of
original length `n`, for every valid range, one `RangeMinQuery` makes at most
`4 * (ceilLog2 n + 1)` calls of `recRMQ` and one `RangeAdd` makes at most
`4 * (ceilLog2 n + 1)` calls of `recRangeAdd`, whatever the width of the range
(the counting variants return the same value and structure as the calls). -/
theorem C11_logarithmic_visits (vals : List Int) (s : SegmentTree) (hs : Reachable vals s)
    (l r : Int) (h0 : 0 ≤ l) (hlr : l ≤ r) (hr : r ≤ (vals.length : Int) - 1) :
    (∃ k v s', recRMQVisits vals.length s 0 l r 0 ((vals.length : Int) - 1) = .ok (k, v, s') ∧
        RangeMinQuery s l r = .ok ((v, none), s') ∧ k ≤ 4 * (ceilLog2 vals.length + 1)) ∧
    (∀ x, ∃ k s', recRangeAddVisits vals.length s 0 l r 0 ((vals.length : Int) - 1) x =
          .ok (k, s') ∧
        RangeAdd s l r x = .ok (none, s') ∧ k ≤ 4 * (ceilLog2 vals.length + 1)) := by
  have hsh := hs.shape
  have hn := hsh.1
  obtain ⟨g, hg⟩ : ∃ g, vals.length = g + 1 := ⟨vals.length - 1, by omega⟩
  have hfuel : ceilLog2 vals.length ≤ g := by
    have := ceilLog2_lt vals.length hn
    omega
  have hfit := rootFit vals.length hn
  have hk : visitCount vals.length l r 0 ((vals.length : Int) - 1) ≤
      4 * (ceilLog2 vals.length + 1) := by
    have := visitCount_le l r (ceilLog2 vals.length) g 0 ((vals.length : Int) - 1) hfuel
      hfit.1 hfit.2.1 hfit.2.2.1
    rw [← hg] at this
    omega
  refine ⟨?_, ?_⟩
  · obtain ⟨v, s', q, _, hrun⟩ := RangeMinQuery_shape vals.length s hsh l r h0 hlr hr
    refine ⟨_, v, s', ?_, q, hk⟩
    rw [recRMQVisits_eq, hrun, bind_ok]
    rfl
  · intro x
    obtain ⟨s', q, _, hrun⟩ := RangeAdd_shape vals.length s hsh l r x h0 hlr hr
    refine ⟨_, s', ?_, q, hk⟩
    rw [recRangeAddVisits_eq, hrun, bind_ok]
    rfl

theorem C11_logarithmic_visits_witness :
    Reachable [1, 2, 3, 4, 5, 6, 7, 8]
      ⟨[1, 1, 5, 1, 3, 5, 7, 1, 2, 3, 4, 5, 6, 7, 8],
        [0, 0, 0, 0, 0, 0, 0, 0, 0, 0, 0, 0, 0, 0, 0], 8⟩ ∧
    recRMQVisits 8
      ⟨[1, 1, 5, 1, 3, 5, 7, 1, 2, 3, 4, 5, 6, 7, 8],
        [0, 0, 0, 0, 0, 0, 0, 0, 0, 0, 0, 0, 0, 0, 0], 8⟩ 0 1 6 0 7 =
      .ok (11, 2, ⟨[1, 1, 5, 1, 3, 5, 7, 1, 2, 3, 4, 5, 6, 7, 8],
        [0, 0, 0, 0, 0, 0, 0, 0, 0, 0, 0, 0, 0, 0, 0], 8⟩) ∧
    ∃ k v s', recRMQVisits ([1, 2, 3, 4, 5, 6, 7, 8] : List Int).length
        ⟨[1, 1, 5, 1, 3, 5, 7, 1, 2, 3, 4, 5, 6, 7, 8],
          [0, 0, 0, 0, 0, 0, 0, 0, 0, 0, 0, 0, 0, 0, 0], 8⟩ 0 1 6 0
        (((([1, 2, 3, 4, 5, 6, 7, 8] : List Int).length : Nat) : Int) - 1) = .ok (k, v, s') ∧
      RangeMinQuery
        ⟨[1, 1, 5, 1, 3, 5, 7, 1, 2, 3, 4, 5, 6, 7, 8],
          [0, 0, 0, 0, 0, 0, 0, 0, 0, 0, 0, 0, 0, 0, 0], 8⟩ 1 6 = .ok ((v, none), s') ∧
      k ≤ 4 * (ceilLog2 ([1, 2, 3, 4, 5, 6, 7, 8] : List Int).length + 1) :=
  ⟨Reachable.new _ (by decide), by decide,
    (C11_logarithmic_visits [1, 2, 3, 4, 5, 6, 7, 8]
      ⟨[1, 1, 5, 1, 3, 5, 7, 1, 2, 3, 4, 5, 6, 7, 8],
        [0, 0, 0, 0, 0, 0, 0, 0, 0, 0, 0, 0, 0, 0, 0], 8⟩
      (Reachable.new _ (by decide)) 1 6 (by decide) (by decide) (by decide)).1⟩

/-- C12 (as amended): in the state reached from `New(vals)` by any sequence of
valid calls during which the reference array holds 64-bit values within
`MaxPossibleNumber`, for every node `c` of the recursion tree covering
`l .. r`, `tree[c]` plus `lazy[c]` plus the lazy values `p` of all the nodes
above `c` on the path from the root, reduced to 64 bits, is the brute-force
minimum of the current reference array over `l .. r`; so `tree[c]` alone is
that minimum less everything pending on the path, `lazy[c]` included, reduced
to 64 bits.  Whenever the sum is a 64-bit value it is that minimum itself. -/
theorem C12_node_invariant (vals : List Int) (ops : List Op) (hne : vals ≠ [])
    (hadm : Admissible vals ops) (h64 : StaysInt64 vals ops) :
    ∃ s outs s', New vals = .ok (some s, none) ∧ run64 s ops = .ok (outs, s') ∧
      ∀ (c : Nat) (l r p : Int), TreeNode (lv s') (vals.length : Int) c l r p →
        wrap64 (tv s' c + (lv s' c + p)) = bruteMin (refRun vals ops).2 l r ∧
        tv s' c = wrap64 (bruteMin (refRun vals ops).2 l r - (lv s' c + p)) ∧
        (InInt64 (tv s' c + (lv s' c + p)) →
          tv s' c + (lv s' c + p) = bruteMin (refRun vals ops).2 l r ∧
          tv s' c = bruteMin (refRun vals ops).2 l r - (lv s' c + p)) := by
  have hx : vals.length ≠ 0 := fun h => hne (List.length_eq_zero.mp h)
  obtain ⟨s, q, hsim, hs⟩ := New_sim vals hx hadm.limit h64.start
  obtain ⟨s', g', q', hsim', hs'⟩ := run64_sim ops s s vals hsim hs hadm h64
  refine ⟨s, _, s', q, q', ?_⟩
  intro c l r p hnode
  have hlen := refRun_length ops vals
  obtain ⟨hshape, hlim, hroot⟩ := hs'
  rw [hlen] at hroot
  have hrange := hnode.range (by omega)
  obtain ⟨p', hnode', ep⟩ := TreeNode.sim (fun j => (hsim'.2.2.2 j).2) hnode
  have hmin := (TreeNode.nodeOk hroot hnode').isMin
  have hb := bruteMin_isMin (refRun vals ops).2 l r hrange.1 hrange.2.1
  have e := hmin.unique hb
  have hfin : StaysInt64 (refRun vals ops).2 [] := by
    have := (StaysInt64.ofAppend ops [] vals (by rw [List.append_nil]; exact h64)).2
    exact this
  have hin : InInt64 (bruteMin (refRun vals ops).2 l r) :=
    hb.inInt64 (fun i i1 i2 => refFun_le _ hlim i (by omega) (by rw [hlen]; omega))
      (fun i _ _ => refFun_ge _ hfin i)
  have eT := (hsim'.2.2.2 c).1
  have eL := (hsim'.2.2.2 c).2
  generalize bruteMin (refRun vals ops).2 l r = m at *
  unfold InInt64 MinInt64 MaxInt64 at *
  unfold wrap64 at *
  omega

theorem C12_node_invariant_witness :
    ([1, 2, 3, 4, 5, 6, 7, 8] : List Int) ≠ [] ∧
    Admissible [1, 2, 3, 4, 5, 6, 7, 8]
      [.add 0 3 (-9223372036854775808), .query 2 5, .add 0 1 (-1),
        .add 0 3 9223372036854775807, .query 0 3] ∧
    StaysInt64 [1, 2, 3, 4, 5, 6, 7, 8]
      [.add 0 3 (-9223372036854775808), .query 2 5, .add 0 1 (-1),
        .add 0 3 9223372036854775807, .query 0 3] ∧
    run64 ⟨[1, 1, 5, 1, 3, 5, 7, 1, 2, 3, 4, 5, 6, 7, 8],
        [0, 0, 0, 0, 0, 0, 0, 0, 0, 0, 0, 0, 0, 0, 0], 8⟩
      [.add 0 3 (-9223372036854775808), .query 2 5, .add 0 1 (-1),
        .add 0 3 9223372036854775807, .query 0 3] =
      .ok ([.added none, .queried (-9223372036854775805) none, .added none, .added none,
          .queried (-1) none],
        ⟨[-1, -1, 5, -9223372036854775808, -9223372036854775805, 5, 7, 1, 2, 3, 4, 5, 6, 7, 8],
          [0, 0, 0, 9223372036854775807, 9223372036854775807, 0, 0, 9223372036854775807,
            9223372036854775807, -9223372036854775808, -9223372036854775808, 0, 0, 0, 0], 8⟩) ∧
    (refRun [1, 2, 3, 4, 5, 6, 7, 8]
      [.add 0 3 (-9223372036854775808), .query 2 5, .add 0 1 (-1),
        .add 0 3 9223372036854775807, .query 0 3]).2 = [-1, 0, 2, 3, 5, 6, 7, 8] ∧
    wrap64 (1 + (9223372036854775807 + 9223372036854775807)) = -1 ∧
    ∃ s outs s', New [1, 2, 3, 4, 5, 6, 7, 8] = .ok (some s, none) ∧
      run64 s [.add 0 3 (-9223372036854775808), .query 2 5, .add 0 1 (-1),
        .add 0 3 9223372036854775807, .query 0 3] = .ok (outs, s') ∧
      ∀ (c : Nat) (l r p : Int),
        TreeNode (lv s') ((([1, 2, 3, 4, 5, 6, 7, 8] : List Int).length : Nat) : Int) c l r p →
        wrap64 (tv s' c + (lv s' c + p)) =
          bruteMin (refRun [1, 2, 3, 4, 5, 6, 7, 8]
            [.add 0 3 (-9223372036854775808), .query 2 5, .add 0 1 (-1),
              .add 0 3 9223372036854775807, .query 0 3]).2 l r :=
  ⟨by decide, by decide, by decide, by decide, by decide, by decide,
    (C12_node_invariant [1, 2, 3, 4, 5, 6, 7, 8]
      [.add 0 3 (-9223372036854775808), .query 2 5, .add 0 1 (-1),
        .add 0 3 9223372036854775807, .query 0 3] (by decide) (by decide) (by decide)).imp
      (fun _ h => h.imp (fun _ h' => h'.imp (fun _ k =>
        ⟨k.1, k.2.1, fun c l r p hn => (k.2.2 c l r p hn).1⟩)))⟩

/-- C12 fails as stated: the state below is reached from
`New([-9223372036854775808, 1000000010])` by the valid
`RangeAdd(0, 1, -9223372036854775808)`.  The array values stay at most
`MaxPossibleNumber`: position `0` now holds `0` (the 64-bit sum) and position
`1` holds `-9223372035854775798`, as the two single-position queries return.
The root covers `0 .. 1` and has no node above it; `tree[0] + lazy[0]` is `0`
and `RangeMinQuery(0, 1)` returns `0`, while the minimum of the current values
over `0 .. 1` is `-9223372035854775798` (and `-18446744073709551616` in the
arithmetic without overflow). -/
theorem C12_counterexample :
    New [-9223372036854775808, 1000000010] =
      .ok (some ⟨[-9223372036854775808, -9223372036854775808, 1000000010], [0, 0, 0], 2⟩,
        none) ∧
    RangeAdd64 ⟨[-9223372036854775808, -9223372036854775808, 1000000010], [0, 0, 0], 2⟩ 0 1
        (-9223372036854775808) =
      .ok (none, ⟨[0, -9223372036854775808, 1000000010],
        [0, -9223372036854775808, -9223372036854775808], 2⟩) ∧
    tv ⟨[0, -9223372036854775808, 1000000010],
        [0, -9223372036854775808, -9223372036854775808], 2⟩ 0 +
      lv ⟨[0, -9223372036854775808, 1000000010],
        [0, -9223372036854775808, -9223372036854775808], 2⟩ 0 = 0 ∧
    RangeMinQuery64 ⟨[0, -9223372036854775808, 1000000010],
        [0, -9223372036854775808, -9223372036854775808], 2⟩ 0 1 =
      .ok ((0, none), ⟨[0, -9223372036854775808, 1000000010],
        [0, -9223372036854775808, -9223372036854775808], 2⟩) ∧
    RangeMinQuery64 ⟨[0, -9223372036854775808, 1000000010],
        [0, -9223372036854775808, -9223372036854775808], 2⟩ 0 0 =
      .ok ((0, none), ⟨[0, 0, -9223372035854775798], [0, 0, 0], 2⟩) ∧
    RangeMinQuery64 ⟨[0, -9223372036854775808, 1000000010],
        [0, -9223372036854775808, -9223372036854775808], 2⟩ 1 1 =
      .ok ((-9223372035854775798, none), ⟨[0, 0, -9223372035854775798], [0, 0, 0], 2⟩) ∧
    bruteMin [0, -9223372035854775798] 0 1 = -9223372035854775798 ∧
    WithinLimit [0, -9223372035854775798] ∧
    refAdd [-9223372036854775808, 1000000010] 0 1 (-9223372036854775808) =
      [-18446744073709551616, -9223372035854775798] ∧
    bruteMin [-18446744073709551616, -9223372035854775798] 0 1 = -18446744073709551616 ∧
    WithinLimit [-18446744073709551616, -9223372035854775798] := by
  decide

/-- C13 (as amended): for a node `c` covering `l .. r` whose slots are inside
the slices (the two child slots too when `l < r`), with `z = lazy[c]`,
`flush(c, l, r)` returns and leaves `lazy[c] = 0` and in `tree[c]` the sum
`tree[c] + z` reduced to 64 bits, which is `tree[c]` increased by `z` whenever
that sum is a 64-bit value; when `l < r` it leaves in `lazy[2c+1]` and
`lazy[2c+2]` their sums with `z` reduced to 64 bits, again the exact sums
whenever these are 64-bit values; every other entry of `tree` and `lazy` is
unchanged, which for `l ≥ r` includes the child slots; the lengths and
`origLen` are unchanged. -/
theorem C13_flush_postcondition (s : SegmentTree) (c : Nat) (l r : Int)
    (hT : c < s.tree.length) (hL : c < s.lazy.length)
    (hC : l < r → 2 * c + 2 < s.lazy.length) :
    ∃ s', flush64 s (c : Int) l r = .ok s' ∧
      s'.tree.length = s.tree.length ∧ s'.lazy.length = s.lazy.length ∧
      s'.origLen = s.origLen ∧
      lv s' c = 0 ∧ tv s' c = wrap64 (tv s c + lv s c) ∧
      (InInt64 (tv s c + lv s c) → tv s' c = tv s c + lv s c) ∧
      (l < r → lv s' (2 * c + 1) = wrap64 (lv s (2 * c + 1) + lv s c) ∧
        lv s' (2 * c + 2) = wrap64 (lv s (2 * c + 2) + lv s c) ∧
        (InInt64 (lv s (2 * c + 1) + lv s c) →
          lv s' (2 * c + 1) = lv s (2 * c + 1) + lv s c) ∧
        (InInt64 (lv s (2 * c + 2) + lv s c) →
          lv s' (2 * c + 2) = lv s (2 * c + 2) + lv s c)) ∧
      (∀ j, j ≠ c → tv s' j = tv s j) ∧
      (∀ j, j ≠ c → ¬ (l < r ∧ (j = 2 * c + 1 ∨ j = 2 * c + 2)) → lv s' j = lv s j) := by
  have hTv := fun j => tv_flushState64 s c l r j hT
  have hLv := fun j => lv_flushState64 s c l r j hL hC
  have hl1 : l < r → lv (flushState64 s c l r) (2 * c + 1) =
      wrap64 (lv s (2 * c + 1) + lv s c) := fun hlr => by
    rw [hLv, if_neg (by omega), if_pos ⟨hlr, Or.inl rfl⟩]
  have hl2 : l < r → lv (flushState64 s c l r) (2 * c + 2) =
      wrap64 (lv s (2 * c + 2) + lv s c) := fun hlr => by
    rw [hLv, if_neg (by omega), if_pos ⟨hlr, Or.inr rfl⟩]
  refine ⟨flushState64 s c l r, flush64_eq s c l r hT hL hC, flushState64_tree_length s c l r,
    flushState64_lazy_length s c l r, rfl, ?_, ?_, ?_, ?_, ?_, ?_⟩
  · rw [hLv c, if_pos rfl]
  · rw [hTv c, if_pos rfl]
  · intro hin
    rw [hTv c, if_pos rfl, wrap64_eq _ hin]
  · intro hlr
    exact ⟨hl1 hlr, hl2 hlr, fun hin => by rw [hl1 hlr, wrap64_eq _ hin],
      fun hin => by rw [hl2 hlr, wrap64_eq _ hin]⟩
  · intro j hj
    rw [hTv j, if_neg hj]
  · intro j hj hn
    rw [hLv j, if_neg hj, if_neg hn]

theorem C13_flush_postcondition_witness :
    (1 : Nat) < (⟨[3, 3, 8, 5, 3, 0, 0], [0, 4, 0, 1, 0, 0, 0], 3⟩ : SegmentTree).tree.length ∧
    flush64 ⟨[3, 3, 8, 5, 3, 0, 0], [0, 4, 0, 1, 0, 0, 0], 3⟩ 1 0 1 =
      .ok ⟨[3, 7, 8, 5, 3, 0, 0], [0, 0, 0, 5, 4, 0, 0], 3⟩ ∧
    ∃ s', flush64 ⟨[3, 3, 8, 5, 3, 0, 0], [0, 4, 0, 1, 0, 0, 0], 3⟩ ((1 : Nat) : Int) 0 1 =
        .ok s' ∧
      s'.tree.length = 7 ∧ s'.lazy.length = 7 ∧ s'.origLen = 3 ∧
      lv s' 1 = 0 ∧
      tv s' 1 = wrap64 (tv ⟨[3, 3, 8, 5, 3, 0, 0], [0, 4, 0, 1, 0, 0, 0], 3⟩ 1 +
        lv ⟨[3, 3, 8, 5, 3, 0, 0], [0, 4, 0, 1, 0, 0, 0], 3⟩ 1) :=
  ⟨by decide, by decide,
    (C13_flush_postcondition ⟨[3, 3, 8, 5, 3, 0, 0], [0, 4, 0, 1, 0, 0, 0], 3⟩ 1 0 1
      (by decide) (by decide) (fun _ => by decide)).imp
      (fun _ h => ⟨h.1, h.2.1, h.2.2.1, h.2.2.2.1, h.2.2.2.2.1, h.2.2.2.2.2.1⟩)⟩

/-- C13 fails as stated: the state below is reached from
`New([9223372036854775807, 9223372036854775807])` by the valid
`RangeAdd(0, 1, 1)`; its node `1` covers `0 .. 0` and has
`tree[1] = 9223372036854775807` with `z = lazy[1] = 1` pending, and
`flush(1, 0, 0)` leaves `tree[1] = -9223372036854775808`: the entry is not
increased by `z`, it is less than before; `RangeMinQuery(0, 0)` performs this
flush and returns that value. -/
theorem C13_counterexample :
    New [9223372036854775807, 9223372036854775807] =
      .ok (some ⟨[1000000010, 9223372036854775807, 9223372036854775807], [0, 0, 0], 2⟩, none) ∧
    RangeAdd64 ⟨[1000000010, 9223372036854775807, 9223372036854775807], [0, 0, 0], 2⟩ 0 1 1 =
      .ok (none, ⟨[1000000011, 9223372036854775807, 9223372036854775807], [0, 1, 1], 2⟩) ∧
    flush64 ⟨[1000000011, 9223372036854775807, 9223372036854775807], [0, 1, 1], 2⟩ 1 0 0 =
      .ok ⟨[1000000011, -9223372036854775808, 9223372036854775807], [0, 0, 1], 2⟩ ∧
    RangeMinQuery64 ⟨[1000000011, 9223372036854775807, 9223372036854775807], [0, 1, 1], 2⟩ 0 0 =
      .ok ((-9223372036854775808, none),
        ⟨[1000000011, -9223372036854775808, -9223372036854775808], [0, 0, 0], 2⟩) ∧
    (-9223372036854775808 : Int) < 9223372036854775807 ∧
    (9223372036854775807 : Int) + 1 = 9223372036854775808 := by
  decide

/-- C14 (as amended): from every state reached by accepted calls on a tree
built from 64-bit values, of original length `n`, and for every integer `x`:
the root has nothing pending, so flushing it changes no entry;
`RangeAdd(0, n-1, x)` returns a nil error with a single call of `recRangeAdd`
(depth budget one, which allows no call below the root), and it leaves the
structure of before the call with `tree[0]` and, when `n ≥ 2`, `lazy[1]` and
`lazy[2]` replaced by their sums with `x` reduced to 64 bits, which is `x` added
to the entry whenever that sum is a 64-bit value; every other entry of `tree`
and `lazy`, the lengths and `origLen` are unchanged. -/
theorem C14_full_range_add_is_lazy (vals : List Int) (s : SegmentTree)
    (h64 : AllInt64 vals) (hs : Reachable64 vals s) (x : Int) :
    lv s 0 = 0 ∧
    ∃ s0 s', flush64 s 0 0 ((vals.length : Int) - 1) = .ok s0 ∧
      (∀ j, tv s0 j = tv s j ∧ lv s0 j = lv s j) ∧
      RangeAdd64 s 0 ((vals.length : Int) - 1) x = .ok (none, s') ∧
      recRangeAdd64 1 s 0 0 ((vals.length : Int) - 1) 0 ((vals.length : Int) - 1) x = .ok s' ∧
      s'.tree.length = s.tree.length ∧ s'.lazy.length = s.lazy.length ∧
      s'.origLen = s.origLen ∧
      (∀ j, tv s' j = if j = 0 then wrap64 (tv s0 0 + x) else tv s0 j) ∧
      (∀ j, lv s' j =
        if 2 ≤ vals.length ∧ (j = 1 ∨ j = 2) then wrap64 (lv s0 j + x) else lv s0 j) ∧
      (InInt64 (tv s0 0 + x) → tv s' 0 = tv s0 0 + x) ∧
      (∀ j, 2 ≤ vals.length → j = 1 ∨ j = 2 → InInt64 (lv s0 j + x) →
        lv s' j = lv s0 j + x) := by
  obtain ⟨hsh, hz, hst⟩ := hs.shapeRoot
  have hst := hst h64
  obtain ⟨hn, ho, hT, hL⟩ := hsh
  have hfit := rootFit vals.length hn
  have hc := hfit.index
  have hC : (0 : Int) < (vals.length : Int) - 1 → 2 * 0 + 2 < s.lazy.length := fun hh => by
    have := hfit.children hh; omega
  have hpre : preFlush64 s 0 0 ((vals.length : Int) - 1) = s := by
    unfold preFlush64
    rw [if_neg (by simp [hz])]
  have hrec : ∀ g, recRangeAdd64 (g + 1) s ((0 : Nat) : Int) 0 ((vals.length : Int) - 1) 0
      ((vals.length : Int) - 1) x = .ok (coverState64 s 0 0 ((vals.length : Int) - 1) x) := by
    intro g
    rw [recRangeAdd64_succ g s 0 0 ((vals.length : Int) - 1) 0 ((vals.length : Int) - 1) x
      (by omega) (by omega) hC, if_neg (by omega), if_pos ⟨le_refl _, le_refl _⟩, hpre]
  have hrec1 : recRangeAdd64 1 s 0 0 ((vals.length : Int) - 1) 0 ((vals.length : Int) - 1) x =
      .ok (coverState64 s 0 0 ((vals.length : Int) - 1) x) := hrec 0
  have hTv := fun j => tv_coverState64 s 0 0 ((vals.length : Int) - 1) x j (by omega)
  have hLv := fun j => lv_coverState64 s 0 0 ((vals.length : Int) - 1) x j hC
  have hTf := fun j => tv_flushState64 s 0 0 ((vals.length : Int) - 1) j (by omega)
  have hLf := fun j => lv_flushState64 s 0 0 ((vals.length : Int) - 1) j (by omega) hC
  have hflush : ∀ j, tv (flushState64 s 0 0 ((vals.length : Int) - 1)) j = tv s j ∧
      lv (flushState64 s 0 0 ((vals.length : Int) - 1)) j = lv s j := by
    intro j
    rw [hTf j, hLf j, hz]
    by_cases hj : j = 0
    · subst hj
      rw [if_pos rfl, if_pos rfl, Int.add_zero, wrap64_eq _ (hst 0).1, hz]
      exact ⟨rfl, rfl⟩
    · rw [if_neg hj, if_neg hj]
      refine ⟨rfl, ?_⟩
      split_ifs
      · rw [Int.add_zero, wrap64_eq _ (hst j).2]
      · rfl
  have hfl : flush64 s 0 0 ((vals.length : Int) - 1) =
      .ok (flushState64 s 0 0 ((vals.length : Int) - 1)) :=
    flush64_eq s 0 0 ((vals.length : Int) - 1) (by omega) (by omega) hC
  have hT' : ∀ j, tv (coverState64 s 0 0 ((vals.length : Int) - 1) x) j =
      if j = 0 then wrap64 (tv (flushState64 s 0 0 ((vals.length : Int) - 1)) 0 + x)
      else tv (flushState64 s 0 0 ((vals.length : Int) - 1)) j := by
    intro j
    rw [hTv j, (hflush 0).1, (hflush j).1]
  have hL' : ∀ j, lv (coverState64 s 0 0 ((vals.length : Int) - 1) x) j =
      if 2 ≤ vals.length ∧ (j = 1 ∨ j = 2) then
        wrap64 (lv (flushState64 s 0 0 ((vals.length : Int) - 1)) j + x)
      else lv (flushState64 s 0 0 ((vals.length : Int) - 1)) j := by
    intro j
    rw [hLv j, (hflush j).2]
    by_cases h2 : 2 ≤ vals.length
    · have : (0 : Int) < (vals.length : Int) - 1 := by omega
      simp only [this, h2, true_and]
    · have : ¬ (0 : Int) < (vals.length : Int) - 1 := by omega
      simp only [this, h2, false_and]
  refine ⟨hz, flushState64 s 0 0 ((vals.length : Int) - 1),
    coverState64 s 0 0 ((vals.length : Int) - 1) x, hfl, hflush, ?_, hrec1,
    coverState64_tree_length _ _ _ _ _, coverState64_lazy_length _ _ _ _ _, rfl, hT', hL',
    ?_, ?_⟩
  · unfold RangeAdd64
    rw [if_neg (by omega), ho]
    simp only [Int.toNat_ofNat]
    obtain ⟨g, hg⟩ : ∃ g, vals.length = g + 1 := ⟨vals.length - 1, by omega⟩
    have hfull : recRangeAdd64 vals.length s 0 0 ((vals.length : Int) - 1) 0
        ((vals.length : Int) - 1) x = .ok (coverState64 s 0 0 ((vals.length : Int) - 1) x) := by
      have := hrec g
      rw [← hg] at this
      exact this
    rw [hfull, bind_ok]
    rfl
  · intro hin
    rw [hT' 0, if_pos rfl, wrap64_eq _ hin]
  · intro j h2 hj hin
    rw [hL' j, if_pos ⟨h2, hj⟩, wrap64_eq _ hin]

theorem C14_full_range_add_is_lazy_witness :
    AllInt64 [5, 3, 8] ∧
    Reachable64 [5, 3, 8] ⟨[3, 3, 8, 5, 3, 0, 0], [0, 0, 0, 0, 0, 0, 0], 3⟩ ∧
    RangeAdd64 ⟨[3, 3, 8, 5, 3, 0, 0], [0, 0, 0, 0, 0, 0, 0], 3⟩ 0 2 4 =
      .ok (none, ⟨[7, 3, 8, 5, 3, 0, 0], [0, 4, 4, 0, 0, 0, 0], 3⟩) ∧
    lv ⟨[3, 3, 8, 5, 3, 0, 0], [0, 0, 0, 0, 0, 0, 0], 3⟩ 0 = 0 ∧
    ∃ s0 s', flush64 ⟨[3, 3, 8, 5, 3, 0, 0], [0, 0, 0, 0, 0, 0, 0], 3⟩ 0 0
        (((([5, 3, 8] : List Int).length : Nat) : Int) - 1) = .ok s0 ∧
      (∀ j, tv s0 j = tv ⟨[3, 3, 8, 5, 3, 0, 0], [0, 0, 0, 0, 0, 0, 0], 3⟩ j ∧
        lv s0 j = lv ⟨[3, 3, 8, 5, 3, 0, 0], [0, 0, 0, 0, 0, 0, 0], 3⟩ j) ∧
      RangeAdd64 ⟨[3, 3, 8, 5, 3, 0, 0], [0, 0, 0, 0, 0, 0, 0], 3⟩ 0
        (((([5, 3, 8] : List Int).length : Nat) : Int) - 1) 4 = .ok (none, s') ∧
      recRangeAdd64 1 ⟨[3, 3, 8, 5, 3, 0, 0], [0, 0, 0, 0, 0, 0, 0], 3⟩ 0 0
        (((([5, 3, 8] : List Int).length : Nat) : Int) - 1) 0
        (((([5, 3, 8] : List Int).length : Nat) : Int) - 1) 4 = .ok s' :=
  ⟨by decide, Reachable64.new _ (by decide), by decide,
    (C14_full_range_add_is_lazy [5, 3, 8] ⟨[3, 3, 8, 5, 3, 0, 0], [0, 0, 0, 0, 0, 0, 0], 3⟩
      (by decide) (Reachable64.new _ (by decide)) 4).1,
    (C14_full_range_add_is_lazy [5, 3, 8] ⟨[3, 3, 8, 5, 3, 0, 0], [0, 0, 0, 0, 0, 0, 0], 3⟩
      (by decide) (Reachable64.new _ (by decide)) 4).2.imp
      (fun _ h => h.imp (fun _ h' => ⟨h'.1, h'.2.1, h'.2.2.1, h'.2.2.2.1⟩))⟩

/-- C14 fails as stated: on the tree that `New([5, 3, 8])` returns,
`RangeAdd(0, 2, 9223372036854775807)` leaves `tree[0] = -9223372036854775806`,
where `tree[0] + x` is `9223372036854775810`; the root value is not `x` more
than before, it is less than before. -/
theorem C14_counterexample :
    New [5, 3, 8] = .ok (some ⟨[3, 3, 8, 5, 3, 0, 0], [0, 0, 0, 0, 0, 0, 0], 3⟩, none) ∧
    RangeAdd64 ⟨[3, 3, 8, 5, 3, 0, 0], [0, 0, 0, 0, 0, 0, 0], 3⟩ 0 2 9223372036854775807 =
      .ok (none, ⟨[-9223372036854775806, 3, 8, 5, 3, 0, 0],
        [0, 9223372036854775807, 9223372036854775807, 0, 0, 0, 0], 3⟩) ∧
    (3 : Int) + 9223372036854775807 = 9223372036854775810 ∧
    (-9223372036854775806 : Int) < 3 := by
  decide

/-- C15: for every non-empty input `x` of length `n`, `New` returns a structure
with `origLen = n`, with `tree` and `lazy` both of length
`2 * 2 ^ ceilLog2 n - 1`, where `ceilLog2 n` is the ceiling of the base-two
logarithm of `n` (so both have length one for `n = 1`), and with every entry of
`lazy` equal to zero. -/
theorem C15_new_postcondition (x : List Int) (hne : x ≠ []) :
    ∃ s, New x = .ok (some s, none) ∧ s.origLen = (x.length : Int) ∧
      s.tree.length = 2 * 2 ^ ceilLog2 x.length - 1 ∧
      s.lazy.length = 2 * 2 ^ ceilLog2 x.length - 1 ∧
      (∀ z ∈ s.lazy, z = 0) ∧
      ceilLog2 x.length = Nat.clog 2 x.length ∧
      (x.length = 1 → s.tree.length = 1 ∧ s.lazy.length = 1) := by
  have hx : x.length ≠ 0 := fun h => hne (List.length_eq_zero.mp h)
  obtain ⟨s, q, hs, hl⟩ := New_shape x hx
  refine ⟨s, q, hs.2.1, hs.2.2.1, hs.2.2.2, ?_, ceilLog2_eq_clog _, ?_⟩
  · intro z hz
    rw [hl] at hz
    exact (List.mem_replicate.mp hz).2
  · intro h1
    have h3 := hs.2.2.1
    have h4 := hs.2.2.2
    rw [h1] at h3 h4
    exact ⟨h3, h4⟩

theorem C15_new_postcondition_witness :
    ([4, 1, 7, 2, 9] : List Int) ≠ [] ∧
    ∃ s, New [4, 1, 7, 2, 9] = .ok (some s, none) ∧
      s.origLen = ((([4, 1, 7, 2, 9] : List Int).length : Nat) : Int) ∧
      s.tree.length = 2 * 2 ^ ceilLog2 ([4, 1, 7, 2, 9] : List Int).length - 1 ∧
      s.lazy.length = 2 * 2 ^ ceilLog2 ([4, 1, 7, 2, 9] : List Int).length - 1 ∧
      (∀ z ∈ s.lazy, z = 0) ∧
      ceilLog2 ([4, 1, 7, 2, 9] : List Int).length =
        Nat.clog 2 ([4, 1, 7, 2, 9] : List Int).length ∧
      (([4, 1, 7, 2, 9] : List Int).length = 1 → s.tree.length = 1 ∧ s.lazy.length = 1) :=
  ⟨by decide, C15_new_postcondition [4, 1, 7, 2, 9] (by decide)⟩

/-- C16: from every state reached by accepted calls, with no bound on the
stored values, and for all valid ranges `l1 .. r1` and `l2 .. r2`:
`RangeMinQuery(l2, r2)` returns the same value (with a nil error) whether or
not `RangeMinQuery(l1, r1)` is executed immediately before it; in particular
`RangeMinQuery(l1, r1)` executed twice returns the same value twice. -/
theorem C16_queries_are_observationally_pure (vals : List Int) (s : SegmentTree)
    (hs : Reachable vals s) (l1 r1 l2 r2 : Int)
    (h1 : 0 ≤ l1 ∧ l1 ≤ r1 ∧ r1 ≤ (vals.length : Int) - 1)
    (h2 : 0 ≤ l2 ∧ l2 ≤ r2 ∧ r2 ≤ (vals.length : Int) - 1) :
    ∃ v1 s1 v2 s2 s3 s4, RangeMinQuery s l1 r1 = .ok ((v1, none), s1) ∧
      RangeMinQuery s1 l2 r2 = .ok ((v2, none), s2) ∧
      RangeMinQuery s l2 r2 = .ok ((v2, none), s3) ∧
      RangeMinQuery s1 l1 r1 = .ok ((v1, none), s4) := by
  have hsh := hs.shape
  obtain ⟨s1, q1, hs1, _, k1⟩ := RangeMinQuery_qval vals.length s hsh l1 r1 h1.1 h1.2.1 h1.2.2
  obtain ⟨s2, q2, _⟩ := RangeMinQuery_qval vals.length s1 hs1 l2 r2 h2.1 h2.2.1 h2.2.2
  obtain ⟨s3, q3, _⟩ := RangeMinQuery_qval vals.length s hsh l2 r2 h2.1 h2.2.1 h2.2.2
  obtain ⟨s4, q4, _⟩ := RangeMinQuery_qval vals.length s1 hs1 l1 r1 h1.1 h1.2.1 h1.2.2
  rw [k1] at q2 q4
  exact ⟨_, s1, _, s2, s3, s4, q1, q2, q3, q4⟩

theorem C16_queries_are_observationally_pure_witness :
    Reachable [0, 0] ⟨[2000000000, 0, 0], [0, 2000000000, 2000000000], 2⟩ ∧
    (0 ≤ (0 : Int) ∧ (0 : Int) ≤ 0 ∧ (0 : Int) ≤ ((([0, 0] : List Int).length : Nat) : Int) - 1) ∧
    (0 ≤ (0 : Int) ∧ (0 : Int) ≤ 1 ∧ (1 : Int) ≤ ((([0, 0] : List Int).length : Nat) : Int) - 1) ∧
    RangeMinQuery ⟨[2000000000, 0, 0], [0, 2000000000, 2000000000], 2⟩ 0 0 =
      .ok ((1000000010, none), ⟨[2000000000, 2000000000, 2000000000], [0, 0, 0], 2⟩) ∧
    ∃ v1 s1 v2 s2 s3 s4,
      RangeMinQuery ⟨[2000000000, 0, 0], [0, 2000000000, 2000000000], 2⟩ 0 0 =
        .ok ((v1, none), s1) ∧
      RangeMinQuery s1 0 1 = .ok ((v2, none), s2) ∧
      RangeMinQuery ⟨[2000000000, 0, 0], [0, 2000000000, 2000000000], 2⟩ 0 1 =
        .ok ((v2, none), s3) ∧
      RangeMinQuery s1 0 0 = .ok ((v1, none), s4) :=
  ⟨Reachable.add ⟨[0, 0, 0], [0, 0, 0], 2⟩ 0 1 2000000000 _ (Reachable.new _ (by decide))
      (by decide) (by decide) (by decide) (by decide),
    by decide, by decide, by decide,
    C16_queries_are_observationally_pure [0, 0]
      ⟨[2000000000, 0, 0], [0, 2000000000, 2000000000], 2⟩
      (Reachable.add ⟨[0, 0, 0], [0, 0, 0], 2⟩ 0 1 2000000000 _ (Reachable.new _ (by decide))
        (by decide) (by decide) (by decide) (by decide))
      0 0 0 1 (by decide) (by decide)⟩

/-- C17: from every state reached by accepted calls, with no bound on the
stored values, for every valid range `l .. r`, every integer `x` and every
valid position `i` with `i < l` or `i > r`: `RangeAdd(l, r, x)` returns a nil
error, and `RangeMinQuery(i, i)` returns after it the value it returns before
it. -/
theorem C17_update_frame_outside_range (vals : List Int) (s : SegmentTree)
    (hs : Reachable vals s) (l r x i : Int)
    (hv : 0 ≤ l ∧ l ≤ r ∧ r ≤ (vals.length : Int) - 1)
    (hi : 0 ≤ i ∧ i ≤ (vals.length : Int) - 1) (hout : i < l ∨ i > r) :
    ∃ s1 v s2 s3, RangeAdd s l r x = .ok (none, s1) ∧
      RangeMinQuery s1 i i = .ok ((v, none), s2) ∧
      RangeMinQuery s i i = .ok ((v, none), s3) := by
  have hsh := hs.shape
  obtain ⟨s1, q1, hs1, _, k1⟩ := RangeAdd_point vals.length s hsh l r x hv.1 hv.2.1 hv.2.2
  obtain ⟨s2, q2, _⟩ := RangeMinQuery_qval vals.length s1 hs1 i i hi.1 (le_refl _) hi.2
  obtain ⟨s3, q3, _⟩ := RangeMinQuery_qval vals.length s hsh i i hi.1 (le_refl _) hi.2
  rw [k1 i 0 hout] at q2
  exact ⟨s1, _, s2, s3, q1, q2, q3⟩

theorem C17_update_frame_outside_range_witness :
    Reachable [0, 0] ⟨[2000000000, 0, 0], [0, 2000000000, 2000000000], 2⟩ ∧
    (0 ≤ (0 : Int) ∧ (0 : Int) ≤ 0 ∧ (0 : Int) ≤ ((([0, 0] : List Int).length : Nat) : Int) - 1) ∧
    (0 ≤ (1 : Int) ∧ (1 : Int) ≤ ((([0, 0] : List Int).length : Nat) : Int) - 1) ∧
    ((1 : Int) < 0 ∨ (1 : Int) > 0) ∧
    RangeMinQuery ⟨[2000000000, 0, 0], [0, 2000000000, 2000000000], 2⟩ 1 1 =
      .ok ((1000000010, none), ⟨[2000000000, 2000000000, 2000000000], [0, 0, 0], 2⟩) ∧
    ∃ s1 v s2 s3,
      RangeAdd ⟨[2000000000, 0, 0], [0, 2000000000, 2000000000], 2⟩ 0 0 7 = .ok (none, s1) ∧
      RangeMinQuery s1 1 1 = .ok ((v, none), s2) ∧
      RangeMinQuery ⟨[2000000000, 0, 0], [0, 2000000000, 2000000000], 2⟩ 1 1 =
        .ok ((v, none), s3) :=
  ⟨Reachable.add ⟨[0, 0, 0], [0, 0, 0], 2⟩ 0 1 2000000000 _ (Reachable.new _ (by decide))
      (by decide) (by decide) (by decide) (by decide),
    by decide, by decide, by decide, by decide,
    C17_update_frame_outside_range [0, 0]
      ⟨[2000000000, 0, 0], [0, 2000000000, 2000000000], 2⟩
      (Reachable.add ⟨[0, 0, 0], [0, 0, 0], 2⟩ 0 1 2000000000 _ (Reachable.new _ (by decide))
        (by decide) (by decide) (by decide) (by decide))
      0 0 7 1 (by decide) (by decide) (by decide)⟩

/-- C18 (as amended): for every 64-bit integer `v` (also above
`MaxPossibleNumber`) and integers `x_1 .. x_k`, `New([v])` returns the tree
with `tree = [v]`, `lazy = [0]`; the calls `RangeAdd(0, 0, x_i)` all return a
nil error and leave `lazy = [0]` and in `tree[0]` the sum `v + x_1 + ... + x_k`
reduced to 64 bits, which `RangeMinQuery(0, 0)` then returns; that is the sum
itself whenever the sum is a 64-bit value.  Both slices have length one
throughout, every access outside a slice is a fault, and the two recursions
return with depth budget one, so no slot other than `0` is touched. -/
theorem C18_single_element (v : Int) (xs : List Int) (hv : InInt64 v) :
    New [v] = .ok (some ⟨[v], [0], 1⟩, none) ∧
    run64 ⟨[v], [0], 1⟩ (xs.map (fun x => Op.add 0 0 x)) =
      .ok (xs.map (fun _ => Outcome.added none), ⟨[wrap64 (v + xs.sum)], [0], 1⟩) ∧
    RangeMinQuery64 ⟨[wrap64 (v + xs.sum)], [0], 1⟩ 0 0 =
      .ok ((wrap64 (v + xs.sum), none), ⟨[wrap64 (v + xs.sum)], [0], 1⟩) ∧
    (InInt64 (v + xs.sum) → wrap64 (v + xs.sum) = v + xs.sum) ∧
    (∀ t x : Int, recRangeAdd64 1 ⟨[t], [0], 1⟩ 0 0 0 0 0 x = .ok ⟨[wrap64 (t + x)], [0], 1⟩ ∧
      recRMQ64 1 ⟨[t], [0], 1⟩ 0 0 0 0 0 = .ok (t, ⟨[t], [0], 1⟩)) :=
  ⟨rfl, run64_single_adds xs v hv, rfl, wrap64_eq _, fun _ _ => ⟨rfl, rfl⟩⟩

theorem C18_single_element_witness :
    InInt64 2000000000 ∧
    run64 ⟨[2000000000], [0], 1⟩ [.add 0 0 5, .add 0 0 (-7), .add 0 0 9223372036854775807,
        .add 0 0 (-9223372036854775807)] =
      .ok ([.added none, .added none, .added none, .added none],
        ⟨[1999999998], [0], 1⟩) ∧
    RangeMinQuery64 ⟨[1999999998], [0], 1⟩ 0 0 =
      .ok ((1999999998, none), ⟨[1999999998], [0], 1⟩) ∧
    New [2000000000] = .ok (some ⟨[2000000000], [0], 1⟩, none) ∧
    run64 ⟨[2000000000], [0], 1⟩
        (([5, -7, 9223372036854775807, -9223372036854775807] : List Int).map
          (fun x => Op.add 0 0 x)) =
      .ok (([5, -7, 9223372036854775807, -9223372036854775807] : List Int).map
          (fun _ => Outcome.added none),
        ⟨[wrap64 (2000000000 +
          ([5, -7, 9223372036854775807, -9223372036854775807] : List Int).sum)], [0], 1⟩) :=
  ⟨by decide, by decide, by decide,
    (C18_single_element 2000000000 [5, -7, 9223372036854775807, -9223372036854775807]
      (by decide)).1,
    (C18_single_element 2000000000 [5, -7, 9223372036854775807, -9223372036854775807]
      (by decide)).2.1⟩

/-- C18 fails as stated: `New([9223372036854775807])` followed by
`RangeAdd(0, 0, 1)` leaves `tree[0] = -9223372036854775808`, and
`RangeMinQuery(0, 0)` returns that value, where `v + x_1` is
`9223372036854775808`. -/
theorem C18_counterexample :
    New [9223372036854775807] = .ok (some ⟨[9223372036854775807], [0], 1⟩, none) ∧
    RangeAdd64 ⟨[9223372036854775807], [0], 1⟩ 0 0 1 =
      .ok (none, ⟨[-9223372036854775808], [0], 1⟩) ∧
    RangeMinQuery64 ⟨[-9223372036854775808], [0], 1⟩ 0 0 =
      .ok ((-9223372036854775808, none), ⟨[-9223372036854775808], [0], 1⟩) ∧
    (9223372036854775807 : Int) + 1 = 9223372036854775808 ∧
    (-9223372036854775808 : Int) < 9223372036854775807 + 1 := by
  decide

/-- C19: for all integers `a` and `b`, `min(a, b)` is the smallest of `a`, `b`
and `MaxPossibleNumber`; it is the minimum of `a` and `b` exactly when at least
one of them is at most `MaxPossibleNumber`; and `min()` of no arguments is
`MaxPossibleNumber`. -/
theorem C19_min_is_capped_at_sentinel (a b : Int) :
    min [a, b] = Min.min (Min.min a b) MaxPossibleNumber ∧
    (min [a, b] = Min.min a b ↔ (a ≤ MaxPossibleNumber ∨ b ≤ MaxPossibleNumber)) ∧
    min [] = MaxPossibleNumber := by
  have h : min [a, b] = Min.min (Min.min a b) MaxPossibleNumber := by
    simp only [min, List.foldl]
    split_ifs <;> omega
  refine ⟨h, ?_, rfl⟩
  rw [h]
  constructor
  · intro e; omega
  · intro e; omega

end segment_tree
